import Mathlib

/-!
Verification of the colored-graph edge-enumeration engine.

The definitions below are a shallow embedding of the C++ sources
(`graph.h`, `edge_generator.h`, `edge_generator.cpp`,
`edge_generator_module.cpp`).  Machine `std::uint64_t` values are
modelled as `Nat` with explicit `% 2^64` wrapping where the source can
wrap; `std::vector` becomes `List`; the Python binding's fallible entry
point becomes an `Except` value.
-/

set_option maxRecDepth 10000

namespace GraphEnum

/-- Word modulus of the C `triu` type (`std::uint64_t`). -/
def W : Nat := 2 ^ 64

/-- Wrapping 64-bit subtraction. -/
def sub64 (a b : Nat) : Nat := (a % W + (W - b % W)) % W

/-- Wrapping 64-bit addition. -/
def add64 (a b : Nat) : Nat := (a + b) % W

/-- Bitwise complement on 64 bits (`~t`). -/
def not64 (a : Nat) : Nat := (W - 1) - a % W

/-- Two's-complement negation on 64 bits (`-t`). -/
def neg64 (a : Nat) : Nat := (W - a % W) % W

/-- Fuel-indexed population count; exact whenever the value is at most the
fuel (structural recursion keeps it kernel-reducible). -/
def popcountAux : Nat → Nat → Nat
  | 0, _ => 0
  | f + 1, n => if n = 0 then 0 else n % 2 + popcountAux f (n / 2)

/-- Population count (`__builtin_popcountll`). -/
def popcount (n : Nat) : Nat := popcountAux n n

/-- Fuel-indexed count of trailing zeros. -/
def ctzAux : Nat → Nat → Nat
  | 0, _ => 0
  | f + 1, n => if n % 2 = 1 then 0 else 1 + ctzAux f (n / 2)

/-- Count of trailing zeros (`__builtin_ctzll`); the source never applies it
to 0 (that is undefined behaviour in C). -/
def ctz (n : Nat) : Nat := ctzAux n n

/-- Bit index of the pair (i, j) in the flattened strict upper triangle
(`upperTriuIndex` in `graph.h`).  All callers guarantee `i ≠ j`, and for
in-range arguments the `Nat` subtractions cannot underflow, so `Nat`
arithmetic agrees with the unsigned source. -/
def upperTriuIndex (i j n : Nat) : Nat :=
  if i > j then j * n - (j * j + 3 * j) / 2 + i - 1
  else i * n - (i * i + 3 * i) / 2 + j - 1

/-- Per-node incidence bitmasks (`calculateDegreeFilter`): entry `k` collects
one bit for every edge (u,k), u<k, and every edge (k,v), v>k. -/
def calculateDegreeFilter (n : Nat) : List Nat :=
  (List.range n).map fun k =>
    let maxSize := n * (n - 1) / 2
    let m := (List.range k).foldl
      (fun acc u => acc ||| (1 <<< (maxSize - 1 - upperTriuIndex u k n))) 0
    (List.range' (k + 1) (n - (k + 1))).foldl
      (fun acc v => acc ||| (1 <<< (maxSize - 1 - upperTriuIndex k v n))) m

/-- Degree-bounds test (`checkDegrees`): reject when some node's masked
popcount leaves `[minDegree, maxDegree]`. -/
def checkDegrees (triAdjMat : Nat) (degreeFilter : List Nat)
    (nNodes maxDegree minDegree : Nat) : Bool :=
  (List.range nNodes).all fun i =>
    let count := popcount (triAdjMat &&& degreeFilter.getD i 0)
    !(decide (maxDegree < count) || decide (count < minDegree))

/-- Next value with the same population count (`nextBitPermutation`),
with the source's 64-bit wrapping made explicit. -/
def nextBitPermutation (v : Nat) : Nat :=
  let t := (v % W) ||| sub64 v 1
  add64 t 1 ||| (sub64 (not64 t &&& neg64 (not64 t)) 1 >>> (ctz (v % W) + 1))

/-- One shell of the enumeration in `generateEdges`: from `v`, repeatedly
step with `nextBitPermutation` while `v ≤ endv`, keeping values passing
`keep` (the degree test).  Fuel-indexed; `generateEdges` supplies
provably sufficient fuel. -/
def enumLoop (keep : Nat → Bool) : Nat → Nat → Nat → List Nat
  | 0, _, _ => []
  | fuel + 1, endv, v =>
    if v ≤ endv then
      (if keep v then [v] else []) ++ enumLoop keep fuel endv (nextBitPermutation v)
    else []

/-- Recursive color-preserving permutation generator (`generatePermutations`).
`pools c` is the list of still-unused node indices of color `c` (the
mutable `indexMap` of the source, with erase/restore made functional). -/
def genPermsAux (pools : Nat → List Nat) : List Nat → List (List Nat)
  | [] => [[]]
  | c :: rest =>
    (pools c).flatMap fun index =>
      (genPermsAux (fun x => if x = c then (pools c).erase index else pools x) rest).map
        fun p => index :: p

/-- Initial per-color index pools (the `indexMap` built in `generateEdges`). -/
def initPools (nodes : List Nat) : Nat → List Nat :=
  fun c => (List.range nodes.length).filter fun i => nodes.getD i 0 = c

/-- All color-preserving permutations (`generatePermutations` as called by
`generateEdges`). -/
def generatePermutations (nodes : List Nat) : List (List Nat) :=
  genPermsAux (initPools nodes) nodes

/-- Per-bit-position masks (`adjTriuMasks` in `generateEdges`):
entry `count` is the single bit `numTriuBits - count`. -/
def adjTriuMasks (n : Nat) : List Nat :=
  let numTriuBits := n * (n - 1) / 2 - 1
  (List.range (numTriuBits + 1)).map fun count => 1 <<< (numTriuBits - count)

/-- The `Graph` class: a candidate adjacency, the shared read-only tables,
and the eagerly computed connectivity flag and invariant representation. -/
structure Graph where
  nNodes : Nat
  nodes : List Nat
  representation : List Nat
  connected : Bool
  adjacencyTriu : Nat
  degreeFilter : List Nat
  adjacencyTriuMasks : List Nat
  permutations : List (List Nat)
deriving DecidableEq

/-- Edge-existence predicate (`Graph::isEdge`). -/
def isEdgeF (n : Nat) (masks : List Nat) (adj : Nat) (u v : Nat) : Bool :=
  if u = v then false
  else decide (adj &&& masks.getD (upperTriuIndex u v n) 0 ≠ 0)

def Graph.isEdge (g : Graph) (u v : Nat) : Bool :=
  isEdgeF g.nNodes g.adjacencyTriuMasks g.adjacencyTriu u v

/-- Lexicographic list of the node pairs (i, j), i < j, in the order the
source iterates the strict upper triangle. -/
def pairList (n : Nat) : List (Nat × Nat) :=
  (List.range n).flatMap fun i => (List.range' (i + 1) (n - (i + 1))).map fun j => (i, j)

/-- Invariant representation (`Graph::calculateRepresentation`):
total edge count, then per color the sorted degrees of its nodes, then
per unordered color pair the number of edges with those endpoint colors. -/
def calcRepresentation (nodes : List Nat) (adj : Nat)
    (degreeFilter masks : List Nat) : List Nat :=
  let nNodes := nodes.length
  let maxNode := nodes.getD (nNodes - 1) 0 + 1
  let degrees := (List.range maxNode).map fun c =>
    List.insertionSort (· ≤ ·)
      (((List.range nNodes).filter fun i => nodes.getD i 0 = c).map fun i =>
        popcount (adj &&& degreeFilter.getD i 0))
  let edgeCounts := (List.range maxNode).flatMap fun a =>
    (List.range' a (maxNode - a)).map fun b =>
      (((pairList nNodes).enum).filter fun x =>
        decide (adj &&& masks.getD x.1 0 ≠ 0) &&
        (min (nodes.getD x.2.1 0) (nodes.getD x.2.2 0) == a) &&
        (max (nodes.getD x.2.1 0) (nodes.getD x.2.2 0) == b)).length
  popcount adj :: (degrees.flatMap id ++ edgeCounts)

/-- Body of one BFS pop in `Graph::checkConnected`: scan all nodes, marking
and enqueueing the unvisited neighbours of `current`. -/
def bfsScan (n : Nat) (masks : List Nat) (adj : Nat) (current : Nat)
    (s : Nat × List Nat) : Nat × List Nat :=
  (List.range n).foldl
    (fun vq i =>
      if vq.1 &&& (1 <<< i) = 0 ∧ isEdgeF n masks adj current i = true then
        (vq.1 ||| (1 <<< i), vq.2 ++ [i])
      else vq)
    s

/-- The BFS while-loop of `Graph::checkConnected`, counting pops.
Fuel-indexed; `n + 1` units of fuel are provably sufficient. -/
def bfsLoop (n : Nat) (masks : List Nat) (adj : Nat) :
    Nat → List Nat → Nat → Nat → Nat
  | 0, _, _, visitedCount => visitedCount
  | _ + 1, [], _, visitedCount => visitedCount
  | fuel + 1, current :: rest, visited, visitedCount =>
    let s := bfsScan n masks adj current (visited, rest)
    bfsLoop n masks adj fuel s.2 s.1 (visitedCount + 1)

/-- Connectivity check (`Graph::checkConnected`): BFS from node 0, connected
iff the number of pops equals `n`. -/
def checkConnectedF (n : Nat) (masks : List Nat) (adj : Nat) : Bool :=
  bfsLoop n masks adj (n + 1) [0] 1 0 == n

/-- The `Graph` constructor: caches connectivity and representation. -/
def Graph.make (nodes : List Nat) (adj : Nat) (df masks : List Nat)
    (perms : List (List Nat)) : Graph :=
  { nNodes := nodes.length
    nodes := nodes
    representation := calcRepresentation nodes adj df masks
    connected := checkConnectedF nodes.length masks adj
    adjacencyTriu := adj
    degreeFilter := df
    adjacencyTriuMasks := masks
    permutations := perms }

/-- Isomorphism test (`Graph::operator==`): representations must agree, then
some shared permutation must carry the edge set of `a` onto that of `b`. -/
def graphEq (a b : Graph) : Bool :=
  if a.representation ≠ b.representation then false
  else a.permutations.any fun p =>
    (List.range a.nNodes).all fun i =>
      (List.range' (i + 1) (a.nNodes - (i + 1))).all fun j =>
        a.isEdge i j == b.isEdge (p.getD i 0) (p.getD j 0)

/-- Edge-list extraction (`Graph::getEdges`). -/
def Graph.getEdges (g : Graph) : List (Nat × Nat) :=
  (pairList g.nNodes).filter fun e => g.isEdge e.1 e.2

/-- Insert one graph into the representation-keyed buckets (the
`uniqueGraphs` map of `generateEdges`): find the bucket with this
representation; append the graph unless an already-retained graph in the
bucket tests equal to it. -/
def dedupInsert (buckets : List (List Nat × List Graph)) (g : Graph) :
    List (List Nat × List Graph) :=
  match buckets with
  | [] => [(g.representation, [g])]
  | (k, gs) :: rest =>
    if k = g.representation then
      if gs.any fun u => graphEq u g then (k, gs) :: rest
      else (k, gs ++ [g]) :: rest
    else (k, gs) :: dedupInsert rest g

/-- Candidate bitsets produced by the per-edge-count enumeration phase of
`generateEdges` (shells `i = nNodes-1 .. totalMaxEdges`).  The edge budget
`nNodes * maxDegree / 2` is computed on 32-bit `unsigned int` in the
source, so the product wraps modulo `2^32`. -/
def candidateTrius (nodes : List Nat) (maxDegree minDegree : Nat) : List Nat :=
  let nNodes := nodes.length
  let degreeFilter := calculateDegreeFilter nNodes
  let totalMaxEdges := min (nNodes * maxDegree % 2 ^ 32 / 2) (nNodes * (nNodes - 1) / 2)
  let triuSize := nNodes * (nNodes - 1) / 2
  (List.range' (nNodes - 1) (totalMaxEdges + 1 - (nNodes - 1))).flatMap fun i =>
    let v := (1 <<< i) - 1
    let endv := v <<< (triuSize - i)
    enumLoop (fun w => checkDegrees w degreeFilter nNodes maxDegree minDegree)
      (endv + 1) endv v

/-- The connected candidate graphs of `generateEdges`. -/
def connectedGraphs (nodes : List Nat) (maxDegree minDegree : Nat) : List Graph :=
  let nNodes := nodes.length
  let df := calculateDegreeFilter nNodes
  let masks := adjTriuMasks nNodes
  let perms := generatePermutations nodes
  ((candidateTrius nodes maxDegree minDegree).map fun t =>
    Graph.make nodes t df masks perms).filter fun g => g.connected

/-- The deduplicated graphs (`uniqueGraphsList` in `generateEdges`). -/
def uniqueGraphsList (nodes : List Nat) (maxDegree minDegree : Nat) : List Graph :=
  ((connectedGraphs nodes maxDegree minDegree).foldl dedupInsert []).flatMap fun b => b.2

/-- The main entry point `generateEdges`. -/
def generateEdges (nodes : List Nat) (maxDegree minDegree : Nat) :
    List (List (Nat × Nat)) :=
  (uniqueGraphsList nodes maxDegree minDegree).map Graph.getEdges

/-- Error kinds raised by the binding layer `generatePyEdges`
(`PyExc_ValueError` cases, in source order). -/
inductive GenError where
  | maxLessThanMin
  | negativeMinDegree
  | emptyNodes
  | tooManyNodes
  | negativeNode
  | firstNotZero
  | notIncreasing
deriving DecidableEq

/-- Per-element validation loop of `generatePyEdges` after the first
element: sign check, then the contiguity step check. -/
def convertNodesAux (prev : Nat) : List Int → Except GenError (List Nat)
  | [] => .ok []
  | node :: rest =>
    if node < 0 then .error .negativeNode
    else if node ≠ (prev : Int) ∧ node ≠ (prev : Int) + 1 then .error .notIncreasing
    else (convertNodesAux node.toNat rest).map fun tail => node.toNat :: tail

/-- Per-element validation loop of `generatePyEdges`: sign check, the
first element must be 0, subsequent elements must step by 0 or 1. -/
def convertNodes : List Int → Except GenError (List Nat)
  | [] => .ok []
  | node :: rest =>
    if node < 0 then .error .negativeNode
    else if node ≠ 0 then .error .firstNotZero
    else (convertNodesAux 0 rest).map fun tail => 0 :: tail

/-- The binding-layer wrapper `generatePyEdges`: validation in source order,
then dispatch to `generateEdges` (or the fixed single-node answer). -/
def generatePyEdges (nodeTuple : List Int) (maxDegree minDegree : Int) :
    Except GenError (List (List (Nat × Nat))) :=
  if maxDegree < minDegree then .error .maxLessThanMin
  else if minDegree < 0 then .error .negativeMinDegree
  else if nodeTuple.length = 0 then .error .emptyNodes
  else if nodeTuple.length > 11 then .error .tooManyNodes
  else
    match convertNodes nodeTuple with
    | .error e => .error e
    | .ok nodes =>
      if nodeTuple.length > 1 then
        .ok (generateEdges nodes maxDegree.toNat minDegree.toNat)
      else .ok [[]]

/-! ### Specification-level notions used to state the claims -/

/-- The machine bit position actually used for the pair (i, j). -/
def bitPos (n i j : Nat) : Nat := n * (n - 1) / 2 - 1 - upperTriuIndex i j n

/-- Edge (i, j) is present in the adjacency encoding `a`. -/
def edgeIn (n a i j : Nat) : Bool := a.testBit (bitPos n i j)

/-- Number of edges of the adjacency encoding `a`. -/
def edgeCount (n a : Nat) : Nat :=
  ((pairList n).filter fun e => edgeIn n a e.1 e.2).length

/-- Degree of node `v`: the number of present edges incident to `v`. -/
def degreeOf (n a v : Nat) : Nat :=
  ((pairList n).filter fun e => edgeIn n a e.1 e.2 && (e.1 == v || e.2 == v)).length

/-- A color-preserving permutation of `{0..n-1}`, given as its image list. -/
def IsColorPerm (nodes : List Nat) (p : List Nat) : Prop :=
  p.length = nodes.length ∧ p.Nodup ∧
    ∀ k, k < nodes.length →
      p.getD k 0 < nodes.length ∧ nodes.getD (p.getD k 0) 0 = nodes.getD k 0

/-- Two adjacency encodings are isomorphic: some color-preserving
relabeling carries the edges of `a` exactly onto the edges of `b`. -/
def IsoAdj (nodes : List Nat) (a b : Nat) : Prop :=
  ∃ p, IsColorPerm nodes p ∧ ∀ i j, i < j → j < nodes.length →
    edgeIn nodes.length a i j = edgeIn nodes.length b (p.getD i 0) (p.getD j 0)

/-- The adjacency relation induced by encoding `a` on nodes `{0..n-1}`. -/
def AdjRel (n a : Nat) (u v : Nat) : Prop :=
  u < n ∧ v < n ∧ u ≠ v ∧ edgeIn n a u v = true

/-- Specification connectivity: every node is reachable from node 0. -/
def ConnectedAdj (n a : Nat) : Prop :=
  ∀ v, v < n → Relation.ReflTransGen (AdjRel n a) 0 v

/-- Adjacency encoding of an explicit edge list. -/
def adjOfEdges (n : Nat) (L : List (Nat × Nat)) : Nat :=
  L.foldl (fun acc e => acc ||| (1 <<< bitPos n e.1 e.2)) 0

/-- The caller contract on colorings: nonempty, first color 0, each color
equal to or one more than its predecessor. -/
def validColoringAux : Nat → List Nat → Bool
  | _, [] => true
  | prev, c :: rest => (c == prev || c == prev + 1) && validColoringAux c rest

def validColoring (nodes : List Nat) : Bool :=
  match nodes with
  | [] => false
  | c :: rest => c == 0 && validColoringAux c rest

/-- Specification-side invariant vector, following the spec's words:
total edge count, then for each color in increasing id the sorted degrees
of its nodes, then for each unordered color pair (a ≤ b) in increasing
order the count of edges with endpoint colors a and b. -/
def reprSpec (nodes : List Nat) (a : Nat) : List Nat :=
  let n := nodes.length
  let maxNode := nodes.getD (n - 1) 0 + 1
  edgeCount n a ::
    ((((List.range maxNode).map fun c =>
        List.insertionSort (· ≤ ·)
          (((List.range n).filter fun i => nodes.getD i 0 = c).map fun i =>
            degreeOf n a i))).flatMap id
      ++ ((List.range maxNode).flatMap fun c1 =>
        (List.range' c1 (maxNode - c1)).map fun c2 =>
          ((pairList n).filter fun e => edgeIn n a e.1 e.2 &&
            (min (nodes.getD e.1 0) (nodes.getD e.2 0) == c1) &&
            (max (nodes.getD e.1 0) (nodes.getD e.2 0) == c2)).length))

/-! ### Population-count toolkit -/

lemma popcountAux_zero : ∀ f, popcountAux f 0 = 0
  | 0 => rfl
  | _ + 1 => by simp [popcountAux]

lemma popcountAux_congr : ∀ f f' n, n ≤ f → n ≤ f' → popcountAux f n = popcountAux f' n := by
  intro f
  induction f with
  | zero => intro f' n hf _; interval_cases n; rw [popcountAux_zero, popcountAux_zero]
  | succ f ih =>
    intro f' n hf hf'
    match f', n with
    | _, 0 => rw [popcountAux_zero, popcountAux_zero]
    | 0, n + 1 => omega
    | f' + 1, n + 1 =>
      simp only [popcountAux, if_neg (Nat.succ_ne_zero n)]
      have h1 : (n + 1) / 2 ≤ f := by omega
      have h2 : (n + 1) / 2 ≤ f' := by omega
      rw [ih _ _ h1 h2]

lemma popcountAux_eq (f n : Nat) (h : n ≤ f) : popcountAux f n = popcount n :=
  popcountAux_congr f n n h le_rfl

@[simp] lemma popcount_zero : popcount 0 = 0 := rfl

lemma popcount_pos_step (n : Nat) (h : n ≠ 0) :
    popcount n = n % 2 + popcount (n / 2) := by
  obtain ⟨m, rfl⟩ : ∃ m, n = m + 1 := ⟨n - 1, by omega⟩
  show popcountAux (m + 1) (m + 1) = _
  simp only [popcountAux, if_neg h]
  rw [popcountAux_eq m ((m + 1) / 2) (by omega)]

lemma popcount_two_mul (n : Nat) : popcount (2 * n) = popcount n := by
  rcases Nat.eq_zero_or_pos n with rfl | hn
  · simp
  · rw [popcount_pos_step (2 * n) (by omega)]
    simp [Nat.mul_div_cancel_left n (by omega : 0 < 2), Nat.mul_mod_right]

lemma popcount_two_mul_add_one (n : Nat) : popcount (2 * n + 1) = popcount n + 1 := by
  rw [popcount_pos_step (2 * n + 1) (by omega)]
  have h1 : (2 * n + 1) % 2 = 1 := by omega
  have h2 : (2 * n + 1) / 2 = n := by omega
  rw [h1, h2, Nat.add_comm]

lemma popcount_mul_pow_add :
    ∀ (k a b : Nat), b < 2 ^ k → popcount (a * 2 ^ k + b) = popcount a + popcount b := by
  intro k
  induction k with
  | zero => intro a b hb; interval_cases b; simp
  | succ k ih =>
    intro a b hb
    have hsplit : a * 2 ^ (k + 1) + b = 2 * (a * 2 ^ k + b / 2) + b % 2 := by
      have := Nat.div_add_mod b 2
      ring_nf
      omega
    have hb2 : b / 2 < 2 ^ k := by
      have : 2 ^ (k + 1) = 2 * 2 ^ k := by ring
      omega
    rcases Nat.mod_two_eq_zero_or_one b with h | h
    · have hb' : b = 2 * (b / 2) := by omega
      rw [hsplit, h, Nat.add_zero, popcount_two_mul, ih _ _ hb2]
      conv_rhs => rw [hb', popcount_two_mul]
    · have hb' : b = 2 * (b / 2) + 1 := by omega
      rw [hsplit, h, popcount_two_mul_add_one, ih _ _ hb2]
      conv_rhs => rw [hb', popcount_two_mul_add_one]
      omega

lemma popcount_two_pow_sub_one : ∀ k, popcount (2 ^ k - 1) = k := by
  intro k
  induction k with
  | zero => simp
  | succ k ih =>
    have h : 2 ^ (k + 1) - 1 = 2 * (2 ^ k - 1) + 1 := by
      have : 1 ≤ 2 ^ k := Nat.one_le_two_pow
      have : 2 ^ (k + 1) = 2 * 2 ^ k := by ring
      omega
    rw [h, popcount_two_mul_add_one, ih]

lemma popcount_two_pow (k : Nat) : popcount (2 ^ k) = 1 := by
  have h := popcount_mul_pow_add k 1 0 (Nat.two_pow_pos k)
  simpa using h

lemma popcount_eq_zero {n : Nat} : popcount n = 0 ↔ n = 0 := by
  constructor
  · intro h
    by_contra hn
    induction n using Nat.strong_induction_on with
    | _ n ih =>
      rw [popcount_pos_step n hn] at h
      rcases Nat.mod_two_eq_zero_or_one n with h2 | h2
      · have hdiv : n / 2 ≠ 0 := by omega
        exact ih (n / 2) (by omega) (by omega) hdiv
      · omega
  · rintro rfl; rfl

lemma popcount_le_of_lt_two_pow : ∀ (k n : Nat), n < 2 ^ k → popcount n ≤ k := by
  intro k
  induction k with
  | zero => intro n h; interval_cases n; simp
  | succ k ih =>
    intro n h
    rcases Nat.eq_zero_or_pos n with rfl | hn
    · simp
    · rw [popcount_pos_step n (by omega)]
      have : n / 2 < 2 ^ k := by
        have : 2 ^ (k + 1) = 2 * 2 ^ k := by ring
        omega
      have := ih (n / 2) this
      omega

lemma eq_two_pow_sub_one_of_popcount :
    ∀ (k n : Nat), n < 2 ^ k → popcount n = k → n = 2 ^ k - 1 := by
  intro k
  induction k with
  | zero => intro n h _; interval_cases n; rfl
  | succ k ih =>
    intro n h hp
    have hn : n ≠ 0 := by
      intro h0; rw [h0] at hp; simp at hp
    rw [popcount_pos_step n hn] at hp
    have h2 : n / 2 < 2 ^ k := by
      have : 2 ^ (k + 1) = 2 * 2 ^ k := by ring
      omega
    have hle := popcount_le_of_lt_two_pow k (n / 2) h2
    have hm : n % 2 = 1 := by omega
    have hpk : popcount (n / 2) = k := by omega
    have := ih (n / 2) h2 hpk
    have h1 : 1 ≤ 2 ^ k := Nat.one_le_two_pow
    have : 2 ^ (k + 1) = 2 * 2 ^ k := by ring
    omega

lemma two_pow_sub_one_le_of_popcount (n : Nat) : 2 ^ popcount n - 1 ≤ n := by
  induction n using Nat.strong_induction_on with
  | _ n ih =>
    rcases Nat.eq_zero_or_pos n with rfl | hn
    · simp
    · rw [popcount_pos_step n (by omega)]
      have hlt : n / 2 < n := Nat.div_lt_self hn (by omega)
      have ihh := ih (n / 2) hlt
      rcases Nat.mod_two_eq_zero_or_one n with h2 | h2
      · rw [h2, Nat.zero_add]
        have : n = 2 * (n / 2) := by omega
        have h1 : 1 ≤ 2 ^ popcount (n / 2) := Nat.one_le_two_pow
        omega
      · rw [h2]
        have : n = 2 * (n / 2) + 1 := by omega
        have : 2 ^ (1 + popcount (n / 2)) = 2 * 2 ^ popcount (n / 2) := by
          rw [pow_add]; ring
        omega

lemma le_top_of_popcount : ∀ (k n : Nat), n < 2 ^ k →
    n ≤ (2 ^ popcount n - 1) * 2 ^ (k - popcount n) := by
  intro k
  induction k with
  | zero => intro n h; interval_cases n; simp
  | succ k ih =>
    intro n h
    by_cases hlt : n < 2 ^ k
    · have h1 := ih n hlt
      have hc := popcount_le_of_lt_two_pow k n hlt
      calc n ≤ (2 ^ popcount n - 1) * 2 ^ (k - popcount n) := h1
        _ ≤ (2 ^ popcount n - 1) * 2 ^ (k + 1 - popcount n) := by
            apply Nat.mul_le_mul_left
            exact Nat.pow_le_pow_right (by omega) (by omega)
    · push_neg at hlt
      set r := n - 2 ^ k with hr
      have hrn : n = 1 * 2 ^ k + r := by omega
      have hrlt : r < 2 ^ k := by
        have : 2 ^ (k + 1) = 2 * 2 ^ k := by ring
        omega
      have hp : popcount n = 1 + popcount r := by
        rw [hrn, popcount_mul_pow_add k 1 r hrlt]
        have h1 : popcount 1 = 1 := rfl
        omega
      have h1 := ih r hrlt
      have hc := popcount_le_of_lt_two_pow k r hrlt
      have hps : 2 ^ (1 + popcount r) = 2 * 2 ^ popcount r := by
        rw [pow_add]; ring
      have hksub : k + 1 - (1 + popcount r) = k - popcount r := by omega
      have hpow : 2 ^ popcount r * 2 ^ (k - popcount r) = 2 ^ k := by
        rw [← pow_add]; congr 1; omega
      have e1 : (2 ^ popcount r - 1) * 2 ^ (k - popcount r) = 2 ^ k - 2 ^ (k - popcount r) := by
        rw [Nat.sub_mul, hpow, Nat.one_mul]
      have e2 : (2 * 2 ^ popcount r - 1) * 2 ^ (k - popcount r)
          = 2 * 2 ^ k - 2 ^ (k - popcount r) := by
        rw [Nat.sub_mul, Nat.mul_assoc, hpow, Nat.one_mul]
      have hBC : 2 ^ (k - popcount r) ≤ 2 ^ k := Nat.pow_le_pow_right (by omega) (by omega)
      rw [hp, hksub, hps, e2]
      rw [e1] at h1
      omega

lemma popcount_eq_sum : ∀ (k n : Nat), n < 2 ^ k →
    popcount n = ∑ i ∈ Finset.range k, (if n.testBit i then 1 else 0) := by
  intro k
  induction k with
  | zero => intro n h; interval_cases n; simp
  | succ k ih =>
    intro n h
    have hble : n / 2 ^ k ≤ 1 := by
      have h2 : 2 ^ (k + 1) = 2 * 2 ^ k := by ring
      have hpos := Nat.two_pow_pos k
      have := (Nat.div_lt_iff_lt_mul hpos).mpr (by omega : n < 2 * 2 ^ k)
      omega
    have hrlt : n % 2 ^ k < 2 ^ k := Nat.mod_lt _ (Nat.two_pow_pos k)
    have hn : n = 2 ^ k * (n / 2 ^ k) + n % 2 ^ k := (Nat.div_add_mod n (2 ^ k)).symm
    have hpc : popcount n = popcount (n / 2 ^ k) + popcount (n % 2 ^ k) := by
      conv_lhs => rw [hn, Nat.mul_comm]
      exact popcount_mul_pow_add k _ _ hrlt
    have htk : n.testBit k = decide (n / 2 ^ k = 1) := by
      rw [Nat.testBit_to_div_mod]
      have : n / 2 ^ k % 2 = n / 2 ^ k := Nat.mod_eq_of_lt (by omega)
      rw [this]
    have hti : ∀ i ∈ Finset.range k, n.testBit i = (n % 2 ^ k).testBit i := by
      intro i hi
      conv_lhs => rw [hn]
      rw [Nat.testBit_mul_pow_two_add _ hrlt i]
      simp [Finset.mem_range.mp hi]
    rw [Finset.sum_range_succ, Finset.sum_congr rfl (fun i hi => by rw [hti i hi]),
      ← ih _ hrlt, hpc, htk]
    interval_cases h1 : n / 2 ^ k
    · simp
    · have hone : popcount 1 = 1 := rfl
      simp [hone, Nat.add_comm]

lemma popcount_eq_card (k n : Nat) (h : n < 2 ^ k) :
    popcount n = ((Finset.range k).filter fun i => n.testBit i).card := by
  rw [popcount_eq_sum k n h, Finset.card_filter]

/-- `a &&& 2^p` isolates bit `p`. -/
lemma and_two_pow_eq (a p : Nat) : a &&& 2 ^ p = if a.testBit p then 2 ^ p else 0 := by
  apply Nat.eq_of_testBit_eq
  intro i
  by_cases h : a.testBit p
  · simp only [h, if_true, Nat.testBit_and, Nat.testBit_two_pow]
    by_cases hip : p = i
    · subst hip; simp [h]
    · simp [hip, Ne.symm hip]
  · simp only [h, if_false, Nat.testBit_and, Nat.testBit_two_pow, Nat.zero_testBit]
    by_cases hip : p = i
    · subst hip; simp [h]
    · simp [hip]

lemma and_two_pow_ne_zero (a p : Nat) : (a &&& 2 ^ p ≠ 0) ↔ a.testBit p = true := by
  rw [and_two_pow_eq]
  by_cases h : a.testBit p
  · simp [h, (Nat.two_pow_pos p).ne']
  · simp [h]

/-! ### The pair/index correspondence of the triangular encoding -/

lemma mem_pairList {n i j : Nat} : (i, j) ∈ pairList n ↔ i < j ∧ j < n := by
  unfold pairList
  rw [List.mem_flatMap]
  constructor
  · rintro ⟨a, ha, hm⟩
    rw [List.mem_map] at hm
    obtain ⟨b, hb, heq⟩ := hm
    rw [List.mem_range] at ha
    rw [List.mem_range'] at hb
    obtain ⟨d, hd, rfl⟩ := hb
    cases heq
    omega
  · rintro ⟨hij, hj⟩
    refine ⟨i, List.mem_range.mpr (by omega), ?_⟩
    rw [List.mem_map]
    refine ⟨j, ?_, rfl⟩
    rw [List.mem_range']
    exact ⟨j - (i + 1), by omega, by omega⟩

/-- For every feasible node count, mapping each pair to its flattened index
enumerates exactly `0, 1, …, n(n-1)/2 - 1` in order. -/
lemma pairIdx_map : ∀ n, n ≤ 11 → 2 ≤ n →
    (pairList n).map (fun e => upperTriuIndex e.1 e.2 n) = List.range (n * (n - 1) / 2) := by
  decide

lemma pairIdx_map_nodup {n : Nat} (h11 : n ≤ 11) (h2 : 2 ≤ n) :
    ((pairList n).map fun e => upperTriuIndex e.1 e.2 n).Nodup := by
  rw [pairIdx_map n h11 h2]; exact List.nodup_range _

lemma pairList_nodup {n : Nat} (h11 : n ≤ 11) (h2 : 2 ≤ n) : (pairList n).Nodup :=
  List.Nodup.of_map _ (pairIdx_map_nodup h11 h2)

lemma upperTriuIndex_lt {n i j : Nat} (h11 : n ≤ 11) (h2 : 2 ≤ n)
    (hij : i < j) (hj : j < n) : upperTriuIndex i j n < n * (n - 1) / 2 := by
  have hm : (i, j) ∈ pairList n := mem_pairList.mpr ⟨hij, hj⟩
  have : upperTriuIndex i j n ∈
      (pairList n).map (fun e => upperTriuIndex e.1 e.2 n) :=
    List.mem_map_of_mem _ hm
  rw [pairIdx_map n h11 h2] at this
  exact List.mem_range.mp this

lemma upperTriuIndex_injOn {n : Nat} (h11 : n ≤ 11) (h2 : 2 ≤ n)
    {i j i' j' : Nat} (hij : i < j) (hj : j < n) (hij' : i' < j') (hj' : j' < n)
    (h : upperTriuIndex i j n = upperTriuIndex i' j' n) : i = i' ∧ j = j' := by
  have h1 : (i, j) ∈ pairList n := mem_pairList.mpr ⟨hij, hj⟩
  have h2' : (i', j') ∈ pairList n := mem_pairList.mpr ⟨hij', hj'⟩
  have heq := List.inj_on_of_nodup_map (pairIdx_map_nodup h11 h2) h1 h2' h
  exact ⟨congrArg Prod.fst heq, congrArg Prod.snd heq⟩

lemma upperTriuIndex_comm (i j n : Nat) : upperTriuIndex i j n = upperTriuIndex j i n := by
  unfold upperTriuIndex
  rcases lt_trichotomy i j with h | h | h
  · rw [if_neg (by omega), if_pos h]
  · subst h; rfl
  · rw [if_pos h, if_neg (by omega)]

lemma bitPos_comm (n i j : Nat) : bitPos n i j = bitPos n j i := by
  unfold bitPos; rw [upperTriuIndex_comm]

lemma edgeIn_comm (n a i j : Nat) : edgeIn n a i j = edgeIn n a j i := by
  unfold edgeIn; rw [bitPos_comm]

lemma triuSize_pos {n : Nat} (h2 : 2 ≤ n) : 1 ≤ n * (n - 1) / 2 := by
  have h : 2 * 1 ≤ n * (n - 1) := Nat.mul_le_mul h2 (by omega)
  omega

lemma bitPos_lt {n i j : Nat} (h2 : 2 ≤ n) : bitPos n i j < n * (n - 1) / 2 := by
  have := triuSize_pos h2
  unfold bitPos
  omega

lemma bitPos_injOn {n : Nat} (h11 : n ≤ 11) (h2 : 2 ≤ n)
    {i j i' j' : Nat} (hij : i < j) (hj : j < n) (hij' : i' < j') (hj' : j' < n)
    (h : bitPos n i j = bitPos n i' j') : i = i' ∧ j = j' := by
  apply upperTriuIndex_injOn h11 h2 hij hj hij' hj'
  have l1 := upperTriuIndex_lt h11 h2 hij hj
  have l2 := upperTriuIndex_lt h11 h2 hij' hj'
  unfold bitPos at h
  omega

lemma adjTriuMasks_getD {n c : Nat} (h2 : 2 ≤ n) (hc : c < n * (n - 1) / 2) :
    (adjTriuMasks n).getD c 0 = 2 ^ (n * (n - 1) / 2 - 1 - c) := by
  have hts := triuSize_pos h2
  unfold adjTriuMasks
  have hrange : c < n * (n - 1) / 2 - 1 + 1 := by omega
  simp only [List.getD_eq_getElem?_getD, List.getElem?_map, List.getElem?_range hrange,
    Option.map_some', Option.getD_some]
  rw [Nat.one_shiftLeft]

/-- `Graph::isEdge` against the shared masks coincides with the
specification edge predicate. -/
lemma isEdgeF_eq_edgeIn {n : Nat} (h11 : n ≤ 11) (h2 : 2 ≤ n) (a : Nat)
    {i j : Nat} (hij : i ≠ j) (hi : i < n) (hj : j < n) :
    isEdgeF n (adjTriuMasks n) a i j = edgeIn n a i j := by
  unfold isEdgeF
  rw [if_neg hij]
  have hidx : upperTriuIndex i j n < n * (n - 1) / 2 := by
    rcases Nat.lt_or_ge i j with h | h
    · exact upperTriuIndex_lt h11 h2 h hj
    · rw [upperTriuIndex_comm]
      exact upperTriuIndex_lt h11 h2 (by omega) hi
  rw [adjTriuMasks_getD h2 hidx]
  show decide _ = edgeIn n a i j
  unfold edgeIn bitPos
  by_cases hb : a.testBit (n * (n - 1) / 2 - 1 - upperTriuIndex i j n)
  · simp [hb, (and_two_pow_ne_zero a _).mpr hb]
  · have : ¬ (a &&& 2 ^ (n * (n - 1) / 2 - 1 - upperTriuIndex i j n) ≠ 0) := by
      intro hne
      exact hb ((and_two_pow_ne_zero a _).mp hne)
    simp [hb, this]

/-! ### Degree filters -/

lemma foldl_or_testBit {α : Type} (l : List α) (f : α → Nat) (init p : Nat) :
    ((l.foldl (fun acc x => acc ||| f x) init).testBit p) =
      (init.testBit p || l.any fun x => (f x).testBit p) := by
  induction l generalizing init with
  | nil => simp
  | cons x xs ih =>
    simp only [List.foldl_cons, List.any_cons, ih, Nat.testBit_or, Bool.or_assoc]

lemma foldl_or_lt {α : Type} (l : List α) (f : α → Nat) (init B : Nat)
    (hinit : init < 2 ^ B) (hf : ∀ x ∈ l, f x < 2 ^ B) :
    l.foldl (fun acc x => acc ||| f x) init < 2 ^ B := by
  induction l generalizing init with
  | nil => simpa using hinit
  | cons x xs ih =>
    simp only [List.foldl_cons]
    exact ih _ (Nat.or_lt_two_pow hinit (hf x (by simp))) fun y hy => hf y (by simp [hy])

lemma calculateDegreeFilter_getD {n k : Nat} (hk : k < n) :
    (calculateDegreeFilter n).getD k 0 =
      (List.range' (k + 1) (n - (k + 1))).foldl
        (fun acc v => acc ||| (1 <<< (n * (n - 1) / 2 - 1 - upperTriuIndex k v n)))
        ((List.range k).foldl
          (fun acc u => acc ||| (1 <<< (n * (n - 1) / 2 - 1 - upperTriuIndex u k n))) 0) := by
  unfold calculateDegreeFilter
  simp only [List.getD_eq_getElem?_getD, List.getElem?_map, List.getElem?_range hk,
    Option.map_some', Option.getD_some]

/-- Bit `p` of node `k`'s degree filter is set exactly when `p` encodes a
pair containing `k`. -/
lemma degreeFilter_testBit {n k : Nat} (hk : k < n) (p : Nat) :
    ((calculateDegreeFilter n).getD k 0).testBit p = true ↔
      ∃ i j, i < j ∧ j < n ∧ (i = k ∨ j = k) ∧ p = bitPos n i j := by
  rw [calculateDegreeFilter_getD hk, foldl_or_testBit, foldl_or_testBit]
  simp only [Nat.zero_testBit, Bool.false_or, Bool.or_eq_true, List.any_eq_true,
    Nat.one_shiftLeft, Nat.testBit_two_pow, decide_eq_true_eq]
  constructor
  · rintro (⟨u, hu, hp⟩ | ⟨v, hv, hp⟩)
    · rw [List.mem_range] at hu
      exact ⟨u, k, hu, hk, Or.inr rfl, hp.symm⟩
    · rw [List.mem_range'] at hv
      obtain ⟨d, hd, rfl⟩ := hv
      exact ⟨k, k + 1 + 1 * d, by omega, by omega, Or.inl rfl, hp.symm⟩
  · rintro ⟨i, j, hij, hj, hik | hjk, hp⟩
    · subst hik
      refine Or.inr ⟨j, ?_, hp.symm⟩
      rw [List.mem_range']
      exact ⟨j - (i + 1), by omega, by omega⟩
    · subst hjk
      exact Or.inl ⟨i, List.mem_range.mpr hij, hp.symm⟩

lemma degreeFilter_lt {n k : Nat} (h2 : 2 ≤ n) (hk : k < n) :
    (calculateDegreeFilter n).getD k 0 < 2 ^ (n * (n - 1) / 2) := by
  have hts := triuSize_pos h2
  rw [calculateDegreeFilter_getD hk]
  apply foldl_or_lt
  · apply foldl_or_lt
    · exact Nat.two_pow_pos _
    · intro u _
      rw [Nat.one_shiftLeft]
      exact Nat.pow_lt_pow_right (by omega) (by omega)
  · intro v _
    rw [Nat.one_shiftLeft]
    exact Nat.pow_lt_pow_right (by omega) (by omega)

lemma length_filter_eq_card_filter {α : Type} [DecidableEq α] {l : List α} (hl : l.Nodup)
    (p : α → Bool) :
    (l.filter p).length = (l.toFinset.filter (fun x => p x = true)).card := by
  have h1 : (l.filter p).toFinset = l.toFinset.filter (fun x => p x = true) := by
    ext x
    simp [List.mem_filter]
  rw [← h1, List.toFinset_card_of_nodup (hl.filter p)]

/-- The degree-filter invariant: masking an adjacency with node `k`'s filter
and counting bits yields exactly the degree of `k`. -/
lemma popcount_and_degreeFilter {n a k : Nat} (h11 : n ≤ 11) (h2 : 2 ≤ n) (hk : k < n) :
    popcount (a &&& (calculateDegreeFilter n).getD k 0) = degreeOf n a k := by
  have hlt : a &&& (calculateDegreeFilter n).getD k 0 < 2 ^ (n * (n - 1) / 2) :=
    Nat.and_lt_two_pow a (degreeFilter_lt h2 hk)
  rw [popcount_eq_card _ _ hlt]
  unfold degreeOf
  rw [length_filter_eq_card_filter (pairList_nodup h11 h2)]
  symm
  refine Finset.card_bij (fun e _ => bitPos n e.1 e.2) ?_ ?_ ?_
  · rintro ⟨i, j⟩ he
    rw [Finset.mem_filter, List.mem_toFinset, mem_pairList] at he
    obtain ⟨⟨hij, hj⟩, hq⟩ := he
    rw [Bool.and_eq_true, Bool.or_eq_true] at hq
    obtain ⟨hedge, htouch⟩ := hq
    rw [Finset.mem_filter, Finset.mem_range]
    refine ⟨bitPos_lt h2, ?_⟩
    rw [Nat.testBit_and, Bool.and_eq_true]
    constructor
    · exact hedge
    · rw [degreeFilter_testBit hk]
      refine ⟨i, j, hij, hj, ?_, rfl⟩
      rcases htouch with h | h
      · exact Or.inl (by simpa using h)
      · exact Or.inr (by simpa using h)
  · rintro ⟨i, j⟩ he ⟨i', j'⟩ he' hbit
    rw [Finset.mem_filter, List.mem_toFinset, mem_pairList] at he he'
    have := bitPos_injOn h11 h2 he.1.1 he.1.2 he'.1.1 he'.1.2 hbit
    exact Prod.ext this.1 this.2
  · intro p hp
    rw [Finset.mem_filter, Finset.mem_range, Nat.testBit_and, Bool.and_eq_true] at hp
    obtain ⟨hplt, hta, htf⟩ := hp
    rw [degreeFilter_testBit hk] at htf
    obtain ⟨i, j, hij, hj, htouch, rfl⟩ := htf
    refine ⟨(i, j), ?_, rfl⟩
    rw [Finset.mem_filter, List.mem_toFinset, mem_pairList]
    refine ⟨⟨hij, hj⟩, ?_⟩
    rw [Bool.and_eq_true, Bool.or_eq_true]
    constructor
    · exact hta
    · rcases htouch with h | h
      · exact Or.inl (by simp [h])
      · exact Or.inr (by simp [h])

/-! ### The binding-layer contract -/

/-- Contiguity contract on the raw integer colors, from the second element
on: each element equals its predecessor or its predecessor plus one. -/
def intColoringOk : Int → List Int → Bool
  | _, [] => true
  | prev, c :: rest => (c == prev || c == prev + 1) && intColoringOk c rest

/-- Full coloring contract on the raw integers: first element 0, then the
contiguity contract. -/
def intColoringStart : List Int → Bool
  | [] => true
  | c :: rest => (c == 0) && intColoringOk c rest

/-- The preconditions of `generatePyEdges` (spec §6). -/
def ValidPyInput (t : List Int) (maxD minD : Int) : Prop :=
  minD ≤ maxD ∧ 0 ≤ minD ∧ t.length ≠ 0 ∧ t.length ≤ 11 ∧ intColoringStart t = true

instance decValidPyInput (t : List Int) (maxD minD : Int) :
    Decidable (ValidPyInput t maxD minD) := by
  unfold ValidPyInput
  infer_instance

lemma convertNodesAux_spec : ∀ (t : List Int) (prev : Nat),
    (intColoringOk (prev : Int) t = true → convertNodesAux prev t = .ok (t.map Int.toNat)) ∧
    (intColoringOk (prev : Int) t = false →
      ∃ e, (e = GenError.negativeNode ∨ e = GenError.notIncreasing) ∧
        convertNodesAux prev t = .error e) := by
  intro t
  induction t with
  | nil =>
    intro prev
    exact ⟨fun _ => rfl, fun h => by simp [intColoringOk] at h⟩
  | cons node rest ih =>
    intro prev
    constructor
    · intro h
      simp only [intColoringOk, Bool.and_eq_true, Bool.or_eq_true, beq_iff_eq] at h
      obtain ⟨hstep, hrest⟩ := h
      have hnn : ¬ (node < 0) := by omega
      have hne : ¬ (node ≠ (prev : Int) ∧ node ≠ (prev : Int) + 1) := by tauto
      have hcast : ((node.toNat : Nat) : Int) = node := by omega
      simp only [convertNodesAux]
      rw [if_neg hnn, if_neg hne]
      have hrec := (ih node.toNat).1 (by rw [hcast]; exact hrest)
      rw [hrec]
      rfl
    · intro h
      by_cases hnn : node < 0
      · exact ⟨.negativeNode, Or.inl rfl, by simp only [convertNodesAux]; rw [if_pos hnn]⟩
      · push_neg at hnn
        by_cases hne : node ≠ (prev : Int) ∧ node ≠ (prev : Int) + 1
        · refine ⟨.notIncreasing, Or.inr rfl, ?_⟩
          simp only [convertNodesAux]
          rw [if_neg (by omega), if_pos hne]
        · have hstep : node = (prev : Int) ∨ node = (prev : Int) + 1 := by tauto
          have hhead : (node == (prev : Int) || node == (prev : Int) + 1) = true := by
            rcases hstep with h' | h' <;> simp [h']
          have hrest : intColoringOk node rest = false := by
            simp only [intColoringOk, hhead, Bool.true_and] at h
            exact h
          have hcast : ((node.toNat : Nat) : Int) = node := by omega
          obtain ⟨e, he, haux⟩ := (ih node.toNat).2 (by rw [hcast]; exact hrest)
          refine ⟨e, he, ?_⟩
          simp only [convertNodesAux]
          rw [if_neg (by omega), if_neg hne, haux]
          rfl

lemma convertNodes_spec (t : List Int) :
    (intColoringStart t = true → convertNodes t = .ok (t.map Int.toNat)) ∧
    (intColoringStart t = false →
      ∃ e, (e = GenError.negativeNode ∨ e = GenError.firstNotZero ∨
            e = GenError.notIncreasing) ∧ convertNodes t = .error e) := by
  cases t with
  | nil => exact ⟨fun _ => rfl, fun h => by simp [intColoringStart] at h⟩
  | cons node rest =>
    constructor
    · intro h
      simp only [intColoringStart, Bool.and_eq_true, beq_iff_eq] at h
      obtain ⟨rfl, hrest⟩ := h
      simp only [convertNodes]
      rw [if_neg (by omega : ¬ ((0 : Int) < 0)), if_neg (by omega : ¬ ((0 : Int) ≠ 0))]
      have hrec := (convertNodesAux_spec rest 0).1 (by exact_mod_cast hrest)
      rw [hrec]
      rfl
    · intro h
      by_cases hnn : node < 0
      · exact ⟨.negativeNode, Or.inl rfl, by simp only [convertNodes]; rw [if_pos hnn]⟩
      · push_neg at hnn
        by_cases hz : node ≠ 0
        · refine ⟨.firstNotZero, Or.inr (Or.inl rfl), ?_⟩
          simp only [convertNodes]
          rw [if_neg (by omega : ¬ (node < 0)), if_pos hz]
        · push_neg at hz
          subst hz
          have hrest : intColoringOk 0 rest = false := by
            simp only [intColoringStart, beq_self_eq_true, Bool.true_and] at h
            exact h
          obtain ⟨e, he, haux⟩ := (convertNodesAux_spec rest 0).2 (by exact_mod_cast hrest)
          refine ⟨e, ?_, ?_⟩
          · rcases he with h' | h'
            · exact Or.inl h'
            · exact Or.inr (Or.inr h')
          · simp only [convertNodes]
            rw [if_neg (by omega : ¬ ((0 : Int) < 0)), if_neg (by omega : ¬ ((0 : Int) ≠ 0)), haux]
            rfl

/-- Claim C8: for a node sequence of length 1 (`nodeColors = [0]`) and any
non-negative degree bounds with `minDegree ≤ maxDegree`, the operation
returns exactly one result, the empty edge list. -/
theorem C8_single_node (maxDegree minDegree : Nat) (h : minDegree ≤ maxDegree) :
    generatePyEdges [0] (maxDegree : Int) (minDegree : Int) = Except.ok [[]] := by
  have h1 : ¬ ((maxDegree : Int) < (minDegree : Int)) := by exact_mod_cast Nat.not_lt.mpr h
  have h2 : ¬ ((minDegree : Int) < 0) := by omega
  unfold generatePyEdges
  rw [if_neg h1, if_neg h2]
  rfl

/-- Witness for C8 at `maxDegree = 1`, `minDegree = 0`. -/
theorem C8_single_node_witness :
    (0 : Nat) ≤ 1 ∧
      generatePyEdges [0] ((1 : Nat) : Int) ((0 : Nat) : Int) = Except.ok [[]] :=
  ⟨by decide, C8_single_node 1 0 (by decide)⟩

/-- Claim C9: `generatePyEdges` validates its input before any enumeration:
each precondition violation produces the corresponding error (with the
source's priority order), no result list accompanies an error, and an
input passing every check yields the full enumeration (the fixed one-graph
answer for a single node). -/
theorem C9_validation (t : List Int) (maxD minD : Int) :
    (ValidPyInput t maxD minD →
      generatePyEdges t maxD minD =
        .ok (if t.length > 1 then generateEdges (t.map Int.toNat) maxD.toNat minD.toNat
             else [[]]))
    ∧ (¬ ValidPyInput t maxD minD → ∃ e, generatePyEdges t maxD minD = .error e)
    ∧ (maxD < minD → generatePyEdges t maxD minD = .error .maxLessThanMin)
    ∧ (minD ≤ maxD → minD < 0 → generatePyEdges t maxD minD = .error .negativeMinDegree)
    ∧ (minD ≤ maxD → 0 ≤ minD → t.length = 0 →
        generatePyEdges t maxD minD = .error .emptyNodes)
    ∧ (minD ≤ maxD → 0 ≤ minD → t.length ≠ 0 → t.length > 11 →
        generatePyEdges t maxD minD = .error .tooManyNodes)
    ∧ (minD ≤ maxD → 0 ≤ minD → t.length ≠ 0 → t.length ≤ 11 →
        intColoringStart t = false →
        ∃ e, (e = GenError.negativeNode ∨ e = GenError.firstNotZero ∨
              e = GenError.notIncreasing) ∧
          generatePyEdges t maxD minD = .error e) := by
  refine ⟨?_, ?_, ?_, ?_, ?_, ?_, ?_⟩
  · rintro ⟨hdm, hm0, hne, hle, hcol⟩
    unfold generatePyEdges
    rw [if_neg (by omega), if_neg (by omega), if_neg hne, if_neg (by omega),
      (convertNodes_spec t).1 hcol]
    by_cases hl : t.length > 1 <;> simp [hl]
  · intro hv
    unfold generatePyEdges
    by_cases h1 : maxD < minD
    · exact ⟨_, by rw [if_pos h1]⟩
    · rw [if_neg h1]
      by_cases h2 : minD < 0
      · exact ⟨_, by rw [if_pos h2]⟩
      · rw [if_neg h2]
        by_cases h3 : t.length = 0
        · exact ⟨_, by rw [if_pos h3]⟩
        · rw [if_neg h3]
          by_cases h4 : t.length > 11
          · exact ⟨_, by rw [if_pos h4]⟩
          · rw [if_neg h4]
            have hcol : intColoringStart t = false := by
              cases hc : intColoringStart t
              · rfl
              · exact absurd ⟨by omega, by omega, h3, by omega, hc⟩ hv
            obtain ⟨e, _, he⟩ := (convertNodes_spec t).2 hcol
            exact ⟨e, by rw [he]⟩
  · intro h
    unfold generatePyEdges
    rw [if_pos h]
  · intro h1 h2
    unfold generatePyEdges
    rw [if_neg (by omega), if_pos h2]
  · intro h1 h2 h3
    unfold generatePyEdges
    rw [if_neg (by omega), if_neg (by omega), if_pos h3]
  · intro h1 h2 h3 h4
    unfold generatePyEdges
    rw [if_neg (by omega), if_neg (by omega), if_neg h3, if_pos h4]
  · intro h1 h2 h3 h4 hcol
    obtain ⟨e, hfam, he⟩ := (convertNodes_spec t).2 hcol
    refine ⟨e, hfam, ?_⟩
    unfold generatePyEdges
    rw [if_neg (by omega), if_neg (by omega), if_neg h3, if_neg (by omega), he]

/-- Witness for C9: one exercised instance per kind of outcome, at concrete
inputs. -/
theorem C9_validation_witness :
    (ValidPyInput [0, 0] 2 1 ∧
      generatePyEdges [0, 0] 2 1 =
        .ok (if ([0, 0] : List Int).length > 1
             then generateEdges (([0, 0] : List Int).map Int.toNat)
               (2 : Int).toNat (1 : Int).toNat
             else [[]])) ∧
    generatePyEdges [0] 1 2 = .error .maxLessThanMin ∧
    generatePyEdges [] 2 1 = .error .emptyNodes ∧
    (∃ e, (e = GenError.negativeNode ∨ e = GenError.firstNotZero ∨
           e = GenError.notIncreasing) ∧
      generatePyEdges [0, 5] 2 1 = .error e) :=
  ⟨⟨by decide, (C9_validation [0, 0] 2 1).1 (by decide)⟩,
   (C9_validation [0] 1 2).2.2.1 (by decide),
   (C9_validation [] 2 1).2.2.2.2.1 (by decide) (by decide) (by decide),
   (C9_validation [0, 5] 2 1).2.2.2.2.2.2 (by decide) (by decide) (by decide)
     (by decide) (by decide)⟩

/-- Counterexample to claim C2 as stated: for n = 3 and adjacency value 4,
`Graph::isEdge` reports edge (0,1) as present, yet bit `idx(0,1) = 0` of
the integer is clear, and the degree-filter builder leaves that bit clear
in node 0's mask as well: the code reads and writes the mirrored position
`n(n-1)/2 - 1 - idx(i,j)`, not `idx(i,j)`. -/
theorem C2_counterexample :
    isEdgeF 3 (adjTriuMasks 3) 4 0 1 = true ∧
    upperTriuIndex 0 1 3 = 0 ∧
    Nat.testBit 4 (upperTriuIndex 0 1 3) = false ∧
    ((calculateDegreeFilter 3).getD 0 0).testBit (upperTriuIndex 0 1 3) = false := by
  decide

/-- Claim C2 (amended): in the adjacency encoding, for every n in [2,11] and
every pair (i,j) with i<j<n, `Graph::isEdge` reads exactly the machine bit
`n(n-1)/2 - 1 - idx(i,j)` of the integer, where
`idx(i,j) = i*n - (i²+3i)/2 + j - 1`, and the degree-filter builder writes
exactly the bits at those mirrored positions. -/
theorem C2_bit_encoding (n a i j : Nat) (h2 : 2 ≤ n) (h11 : n ≤ 11)
    (hij : i < j) (hj : j < n) :
    (isEdgeF n (adjTriuMasks n) a i j =
      a.testBit (n * (n - 1) / 2 - 1 - upperTriuIndex i j n)) ∧
    (∀ k, k < n → ∀ p,
      ((calculateDegreeFilter n).getD k 0).testBit p = true ↔
        ∃ u v, u < v ∧ v < n ∧ (u = k ∨ v = k) ∧
          p = n * (n - 1) / 2 - 1 - upperTriuIndex u v n) := by
  constructor
  · rw [isEdgeF_eq_edgeIn h11 h2 a (by omega) (by omega) hj]
    rfl
  · intro k hk p
    exact degreeFilter_testBit hk p

/-- Witness for C2 (amended) at n = 3, adjacency 4, pair (0,1). -/
theorem C2_bit_encoding_witness :
    (2 ≤ 3 ∧ 3 ≤ 11 ∧ 0 < 1 ∧ 1 < 3) ∧
    isEdgeF 3 (adjTriuMasks 3) 4 0 1 =
      Nat.testBit 4 (3 * (3 - 1) / 2 - 1 - upperTriuIndex 0 1 3) :=
  ⟨by decide, (C2_bit_encoding 3 4 0 1 (by decide) (by decide) (by decide) (by decide)).1⟩

/-! ### The permutation table -/

/-- Invariant on pool functions: every pool is duplicate-free and holds only
in-range indices of its own color. -/
def PoolsOk (nodes : List Nat) (pools : Nat → List Nat) : Prop :=
  ∀ c, (pools c).Nodup ∧ ∀ x ∈ pools c, x < nodes.length ∧ nodes.getD x 0 = c

lemma forall₂_mem_right {α β : Type} {R : α → β → Prop} :
    ∀ {cs : List α} {q : List β}, List.Forall₂ R cs q → ∀ x ∈ q, ∃ c ∈ cs, R c x := by
  intro cs q h
  induction h with
  | nil => intro x hx; cases hx
  | cons hr _ ih =>
    intro x hx
    rcases List.mem_cons.mp hx with rfl | hx'
    · exact ⟨_, by simp, hr⟩
    · obtain ⟨c, hc, hcx⟩ := ih x hx'
      exact ⟨c, by simp [hc], hcx⟩

lemma forall₂_imp_of_mem {α β : Type} {R S : α → β → Prop} :
    ∀ {cs : List α} {q : List β}, List.Forall₂ R cs q →
      (∀ c x, x ∈ q → R c x → S c x) → List.Forall₂ S cs q := by
  intro cs q h
  induction h with
  | nil => intro _; exact .nil
  | cons hr _ ih =>
    intro himp
    exact .cons (himp _ _ (by simp) hr)
      (ih fun c x hx h' => himp c x (by simp [hx]) h')

lemma poolsOk_update {nodes : List Nat} {pools : Nat → List Nat} (hok : PoolsOk nodes pools)
    (c index : Nat) :
    PoolsOk nodes fun x => if x = c then (pools c).erase index else pools x := by
  intro c'
  by_cases hc : c' = c
  · subst hc
    simp only [if_pos rfl]
    exact ⟨(hok c').1.erase _, fun x hx => (hok c').2 x (List.mem_of_mem_erase hx)⟩
  · simp only [if_neg hc]
    exact hok c'

/-- Membership in the recursive generator: `p` is produced exactly when it
is duplicate-free and draws its k-th entry from the pool of the k-th
color. -/
lemma mem_genPermsAux (nodes : List Nat) :
    ∀ (cs : List Nat) (pools : Nat → List Nat), PoolsOk nodes pools →
      ∀ p, p ∈ genPermsAux pools cs ↔
        p.Nodup ∧ List.Forall₂ (fun c x => x ∈ pools c) cs p := by
  intro cs
  induction cs with
  | nil =>
    intro pools _ p
    simp only [genPermsAux, List.mem_singleton]
    constructor
    · rintro rfl; exact ⟨List.nodup_nil, .nil⟩
    · rintro ⟨_, hf⟩
      cases hf
      rfl
  | cons c rest ih =>
    intro pools hok p
    simp only [genPermsAux, List.mem_flatMap, List.mem_map]
    constructor
    · rintro ⟨index, hindex, q, hq, rfl⟩
      obtain ⟨hnod, hfa⟩ := (ih _ (poolsOk_update hok c index) q).mp hq
      have hsub : List.Forall₂ (fun c' x => x ∈ pools c') rest q :=
        forall₂_imp_of_mem hfa fun c' x _ hx => by
          by_cases h : c' = c
          · subst h
            rw [if_pos rfl] at hx
            exact List.mem_of_mem_erase hx
          · rw [if_neg h] at hx
            exact hx
      refine ⟨?_, .cons hindex hsub⟩
      rw [List.nodup_cons]
      refine ⟨?_, hnod⟩
      intro hmem
      obtain ⟨c', hc', hx⟩ := forall₂_mem_right hfa index hmem
      by_cases h : c' = c
      · subst h
        rw [if_pos rfl] at hx
        exact ((hok c').1.mem_erase_iff.mp hx).1 rfl
      · rw [if_neg h] at hx
        have h1 := ((hok c').2 index hx).2
        have h2 := ((hok c).2 index hindex).2
        exact h (h1 ▸ h2 ▸ rfl)
    · rintro ⟨hnodup, hfa⟩
      rcases List.forall₂_cons_left_iff.mp hfa with ⟨x, q, hx, hq, rfl⟩
      rw [List.nodup_cons] at hnodup
      obtain ⟨hxq, hqnod⟩ := hnodup
      refine ⟨x, hx, q, ?_, rfl⟩
      rw [ih _ (poolsOk_update hok c x) q]
      refine ⟨hqnod, ?_⟩
      refine forall₂_imp_of_mem hq fun c' y hy hmem => ?_
      by_cases h : c' = c
      · subst h
        rw [if_pos rfl, (hok c').1.mem_erase_iff]
        exact ⟨fun hyx => hxq (hyx ▸ hy), hmem⟩
      · rw [if_neg h]
        exact hmem

lemma poolsOk_init (nodes : List Nat) : PoolsOk nodes (initPools nodes) := by
  intro c
  constructor
  · exact (List.nodup_range _).filter _
  · intro x hx
    rw [initPools, List.mem_filter, List.mem_range] at hx
    exact ⟨hx.1, by simpa using hx.2⟩

lemma mem_initPools {nodes : List Nat} {c x : Nat} :
    x ∈ initPools nodes c ↔ x < nodes.length ∧ nodes.getD x 0 = c := by
  rw [initPools, List.mem_filter, List.mem_range]
  simp

/-- The permutation table contains exactly the color-preserving
permutations. -/
lemma mem_generatePermutations (nodes : List Nat) (p : List Nat) :
    p ∈ generatePermutations nodes ↔ IsColorPerm nodes p := by
  rw [generatePermutations, mem_genPermsAux nodes nodes (initPools nodes) (poolsOk_init nodes)]
  unfold IsColorPerm
  constructor
  · rintro ⟨hnod, hfa⟩
    have hlen := hfa.length_eq
    refine ⟨hlen.symm, hnod, ?_⟩
    intro k hk
    have hk' : k < p.length := by omega
    have := (List.forall₂_iff_get.mp hfa).2 k (by omega) hk'
    rw [mem_initPools] at this
    have hget : p.getD k 0 = p.get ⟨k, hk'⟩ := by
      rw [List.getD_eq_getElem?_getD, List.getElem?_eq_getElem hk']
      rfl
    have hgetn : nodes.getD k 0 = nodes.get ⟨k, by omega⟩ := by
      rw [List.getD_eq_getElem?_getD, List.getElem?_eq_getElem (by omega : k < nodes.length)]
      rfl
    rw [hget, hgetn]
    exact ⟨this.1, this.2⟩
  · rintro ⟨hlen, hnod, hcol⟩
    refine ⟨hnod, ?_⟩
    rw [List.forall₂_iff_get]
    refine ⟨hlen.symm, ?_⟩
    intro k h1 h2
    rw [mem_initPools]
    have hcolk := hcol k (by omega)
    have hget : p.getD k 0 = p.get ⟨k, h2⟩ := by
      rw [List.getD_eq_getElem?_getD, List.getElem?_eq_getElem h2]
      rfl
    have hgetn : nodes.getD k 0 = nodes.get ⟨k, h1⟩ := by
      rw [List.getD_eq_getElem?_getD, List.getElem?_eq_getElem h1]
      rfl
    rw [hget, hgetn] at hcolk
    exact ⟨hcolk.1, hcolk.2⟩

lemma nodup_flatMap_of {α β : Type} {l : List α} {f : α → List β}
    (hl : l.Nodup) (hf : ∀ x ∈ l, (f x).Nodup)
    (hdisj : ∀ x ∈ l, ∀ y ∈ l, x ≠ y → ∀ b ∈ f x, b ∉ f y) : (l.flatMap f).Nodup := by
  induction l with
  | nil => simp
  | cons x xs ih =>
    rw [List.flatMap_cons, List.nodup_append]
    rw [List.nodup_cons] at hl
    refine ⟨hf x (by simp), ?_, ?_⟩
    · exact ih hl.2 (fun y hy => hf y (by simp [hy]))
        (fun a ha b hb hab => hdisj a (by simp [ha]) b (by simp [hb]) hab)
    · intro b hbx hbxs
      rw [List.mem_flatMap] at hbxs
      obtain ⟨y, hy, hby⟩ := hbxs
      exact hdisj x (by simp) y (by simp [hy]) (fun hxy => hl.1 (hxy ▸ hy)) b hbx hby

lemma length_flatMap {α β : Type} (l : List α) (f : α → List β) :
    (l.flatMap f).length = (l.map fun a => (f a).length).sum := by
  induction l with
  | nil => rfl
  | cons x xs ih => simp [List.flatMap_cons, ih]

/-- No permutation is produced twice. -/
lemma genPermsAux_nodup (nodes : List Nat) :
    ∀ (cs : List Nat) (pools : Nat → List Nat), PoolsOk nodes pools →
      (genPermsAux pools cs).Nodup := by
  intro cs
  induction cs with
  | nil => intro pools _; simp [genPermsAux]
  | cons c rest ih =>
    intro pools hok
    rw [genPermsAux]
    apply nodup_flatMap_of (hok c).1
    · intro x _
      apply List.Nodup.map
      · intro p q h
        exact (List.cons.injEq .. ▸ h).2
      · exact ih _ (poolsOk_update hok c x)
    · intro x _ y _ hxy b hbx hby
      rw [List.mem_map] at hbx hby
      obtain ⟨p, _, rfl⟩ := hbx
      obtain ⟨q, _, hq⟩ := hby
      injection hq with h1 _
      exact hxy h1.symm

/-- Helper for the table size: the count of produced permutations depends
only on the pool sizes, by the recursion of the generator. -/
def countPerms : List Nat → (Nat → Nat) → Nat
  | [], _ => 1
  | c :: rest, sizes => sizes c * countPerms rest fun x => if x = c then sizes c - 1 else sizes x

lemma genPermsAux_length (nodes : List Nat) :
    ∀ (cs : List Nat) (pools : Nat → List Nat), PoolsOk nodes pools →
      (genPermsAux pools cs).length = countPerms cs fun c => (pools c).length := by
  intro cs
  induction cs with
  | nil => intro pools _; rfl
  | cons c rest ih =>
    intro pools hok
    rw [genPermsAux, length_flatMap]
    have hconst : ∀ index ∈ pools c,
        ((genPermsAux (fun x => if x = c then (pools c).erase index else pools x) rest).map
          (fun p => index :: p)).length =
          countPerms rest fun x => if x = c then (pools c).length - 1 else (pools x).length := by
      intro index hindex
      rw [List.length_map, ih _ (poolsOk_update hok c index)]
      congr 1
      funext x
      by_cases h : x = c
      · subst h
        rw [if_pos rfl, if_pos rfl, List.length_erase_of_mem hindex]
      · rw [if_neg h, if_neg h]
    rw [List.map_congr_left hconst, List.map_const', List.sum_replicate, smul_eq_mul]
    rfl

lemma countPerms_eq_prod :
    ∀ (cs : List Nat) (sizes : Nat → Nat) (B : Nat), (∀ c ∈ cs, c < B) →
      countPerms cs sizes =
        ∏ c ∈ Finset.range B, (sizes c).descFactorial (cs.count c) := by
  intro cs
  induction cs with
  | nil =>
    intro sizes B _
    simp [countPerms]
  | cons c rest ih =>
    intro sizes B hB
    have hc : c ∈ Finset.range B := Finset.mem_range.mpr (hB c (by simp))
    show sizes c * countPerms rest _ = _
    rw [ih _ B (fun c' hc' => hB c' (by simp [hc']))]
    rw [Finset.prod_eq_mul_prod_diff_singleton hc
      (fun x => (sizes x).descFactorial ((c :: rest).count x)),
      Finset.prod_eq_mul_prod_diff_singleton hc
      (fun x => ((if x = c then sizes c - 1 else sizes x)).descFactorial (rest.count x))]
    have hcount : (c :: rest).count c = rest.count c + 1 := by
      rw [List.count_cons]
      simp
    have hkey : sizes c * (if c = c then sizes c - 1 else sizes c).descFactorial (rest.count c)
        = (sizes c).descFactorial ((c :: rest).count c) := by
      rw [if_pos rfl, hcount]
      rcases Nat.eq_zero_or_pos (sizes c) with h0 | hpos
      · rw [h0]
        simp [Nat.zero_descFactorial_succ]
      · generalize hm : sizes c - 1 = m
        have hsz : sizes c = m + 1 := by omega
        rw [hsz, Nat.succ_descFactorial_succ]
    have hrest : ∀ x ∈ Finset.range B \ {c},
        (if x = c then sizes c - 1 else sizes x).descFactorial (rest.count x)
          = (sizes x).descFactorial ((c :: rest).count x) := by
      intro x hx
      rw [Finset.mem_sdiff, Finset.mem_singleton] at hx
      rw [if_neg hx.2, List.count_cons, if_neg (by simpa using Ne.symm hx.2)]
      simp
    rw [← Nat.mul_assoc, hkey, Finset.prod_congr rfl hrest]

lemma initPools_length (nodes : List Nat) (c : Nat) :
    (initPools nodes c).length = nodes.count c := by
  show ((List.range nodes.length).filter fun i => nodes.getD i 0 = c).length = _
  induction nodes with
  | nil => rfl
  | cons x xs ih =>
    show ((List.range (xs.length + 1)).filter fun i => (x :: xs).getD i 0 = c).length = _
    rw [List.range_succ_eq_map, List.filter_cons, List.filter_map]
    have hcomp : ((fun i => decide ((x :: xs).getD i 0 = c)) ∘ Nat.succ)
        = fun i => decide (xs.getD i 0 = c) := by
      funext i
      simp [Function.comp]
    rw [hcomp]
    rw [List.count_cons]
    by_cases hx : x = c
    · rw [if_pos (by simpa [List.getD] using hx)]
      simp only [List.length_cons, List.length_map]
      rw [ih]
      rw [if_pos (by simpa using hx)]
    · rw [if_neg (by simpa [List.getD] using hx)]
      simp only [List.length_map]
      rw [ih, if_neg (by simpa using hx)]
      simp

/-- Claim C4: `generatePermutations` produces exactly the set of
color-preserving permutations of `{0..n-1}` — every such permutation
appears exactly once, nothing else appears — and the table size is the
product over colors of the factorial of the color multiplicity. -/
theorem C4_permutation_table (nodes : List Nat) (B : Nat) (hB : ∀ x ∈ nodes, x < B) :
    (∀ p, p ∈ generatePermutations nodes ↔ IsColorPerm nodes p) ∧
    (generatePermutations nodes).Nodup ∧
    (generatePermutations nodes).length =
      ∏ c ∈ Finset.range B, (nodes.count c).factorial := by
  refine ⟨mem_generatePermutations nodes,
    genPermsAux_nodup nodes nodes _ (poolsOk_init nodes), ?_⟩
  rw [generatePermutations, genPermsAux_length nodes nodes _ (poolsOk_init nodes),
    countPerms_eq_prod nodes _ B hB]
  apply Finset.prod_congr rfl
  intro c _
  rw [initPools_length, Nat.descFactorial_self]

/-- Witness for C4 at `nodes = [0,0,1]`, color bound 2. -/
theorem C4_permutation_table_witness :
    (∀ x ∈ ([0, 0, 1] : List Nat), x < 2) ∧
    (generatePermutations [0, 0, 1]).length =
      ∏ c ∈ Finset.range 2, (([0, 0, 1] : List Nat).count c).factorial :=
  ⟨by decide, (C4_permutation_table [0, 0, 1] 2 (by decide)).2.2⟩

/-! ### Group structure of the table and the isomorphism test -/

lemma getD_range {n k : Nat} (hk : k < n) : (List.range n).getD k 0 = k := by
  rw [List.getD_eq_getElem?_getD, List.getElem?_range hk]
  rfl

lemma getD_map_range {β : Type} [Inhabited β] (f : Nat → β) {n k : Nat} (hk : k < n)
    (d : β) : ((List.range n).map f).getD k d = f k := by
  rw [List.getD_eq_getElem?_getD, List.getElem?_map, List.getElem?_range hk]
  rfl

lemma isEdgeF_comm (n : Nat) (masks : List Nat) (adj u v : Nat) :
    isEdgeF n masks adj u v = isEdgeF n masks adj v u := by
  unfold isEdgeF
  rcases eq_or_ne u v with rfl | h
  · rfl
  · rw [if_neg h, if_neg (Ne.symm h), upperTriuIndex_comm]

/-- `Graph::operator==` in propositional form. -/
lemma graphEq_iff (a b : Graph) :
    graphEq a b = true ↔ a.representation = b.representation ∧
      ∃ p ∈ a.permutations, ∀ i j, i < j → j < a.nNodes →
        a.isEdge i j = b.isEdge (p.getD i 0) (p.getD j 0) := by
  unfold graphEq
  by_cases hr : a.representation = b.representation
  · rw [if_neg (not_not_intro hr), List.any_eq_true]
    constructor
    · rintro ⟨p, hp, hall⟩
      refine ⟨hr, p, hp, ?_⟩
      intro i j hij hj
      rw [List.all_eq_true] at hall
      have h1 := hall i (List.mem_range.mpr (by omega))
      rw [List.all_eq_true] at h1
      have h2 := h1 j (by rw [List.mem_range']; exact ⟨j - (i + 1), by omega, by omega⟩)
      exact (beq_iff_eq ..).mp h2
    · rintro ⟨_, p, hp, hiff⟩
      refine ⟨p, hp, ?_⟩
      rw [List.all_eq_true]
      intro i hi
      rw [List.all_eq_true]
      intro j hj
      rw [List.mem_range] at hi
      rw [List.mem_range'] at hj
      obtain ⟨d, hd, rfl⟩ := hj
      exact (beq_iff_eq ..).mpr (hiff i _ (by omega) (by omega))
  · rw [if_pos hr]
    constructor
    · intro h
      exact absurd h (by simp)
    · rintro ⟨h, _⟩
      exact absurd h hr

/-- Every index below `n` occurs in a color-preserving permutation. -/
lemma isColorPerm_mem {nodes p : List Nat} (hp : IsColorPerm nodes p) {i : Nat}
    (hi : i < nodes.length) : i ∈ p := by
  obtain ⟨hlen, hnod, hcol⟩ := hp
  have hsub : p.toFinset ⊆ Finset.range nodes.length := by
    intro x hx
    rw [List.mem_toFinset] at hx
    obtain ⟨k, hk⟩ := List.mem_iff_getElem.mp hx
    obtain ⟨hklt, hkx⟩ := hk
    have := (hcol k (by omega)).1
    rw [List.getD_eq_getElem?_getD, List.getElem?_eq_getElem hklt] at this
    rw [Finset.mem_range]
    simpa [hkx] using this
  have hcard : (Finset.range nodes.length).card ≤ p.toFinset.card := by
    rw [List.toFinset_card_of_nodup hnod, hlen, Finset.card_range]
  have := Finset.eq_of_subset_of_card_le hsub hcard
  rw [← List.mem_toFinset, this, Finset.mem_range]
  exact hi

/-- The inverse image list of a color-preserving permutation, and its
properties: it is itself in the table and composes to the identity. -/
lemma generatePermutations_inverse {nodes p : List Nat}
    (hp : p ∈ generatePermutations nodes) :
    ∃ q ∈ generatePermutations nodes,
      ∀ k, k < nodes.length → q.getD (p.getD k 0) 0 = k ∧ p.getD (q.getD k 0) 0 = k := by
  rw [mem_generatePermutations] at hp
  obtain ⟨hlen, hnod, hcol⟩ := hp
  set n := nodes.length with hn
  refine ⟨(List.range n).map fun i => p.indexOf i, ?_, ?_⟩
  · rw [mem_generatePermutations]
    refine ⟨by rw [List.length_map, List.length_range], ?_, ?_⟩
    · apply List.Nodup.map_on ?_ (List.nodup_range n)
      intro x hx y hy hxy
      rw [List.mem_range] at hx hy
      have hxm : x ∈ p := isColorPerm_mem ⟨hlen, hnod, hcol⟩ hx
      have hym : y ∈ p := isColorPerm_mem ⟨hlen, hnod, hcol⟩ hy
      have h1 : p.get? (p.indexOf x) = some x := List.indexOf_get? hxm
      have h2 : p.get? (p.indexOf y) = some y := List.indexOf_get? hym
      rw [hxy] at h1
      exact Option.some_inj.mp (h1.symm.trans h2)
    · intro k hk
      rw [getD_map_range _ hk]
      have hkm : k ∈ p := isColorPerm_mem ⟨hlen, hnod, hcol⟩ hk
      have hidx : p.indexOf k < p.length := List.indexOf_lt_length.mpr hkm
      constructor
      · omega
      · have hm : p.getD (p.indexOf k) 0 = k := by
          rw [List.getD_eq_getElem?_getD, List.getElem?_eq_getElem hidx]
          simpa using List.indexOf_get hidx
        have hcolm := (hcol (p.indexOf k) (by omega)).2
        rw [hm] at hcolm
        exact hcolm.symm
  · intro k hk
    constructor
    · have hklt : k < p.length := by omega
      have hgd : p.getD k 0 = p[k] := by
        rw [List.getD_eq_getElem?_getD, List.getElem?_eq_getElem hklt]
        rfl
      have hplt : p.getD k 0 < n := (hcol k hk).1
      rw [getD_map_range _ hplt, hgd]
      exact List.indexOf_getElem hnod k hklt
    · have hkm : k ∈ p := isColorPerm_mem ⟨hlen, hnod, hcol⟩ hk
      have hidx : p.indexOf k < p.length := List.indexOf_lt_length.mpr hkm
      rw [getD_map_range _ hk]
      rw [List.getD_eq_getElem?_getD, List.getElem?_eq_getElem hidx]
      simpa using List.indexOf_get hidx

/-- Claim C10: the permutation table contains the identity and is closed
under inverse; consequently `Graph::operator==` is reflexive and symmetric
on candidates built from the same enumeration context. -/
theorem C10_table_group_eq_refl_symm (nodes : List Nat) :
    (List.range nodes.length ∈ generatePermutations nodes) ∧
    (∀ p ∈ generatePermutations nodes, ∃ q ∈ generatePermutations nodes,
      ∀ k, k < nodes.length → q.getD (p.getD k 0) 0 = k ∧ p.getD (q.getD k 0) 0 = k) ∧
    (∀ adj df,
      graphEq
        (Graph.make nodes adj df (adjTriuMasks nodes.length) (generatePermutations nodes))
        (Graph.make nodes adj df (adjTriuMasks nodes.length) (generatePermutations nodes))
        = true) ∧
    (∀ adjA adjB df,
      graphEq
        (Graph.make nodes adjA df (adjTriuMasks nodes.length) (generatePermutations nodes))
        (Graph.make nodes adjB df (adjTriuMasks nodes.length) (generatePermutations nodes))
        = true →
      graphEq
        (Graph.make nodes adjB df (adjTriuMasks nodes.length) (generatePermutations nodes))
        (Graph.make nodes adjA df (adjTriuMasks nodes.length) (generatePermutations nodes))
        = true) := by
  have hid : List.range nodes.length ∈ generatePermutations nodes := by
    rw [mem_generatePermutations]
    refine ⟨List.length_range _, List.nodup_range _, ?_⟩
    intro k hk
    rw [getD_range hk]
    exact ⟨hk, rfl⟩
  refine ⟨hid, fun p hp => generatePermutations_inverse hp, ?_, ?_⟩
  · intro adj df
    rw [graphEq_iff]
    refine ⟨rfl, List.range nodes.length, hid, ?_⟩
    intro i j hij hj
    have hj' : j < nodes.length := hj
    show isEdgeF _ _ _ i j = isEdgeF _ _ _ _ _
    rw [getD_range (by omega : i < nodes.length), getD_range hj']
  · intro adjA adjB df h
    rw [graphEq_iff] at h ⊢
    obtain ⟨hr, p, hp, hiff⟩ := h
    obtain ⟨q, hq, hinv⟩ := generatePermutations_inverse hp
    have hqcp : IsColorPerm nodes q := (mem_generatePermutations nodes q).mp hq
    refine ⟨hr.symm, q, hq, ?_⟩
    intro i j hij hj
    have hj' : j < nodes.length := hj
    show isEdgeF _ _ adjB i j = isEdgeF _ _ adjA _ _
    have hi : i < nodes.length := by omega
    have hx : q.getD i 0 < nodes.length := (hqcp.2.2 i hi).1
    have hy : q.getD j 0 < nodes.length := (hqcp.2.2 j hj').1
    have hpi : p.getD (q.getD i 0) 0 = i := (hinv i hi).2
    have hpj : p.getD (q.getD j 0) 0 = j := (hinv j hj').2
    have hne : q.getD i 0 ≠ q.getD j 0 := by
      intro he
      rw [← hpi, he, hpj] at hij
      omega
    rcases Nat.lt_or_ge (q.getD i 0) (q.getD j 0) with hlt | hge
    · have := hiff (q.getD i 0) (q.getD j 0) hlt hy
      rw [hpi, hpj] at this
      exact this.symm
    · have hlt' : q.getD j 0 < q.getD i 0 := by omega
      have := hiff (q.getD j 0) (q.getD i 0) hlt' hx
      rw [hpi, hpj] at this
      rw [isEdgeF_comm _ _ adjB i j, isEdgeF_comm _ _ adjA (q.getD i 0) (q.getD j 0)]
      exact this.symm

/-- Witness for C10 at `nodes = [0,0]`: the inverse-closure and symmetry
components applied at concrete inputs. -/
theorem C10_table_group_eq_refl_symm_witness :
    ([1, 0] ∈ generatePermutations [0, 0] ∧
      ∃ q ∈ generatePermutations [0, 0],
        ∀ k, k < ([0, 0] : List Nat).length →
          q.getD (([1, 0] : List Nat).getD k 0) 0 = k ∧
          ([1, 0] : List Nat).getD (q.getD k 0) 0 = k) ∧
    (graphEq
      (Graph.make [0, 0] 1 (calculateDegreeFilter 2) (adjTriuMasks 2)
        (generatePermutations [0, 0]))
      (Graph.make [0, 0] 1 (calculateDegreeFilter 2) (adjTriuMasks 2)
        (generatePermutations [0, 0])) = true) :=
  ⟨⟨by decide, (C10_table_group_eq_refl_symm [0, 0]).2.1 [1, 0] (by decide)⟩,
   (C10_table_group_eq_refl_symm [0, 0]).2.2.1 1 (calculateDegreeFilter 2)⟩

/-! ### Bit-manipulation toolkit for the enumeration step -/

lemma or_mul_pow_add {k a b c d : Nat} (hb : b < 2 ^ k) (hd : d < 2 ^ k) :
    (2 ^ k * a + b) ||| (2 ^ k * c + d) = 2 ^ k * (a ||| c) + (b ||| d) := by
  apply Nat.eq_of_testBit_eq
  intro i
  rw [Nat.testBit_or, Nat.testBit_mul_pow_two_add _ hb, Nat.testBit_mul_pow_two_add _ hd,
    Nat.testBit_mul_pow_two_add _ (Nat.or_lt_two_pow hb hd)]
  by_cases h : i < k
  · simp [h]
  · simp [h, Nat.testBit_or]

lemma and_mul_pow_add {k a b c d : Nat} (hb : b < 2 ^ k) (hd : d < 2 ^ k) :
    (2 ^ k * a + b) &&& (2 ^ k * c + d) = 2 ^ k * (a &&& c) + (b &&& d) := by
  apply Nat.eq_of_testBit_eq
  intro i
  rw [Nat.testBit_and, Nat.testBit_mul_pow_two_add _ hb, Nat.testBit_mul_pow_two_add _ hd,
    Nat.testBit_mul_pow_two_add _ (Nat.and_lt_two_pow b hd)]
  by_cases h : i < k
  · simp [h]
  · simp [h, Nat.testBit_and]

/-- A value and its bitwise complement relative to `2^K - 1` share no bits. -/
lemma and_compl_self : ∀ (K m : Nat), m < 2 ^ K → (2 ^ K - 1 - m) &&& m = 0 := by
  intro K
  induction K with
  | zero => intro m hm; interval_cases m; rfl
  | succ K ih =>
    intro m hm
    have h2 : 2 ^ (K + 1) = 2 * 2 ^ K := by ring
    obtain ⟨q, r, hr, rfl⟩ : ∃ q r, r < 2 ∧ m = 2 * q + r :=
      ⟨m / 2, m % 2, by omega, by omega⟩
    have hq : q < 2 ^ K := by omega
    have hA : 2 ^ (K + 1) - 1 - (2 * q + r) = 2 ^ 1 * (2 ^ K - 1 - q) + (1 - r) := by
      have : (2:Nat) ^ 1 = 2 := rfl
      omega
    have hB : 2 * q + r = 2 ^ 1 * q + r := by
      have : (2:Nat) ^ 1 = 2 := rfl
      omega
    rw [hA, hB, and_mul_pow_add (by omega) (by omega), ih q hq]
    interval_cases r <;> rfl

lemma and_compl_double {K m : Nat} (hK : 1 ≤ K) (hm : 2 * m < 2 ^ K) :
    (2 ^ K - 1 - 2 * m) &&& (2 * m + 1) = 1 := by
  have h2 : 2 ^ K = 2 * 2 ^ (K - 1) := by
    rw [← pow_succ']
    congr 1
    omega
  have hmK : m < 2 ^ (K - 1) := by omega
  have hA : 2 ^ K - 1 - 2 * m = 2 ^ 1 * (2 ^ (K - 1) - 1 - m) + 1 := by
    have : (2:Nat) ^ 1 = 2 := rfl
    omega
  have hB : 2 * m + 1 = 2 ^ 1 * m + 1 := by
    have : (2:Nat) ^ 1 = 2 := rfl
    omega
  rw [hA, hB, and_mul_pow_add (by omega) (by omega), and_compl_self _ m hmK]
  rfl

lemma testBit_ones_shift {o z i : Nat} :
    ((2 ^ o - 1) * 2 ^ z).testBit i = decide (z ≤ i ∧ i < z + o) := by
  rw [Nat.mul_comm, show 2 ^ z * (2 ^ o - 1) = 2 ^ z * (2 ^ o - 1) + 0 by omega,
    Nat.testBit_mul_pow_two_add _ (Nat.two_pow_pos z) i]
  by_cases hz : i < z
  · rw [if_pos hz]
    simp only [Nat.zero_testBit]
    symm
    rw [decide_eq_false_iff_not]
    omega
  · rw [if_neg hz, Nat.testBit_two_pow_sub_one, decide_eq_decide]
    omega

lemma testBit_ones_shift_pred {o z : Nat} (ho : 1 ≤ o) (i : Nat) :
    ((2 ^ o - 1) * 2 ^ z - 1).testBit i = decide (i < z ∨ (z < i ∧ i < z + o)) := by
  have h2o : 2 ≤ 2 ^ o := by
    calc (2:Nat) = 2 ^ 1 := rfl
    _ ≤ 2 ^ o := Nat.pow_le_pow_right (by omega) ho
  have hoz : 2 ^ o * 2 ^ z = 2 ^ (o + z) := by rw [← pow_add]
  have hzpos := Nat.two_pow_pos z
  have hopos := Nat.two_pow_pos (o - 1)
  have ho1 : 2 ^ o = 2 * 2 ^ (o - 1) := by
    rw [← pow_succ']
    congr 1
    omega
  have hsplit : (2 ^ o - 1) * 2 ^ z - 1 = 2 ^ z * (2 ^ o - 2) + (2 ^ z - 1) := by
    have e1 : (2 ^ o - 1) * 2 ^ z = 2 ^ o * 2 ^ z - 1 * 2 ^ z := Nat.sub_mul ..
    have e2 : 2 ^ z * (2 ^ o - 2) = 2 ^ o * 2 ^ z - 2 * 2 ^ z := by
      rw [Nat.mul_comm (2 ^ z), Nat.sub_mul]
    have e4 : 2 * 2 ^ z ≤ 2 ^ o * 2 ^ z := Nat.mul_le_mul_right _ h2o
    omega
  rw [hsplit, Nat.testBit_mul_pow_two_add _ (by omega : 2 ^ z - 1 < 2 ^ z) i]
  by_cases hz : i < z
  · rw [if_pos hz, Nat.testBit_two_pow_sub_one, decide_eq_decide]
    omega
  · rw [if_neg hz]
    have h22 : 2 ^ o - 2 = 2 * (2 ^ (o - 1) - 1) := by omega
    rw [h22]
    cases hiz : i - z with
    | zero =>
      rw [Nat.testBit_zero, decide_eq_decide]
      omega
    | succ j =>
      rw [Nat.testBit_succ, Nat.mul_div_cancel_left _ (by omega : 0 < 2),
        Nat.testBit_two_pow_sub_one, decide_eq_decide]
      omega

lemma or_ones_pred {o z : Nat} (ho : 1 ≤ o) :
    ((2 ^ o - 1) * 2 ^ z) ||| ((2 ^ o - 1) * 2 ^ z - 1) = 2 ^ (o + z) - 1 := by
  apply Nat.eq_of_testBit_eq
  intro i
  rw [Nat.testBit_or, testBit_ones_shift, testBit_ones_shift_pred ho,
    Nat.testBit_two_pow_sub_one, ← Bool.decide_or, decide_eq_decide]
  omega

lemma ctzAux_congr : ∀ (f f' n : Nat), 0 < n → n ≤ f → n ≤ f' → ctzAux f n = ctzAux f' n := by
  intro f
  induction f with
  | zero => intro f' n h0 hf _; omega
  | succ f ih =>
    intro f' n h0 hf hf'
    match f' with
    | 0 => omega
    | f' + 1 =>
      simp only [ctzAux]
      by_cases hodd : n % 2 = 1
      · rw [if_pos hodd, if_pos hodd]
      · rw [if_neg hodd, if_neg hodd, ih f' (n / 2) (by omega) (by omega) (by omega)]

lemma ctz_odd {n : Nat} (h : n % 2 = 1) : ctz n = 0 := by
  obtain ⟨m, rfl⟩ : ∃ m, n = m + 1 := ⟨n - 1, by omega⟩
  show ctzAux (m + 1) (m + 1) = 0
  simp only [ctzAux]
  rw [if_pos h]

lemma ctz_two_mul {n : Nat} (h : 0 < n) : ctz (2 * n) = 1 + ctz n := by
  show ctzAux (2 * n) (2 * n) = _
  obtain ⟨m, hm⟩ : ∃ m, 2 * n = m + 1 := ⟨2 * n - 1, by omega⟩
  rw [hm]
  simp only [ctzAux]
  rw [if_neg (by omega)]
  congr 1
  have hdiv : (m + 1) / 2 = n := by omega
  rw [hdiv]
  exact ctzAux_congr m n n h (by omega) le_rfl

lemma ctz_pow_mul (z : Nat) {u : Nat} (hu : u % 2 = 1) : ctz (2 ^ z * u) = z := by
  induction z with
  | zero => simpa using ctz_odd hu
  | succ z ih =>
    have he : 2 ^ (z + 1) * u = 2 * (2 ^ z * u) := by ring
    have hpos : 0 < 2 ^ z * u := Nat.mul_pos (Nat.two_pow_pos z) (by omega)
    rw [he, ctz_two_mul hpos, ih]
    omega

lemma W_eq : W = 2 ^ 64 := rfl

lemma sub64_eq {a b : Nat} (hb : b ≤ a) (ha : a < W) : sub64 a b = a - b := by
  have hW : 0 < W := by rw [W_eq]; positivity
  unfold sub64
  rw [Nat.mod_eq_of_lt ha, Nat.mod_eq_of_lt (by omega : b < W)]
  have he : a + (W - b) = (a - b) + W := by omega
  rw [he, Nat.add_mod_right, Nat.mod_eq_of_lt (by omega)]

lemma add64_eq {a b : Nat} (h : a + b < W) : add64 a b = a + b := Nat.mod_eq_of_lt h

lemma neg64_eq {a : Nat} (h0 : 0 < a) (ha : a < W) : neg64 a = W - a := by
  have hW : 0 < W := by rw [W_eq]; positivity
  unfold neg64
  rw [Nat.mod_eq_of_lt ha, Nat.mod_eq_of_lt (by omega)]

lemma not64_eq {a : Nat} (ha : a < W) : not64 a = W - 1 - a := by
  unfold not64
  rw [Nat.mod_eq_of_lt ha]

/-- The closed form of one `nextBitPermutation` step on a decomposed value:
clear the lowest block of `o` ones starting at bit `z`, set the bit just
above it, and set the lowest `o - 1` bits. -/
lemma nextBitPermutation_eq {m o z : Nat} (ho : 1 ≤ o)
    (hb : m * 2 ^ (o + z + 1) + (2 ^ o - 1) * 2 ^ z < 2 ^ 62) :
    nextBitPermutation (m * 2 ^ (o + z + 1) + (2 ^ o - 1) * 2 ^ z)
      = m * 2 ^ (o + z + 1) + 2 ^ (o + z) + (2 ^ (o - 1) - 1) := by
  have h2o : 2 ≤ (2:Nat) ^ o := by
    calc (2:Nat) = 2 ^ 1 := rfl
    _ ≤ 2 ^ o := Nat.pow_le_pow_right (by omega) ho
  have hPoz : (2:Nat) ^ o * 2 ^ z = 2 ^ (o + z) := by rw [← pow_add]
  have hP2 : (2:Nat) ^ (o + z + 1) = 2 * 2 ^ (o + z) := by
    rw [pow_succ]; ring
  have hzpos := Nat.two_pow_pos z
  have hspos := Nat.two_pow_pos (o + z)
  have hlowexp : (2 ^ o - 1) * 2 ^ z = 2 ^ o * 2 ^ z - 1 * 2 ^ z := Nat.sub_mul ..
  have hlow1 : 1 ≤ (2 ^ o - 1) * 2 ^ z := Nat.mul_pos (by omega) hzpos
  have hlowlt : (2 ^ o - 1) * 2 ^ z < 2 ^ (o + z) := by omega
  set v := m * 2 ^ (o + z + 1) + (2 ^ o - 1) * 2 ^ z with hv
  have hvpos : 0 < v := by omega
  have hu : (m * 2 ^ (o + 1) + (2 ^ o - 1)) % 2 = 1 := by
    have e1 : m * 2 ^ (o + 1) = 2 * (m * 2 ^ o) := by rw [pow_succ]; ring
    have e2 : (2:Nat) ^ o = 2 * 2 ^ (o - 1) := by
      rw [← pow_succ']
      congr 1
      omega
    have e4 : m * 2 ^ o = m * (2 * 2 ^ (o - 1)) := by rw [← e2]
    have e5 : m * (2 * 2 ^ (o - 1)) = 2 * (m * 2 ^ (o - 1)) := by ring
    omega
  have hveq2 : v = 2 ^ z * (m * 2 ^ (o + 1) + (2 ^ o - 1)) := by
    have e3 : 2 ^ z * (m * 2 ^ (o + 1) + (2 ^ o - 1))
        = 2 ^ z * (m * 2 ^ (o + 1)) + 2 ^ z * (2 ^ o - 1) := Nat.mul_add ..
    have e1 : 2 ^ z * (m * 2 ^ (o + 1)) = m * 2 ^ (o + z + 1) := by
      rw [show (2:Nat) ^ (o + z + 1) = 2 ^ (o + 1) * 2 ^ z by rw [← pow_add]; congr 1; omega]
      ring
    have e2 : 2 ^ z * (2 ^ o - 1) = (2 ^ o - 1) * 2 ^ z := Nat.mul_comm ..
    omega
  have hom : (2:Nat) ^ (o - 1) * 2 ^ z = 2 ^ (o - 1 + z) := by rw [← pow_add]
  have hom2 : (2:Nat) ^ (o - 1 + z + 1) = 2 ^ (o + z) := by
    congr 1
    omega
  have ho2 : (2:Nat) ^ o = 2 * 2 ^ (o - 1) := by
    rw [← pow_succ']
    congr 1
    omega
  have hsle : o + z ≤ 62 := by
    by_contra hcon
    have h1 : (2:Nat) ^ (o - 1 + z) ≤ (2 ^ o - 1) * 2 ^ z := by
      rw [← hom]
      exact Nat.mul_le_mul_right _ (by omega)
    have h2 : (2:Nat) ^ 62 ≤ 2 ^ (o - 1 + z) := Nat.pow_le_pow_right (by omega) (by omega)
    omega
  have hQP : (2:Nat) ^ (64 - (o + z)) * 2 ^ (o + z) = 2 ^ 64 := by
    rw [← pow_add]
    congr 1
    omega
  have h62 : (2:Nat) ^ (62 - (o + z)) * 2 ^ (o + z) = 2 ^ 62 := by
    rw [← pow_add]
    congr 1
    omega
  have hQ62 : (2:Nat) ^ (62 - (o + z)) ≤ 2 ^ (64 - (o + z)) :=
    Nat.pow_le_pow_right (by omega) (by omega)
  have hMlink : m * 2 ^ (o + z + 1) = 2 * (m * 2 ^ (o + z)) := by
    rw [hP2]; ring
  have hm2 : 2 * m < 2 ^ (64 - (o + z)) := by
    rcases Nat.lt_or_ge (2 * m) (2 ^ (62 - (o + z))) with h | h
    · omega
    · exfalso
      have := Nat.mul_le_mul_right (2 ^ (o + z)) h
      have hmv : m * 2 ^ (o + z + 1) ≤ v := by omega
      rw [hMlink] at hmv
      have : 2 * m * 2 ^ (o + z) = 2 * (m * 2 ^ (o + z)) := by ring
      omega
  have hWpos : (0:Nat) < W := by rw [W_eq]; positivity
  have hvW : v < W := by rw [W_eq]; have : (2:Nat)^62 ≤ 2^64 := Nat.pow_le_pow_right (by omega) (by omega); omega
  have hvm : v % W = v := Nat.mod_eq_of_lt hvW
  -- the value t = v | (v - 1)
  have hsub1 : sub64 v 1 = v - 1 := sub64_eq (by omega) hvW
  have hvm1 : v - 1 = 2 ^ (o + z + 1) * m + ((2 ^ o - 1) * 2 ^ z - 1) := by
    rw [Nat.mul_comm (2 ^ (o + z + 1))]
    omega
  have hveq' : v = 2 ^ (o + z + 1) * m + (2 ^ o - 1) * 2 ^ z := by
    rw [Nat.mul_comm (2 ^ (o + z + 1))]
  have ht : (v % W) ||| sub64 v 1 = m * 2 ^ (o + z + 1) + (2 ^ (o + z) - 1) := by
    rw [hvm, hsub1, hvm1, hveq']
    have e := or_mul_pow_add (k := o + z + 1) (a := m) (b := (2 ^ o - 1) * 2 ^ z)
      (c := m) (d := (2 ^ o - 1) * 2 ^ z - 1) (by omega) (by omega)
    rw [e, Nat.or_self, or_ones_pred ho, Nat.mul_comm]
  clear hsub1
  set tval := m * 2 ^ (o + z + 1) + (2 ^ (o + z) - 1) with htval
  have hsb : (2:Nat) ^ (o + z) ≤ 2 ^ 62 := Nat.pow_le_pow_right (by omega) (by omega)
  have h64 : (2:Nat) ^ 62 < 2 ^ 64 := Nat.pow_lt_pow_right (by omega) (by omega)
  have htlt : tval + 1 < W := by
    rw [W_eq]
    omega
  -- the complement ~t and its two's-complement negation
  have hnot : not64 tval = (2 ^ (64 - (o + z)) - (2 * m + 1)) * 2 ^ (o + z) := by
    rw [not64_eq (by omega), W_eq, Nat.sub_mul]
    have e1 : (2 * m + 1) * 2 ^ (o + z) = 2 * (m * 2 ^ (o + z)) + 2 ^ (o + z) := by ring
    omega
  have hnotpos : 0 < not64 tval := by
    rw [not64_eq (by omega), W_eq]
    omega
  have hnotW : not64 tval < W := by
    rw [not64_eq (by omega)]
    omega
  have hneg : neg64 (not64 tval) = (2 * m + 1) * 2 ^ (o + z) := by
    rw [neg64_eq hnotpos hnotW, not64_eq (by omega), W_eq]
    have e1 : (2 * m + 1) * 2 ^ (o + z) = 2 * (m * 2 ^ (o + z)) + 2 ^ (o + z) := by ring
    omega
  have hand : not64 tval &&& neg64 (not64 tval) = 2 ^ (o + z) := by
    rw [hneg, hnot]
    have e := and_mul_pow_add (k := o + z) (a := 2 ^ (64 - (o + z)) - (2 * m + 1))
      (b := 0) (c := 2 * m + 1) (d := 0) hspos hspos
    simp only [Nat.add_zero, Nat.zero_and] at e
    rw [Nat.mul_comm (2 ^ (o + z)) (2 ^ (64 - (o + z)) - (2 * m + 1)),
      Nat.mul_comm (2 ^ (o + z)) (2 * m + 1)] at e
    rw [e, show 2 ^ (64 - (o + z)) - (2 * m + 1) = 2 ^ (64 - (o + z)) - 1 - 2 * m by omega,
      and_compl_double (by omega) hm2]
    omega
  -- trailing zero count
  have hctz : ctz (v % W) = z := by
    rw [hvm, hveq2]
    exact ctz_pow_mul z hu
  -- the shifted low block
  have hshift : (2 ^ (o + z) - 1) >>> (z + 1) = 2 ^ (o - 1) - 1 := by
    rw [Nat.shiftRight_eq_div_pow]
    have hzz : (2:Nat) ^ (o - 1) * 2 ^ (z + 1) = 2 ^ (o + z) := by
      rw [← pow_add]
      congr 1
      omega
    have hz1 := Nat.two_pow_pos (z + 1)
    have hsplit : 2 ^ (o + z) - 1 = (2 ^ (z + 1) - 1) + (2 ^ (o - 1) - 1) * 2 ^ (z + 1) := by
      have e1 : (2 ^ (o - 1) - 1) * 2 ^ (z + 1)
          = 2 ^ (o - 1) * 2 ^ (z + 1) - 1 * 2 ^ (z + 1) := Nat.sub_mul ..
      have e2 : (1:Nat) ≤ 2 ^ (o - 1) := Nat.one_le_two_pow
      have e3 : 2 ^ (z + 1) ≤ 2 ^ (o - 1) * 2 ^ (z + 1) :=
        Nat.le_mul_of_pos_left _ (by omega)
      have e4 : (1:Nat) ≤ 2 ^ (z + 1) := Nat.one_le_two_pow
      omega
    have hlt0 : 2 ^ (z + 1) - 1 < 2 ^ (z + 1) := by omega
    rw [hsplit, Nat.add_mul_div_right _ _ hz1, Nat.div_eq_of_lt hlt0]
    omega
  have hadd : add64 tval 1 = 2 ^ (o + z) * (2 * m + 1) := by
    rw [add64_eq htlt]
    have e : 2 ^ (o + z) * (2 * m + 1) = 2 * (m * 2 ^ (o + z)) + 2 ^ (o + z) := by ring
    omega
  have hfin : add64 tval 1 ||| (2 ^ (o - 1) - 1)
      = m * 2 ^ (o + z + 1) + 2 ^ (o + z) + (2 ^ (o - 1) - 1) := by
    rw [hadd]
    have hlt2 : (2:Nat) ^ (o - 1) - 1 < 2 ^ (o + z) := by
      have e : (2:Nat) ^ (o - 1) ≤ 2 ^ (o + z) := Nat.pow_le_pow_right (by omega) (by omega)
      omega
    have e := or_mul_pow_add (k := o + z) (a := 2 * m + 1) (b := 0)
      (c := 0) (d := 2 ^ (o - 1) - 1) hspos hlt2
    simp only [Nat.add_zero, Nat.zero_add, Nat.mul_zero, Nat.or_zero, Nat.zero_or] at e
    rw [e]
    have e2 : 2 ^ (o + z) * (2 * m + 1) = 2 * (m * 2 ^ (o + z)) + 2 ^ (o + z) := by ring
    omega
  -- assemble
  have hPle : (2:Nat) ^ (o + z) ≤ 2 ^ 64 := Nat.pow_le_pow_right (by omega) (by omega)
  have hsubP : sub64 (2 ^ (o + z)) 1 = 2 ^ (o + z) - 1 :=
    sub64_eq (by omega) (by rw [W_eq]; omega)
  show nextBitPermutation v = _
  unfold nextBitPermutation
  rw [ht]
  show add64 tval 1 ||| sub64 (not64 tval &&& neg64 (not64 tval)) 1 >>> (ctz (v % W) + 1)
      = m * 2 ^ (o + z + 1) + 2 ^ (o + z) + (2 ^ (o - 1) - 1)
  rw [hand, hctz, hsubP, hshift, hfin]

/-- Every positive integer decomposes as high bits, a block of `o ≥ 1` ones,
and `z` trailing zeros. -/
lemma odd_decomposition (v : Nat) (hv : 0 < v) :
    ∃ m o z, 1 ≤ o ∧ v = m * 2 ^ (o + z + 1) + (2 ^ o - 1) * 2 ^ z := by
  induction v using Nat.strong_induction_on with
  | _ v ih =>
    by_cases h1 : v = 1
    · exact ⟨0, 1, 0, le_rfl, by norm_num [h1]⟩
    · rcases Nat.mod_two_eq_zero_or_one v with hpar | hpar
      · have hu : 0 < v / 2 := by omega
        obtain ⟨m, o, z, ho, hdec⟩ := ih (v / 2) (by omega) hu
        refine ⟨m, o, z + 1, ho, ?_⟩
        have h2 : v = 2 * (v / 2) := by omega
        rw [h2, hdec]
        have e1 : (2:Nat) ^ (o + (z + 1) + 1) = 2 * 2 ^ (o + z + 1) := by
          rw [show o + (z + 1) + 1 = (o + z + 1) + 1 by omega, pow_succ]
          ring
        have e2 : (2:Nat) ^ (z + 1) = 2 * 2 ^ z := by rw [pow_succ]; ring
        rw [e1, e2]
        ring
      · have hu : 0 < v / 2 := by omega
        obtain ⟨m, o, z, ho, hdec⟩ := ih (v / 2) (by omega) hu
        have hv2 : v = 2 * (v / 2) + 1 := by omega
        cases z with
        | zero =>
          refine ⟨m, o + 1, 0, by omega, ?_⟩
          rw [hv2, hdec]
          have h2o : (1:Nat) ≤ 2 ^ o := Nat.one_le_two_pow
          have l1 : m * (2:Nat) ^ (o + 0 + 1) = 2 * (m * 2 ^ o) := by
            rw [show o + 0 + 1 = o + 1 by omega, pow_succ]
            ring
          have l2 : m * (2:Nat) ^ (o + 1 + 0 + 1) = 4 * (m * 2 ^ o) := by
            rw [show o + 1 + 0 + 1 = o + 2 by omega, show (2:Nat) ^ (o + 2) = 4 * 2 ^ o by
              rw [pow_add]; ring]
            ring
          have e3 : (2:Nat) ^ (o + 1) = 2 * 2 ^ o := by rw [pow_succ]; ring
          have e5 : ((2:Nat) ^ o - 1) * 2 ^ 0 = 2 ^ o - 1 := by norm_num
          have e6 : ((2:Nat) ^ (o + 1) - 1) * 2 ^ 0 = 2 ^ (o + 1) - 1 := by norm_num
          omega
        | succ z' =>
          refine ⟨m * 2 ^ (o + z' + 1) + (2 ^ o - 1) * 2 ^ z', 1, 0, le_rfl, ?_⟩
          rw [hv2, hdec]
          have e1 : m * (2:Nat) ^ (o + (z' + 1) + 1) = 2 * (m * 2 ^ (o + z' + 1)) := by
            rw [show o + (z' + 1) + 1 = (o + z' + 1) + 1 by omega, pow_succ]
            ring
          have e2 : ((2:Nat) ^ o - 1) * 2 ^ (z' + 1) = 2 * ((2 ^ o - 1) * 2 ^ z') := by
            rw [pow_succ]
            ring
          have e3 : (m * 2 ^ (o + z' + 1) + (2 ^ o - 1) * 2 ^ z') * (2:Nat) ^ (1 + 0 + 1)
              = 4 * (m * 2 ^ (o + z' + 1)) + 4 * ((2 ^ o - 1) * 2 ^ z') := by
            norm_num
            ring
          have e4 : ((2:Nat) ^ 1 - 1) * 2 ^ 0 = 1 := by norm_num
          omega

lemma popcount_mul_two_pow (a k : Nat) : popcount (a * 2 ^ k) = popcount a := by
  have h : a * 2 ^ k = a * 2 ^ k + 0 := by omega
  rw [h, popcount_mul_pow_add k a 0 (Nat.two_pow_pos k), popcount_zero]
  omega

lemma popcount_ones_shift (o z : Nat) : popcount ((2 ^ o - 1) * 2 ^ z) = o := by
  rw [popcount_mul_two_pow, popcount_two_pow_sub_one]

/-- `nextBitPermutation` computes the numerically smallest value larger than
`v` with the same population count (for the in-range values used by the
enumeration). -/
lemma nextBitPermutation_spec (v : Nat) (h0 : 0 < v) (hb : v < 2 ^ 62) :
    v < nextBitPermutation v ∧ popcount (nextBitPermutation v) = popcount v ∧
      ∀ w, v < w → w < nextBitPermutation v → popcount w ≠ popcount v := by
  obtain ⟨m, o, z, ho, rfl⟩ := odd_decomposition v h0
  rw [nextBitPermutation_eq ho hb]
  have h2o : 2 ≤ (2:Nat) ^ o := by
    calc (2:Nat) = 2 ^ 1 := rfl
    _ ≤ 2 ^ o := Nat.pow_le_pow_right (by omega) ho
  have hPoz : (2:Nat) ^ o * 2 ^ z = 2 ^ (o + z) := by rw [← pow_add]
  have hP2 : (2:Nat) ^ (o + z + 1) = 2 * 2 ^ (o + z) := by rw [pow_succ]; ring
  have hzpos := Nat.two_pow_pos z
  have hopos := Nat.two_pow_pos (o - 1)
  have ho2 : (2:Nat) ^ o = 2 * 2 ^ (o - 1) := by
    rw [← pow_succ']
    congr 1
    omega
  have hoP : (2:Nat) ^ (o - 1) ≤ 2 ^ (o + z) := Nat.pow_le_pow_right (by omega) (by omega)
  have hlowexp : (2 ^ o - 1) * 2 ^ z = 2 ^ o * 2 ^ z - 1 * 2 ^ z := Nat.sub_mul ..
  have hlowlt : (2 ^ o - 1) * 2 ^ z < 2 ^ (o + z) := by omega
  have hpcv : popcount (m * 2 ^ (o + z + 1) + (2 ^ o - 1) * 2 ^ z) = popcount m + o := by
    rw [popcount_mul_pow_add (o + z + 1) m _ (by omega), popcount_ones_shift]
  have hPL : 2 ^ (o + z) + (2 ^ (o - 1) - 1) < 2 ^ (o + z + 1) := by omega
  have hpcnext : popcount (m * 2 ^ (o + z + 1) + 2 ^ (o + z) + (2 ^ (o - 1) - 1))
      = popcount m + o := by
    have harr : m * 2 ^ (o + z + 1) + 2 ^ (o + z) + (2 ^ (o - 1) - 1)
        = m * 2 ^ (o + z + 1) + (2 ^ (o + z) + (2 ^ (o - 1) - 1)) := by omega
    rw [harr, popcount_mul_pow_add (o + z + 1) m _ hPL]
    have hinner : 2 ^ (o + z) + (2 ^ (o - 1) - 1) = 1 * 2 ^ (o + z) + (2 ^ (o - 1) - 1) := by
      omega
    rw [hinner, popcount_mul_pow_add (o + z) 1 _ (by omega), popcount_two_pow_sub_one]
    have h1 : popcount 1 = 1 := rfl
    omega
  refine ⟨by omega, by rw [hpcnext, hpcv], ?_⟩
  intro w hw1 hw2 hpcw
  rw [hpcv] at hpcw
  have hM : m * 2 ^ (o + z + 1) ≤ w := by omega
  by_cases hcase : w < m * 2 ^ (o + z + 1) + 2 ^ (o + z)
  · -- inside the cleared block: extra low bits force a larger popcount
    set r := w - m * 2 ^ (o + z + 1) with hr
    have hrw : w = m * 2 ^ (o + z + 1) + r := by omega
    have hrlo : (2 ^ o - 1) * 2 ^ z < r := by omega
    have hrhi : r < 2 ^ (o + z) := by omega
    set q := r - (2 ^ o - 1) * 2 ^ z with hq
    have hq0 : 0 < q := by omega
    have hqlt : q < 2 ^ z := by omega
    have hrq : r = (2 ^ o - 1) * 2 ^ z + q := by omega
    have hpcr : popcount r = o + popcount q := by
      rw [hrq, popcount_mul_pow_add z _ q hqlt, popcount_two_pow_sub_one]
    rw [hrw, popcount_mul_pow_add (o + z + 1) m r (by omega), hpcr] at hpcw
    have hpcq : popcount q = 0 := by omega
    have hq0' : q = 0 := popcount_eq_zero.mp hpcq
    omega
  · -- at or above the new top bit but below the result: too few low ones
    set q := w - m * 2 ^ (o + z + 1) - 2 ^ (o + z) with hq
    have hqlt : q < 2 ^ (o - 1) - 1 := by omega
    have hlink : m * 2 ^ (o + z + 1) = 2 * m * 2 ^ (o + z) := by rw [hP2]; ring
    have hwq : w = (2 * m + 1) * 2 ^ (o + z) + q := by
      have hexp : (2 * m + 1) * 2 ^ (o + z) = 2 * m * 2 ^ (o + z) + 2 ^ (o + z) := by ring
      omega
    have hqlt2 : q < 2 ^ (o + z) := by omega
    rw [hwq, popcount_mul_pow_add (o + z) (2 * m + 1) q hqlt2,
      popcount_two_mul_add_one] at hpcw
    have hpcqval : popcount q = o - 1 := by omega
    have hqlt3 : q < 2 ^ (o - 1) := by omega
    have heq := eq_two_pow_sub_one_of_popcount (o - 1) q hqlt3 hpcqval
    omega

lemma enumLoop_ge (keep : Nat → Bool) (endv : Nat) (hb : endv < 2 ^ 62) :
    ∀ nfuel v, 0 < v → ∀ w ∈ enumLoop keep nfuel endv v, v ≤ w := by
  intro nfuel
  induction nfuel with
  | zero => intro v _ w hw; simp [enumLoop] at hw
  | succ f ih =>
    intro v hv w hw
    simp only [enumLoop] at hw
    by_cases hle : v ≤ endv
    · rw [if_pos hle] at hw
      rcases List.mem_append.mp hw with h1 | h2
      · cases hkv : keep v with
        | false => rw [hkv] at h1; simp at h1
        | true => rw [hkv] at h1; simp at h1; omega
      · have hspec := nextBitPermutation_spec v hv (by omega)
        have := ih (nextBitPermutation v) (by omega) w h2
        omega
    · rw [if_neg hle] at hw
      simp at hw

/-- Membership in one enumeration shell: exactly the values between the
start and the shell top sharing the start's popcount and passing the
filter. -/
lemma enumLoop_mem (keep : Nat → Bool) (endv : Nat) (hb : endv < 2 ^ 62) :
    ∀ nfuel v, 0 < v → endv + 1 ≤ nfuel + v →
      ∀ w, w ∈ enumLoop keep nfuel endv v ↔
        (v ≤ w ∧ w ≤ endv ∧ popcount w = popcount v ∧ keep w = true) := by
  intro nfuel
  induction nfuel with
  | zero =>
    intro v hv hfuel w
    simp only [enumLoop, List.not_mem_nil, false_iff]
    intro hcon
    omega
  | succ f ih =>
    intro v hv hfuel w
    simp only [enumLoop]
    by_cases hle : v ≤ endv
    · rw [if_pos hle]
      obtain ⟨hlt, hpc, hmin⟩ := nextBitPermutation_spec v hv (by omega)
      have hih := ih (nextBitPermutation v) (by omega) (by omega) w
      rw [List.mem_append, hih]
      constructor
      · intro h
        rcases h with h1 | h2
        · cases hkv : keep v with
          | false => rw [hkv] at h1; simp at h1
          | true =>
            rw [hkv] at h1
            simp at h1
            subst h1
            exact ⟨le_rfl, hle, rfl, hkv⟩
        · exact ⟨by omega, h2.2.1, by omega, h2.2.2.2⟩
      · rintro ⟨hvw, hwend, hpcw, hkw⟩
        by_cases hweq : w = v
        · subst hweq
          left
          rw [hkw]
          simp
        · right
          have hvltw : v < w := by omega
          have hge : nextBitPermutation v ≤ w := by
            by_contra hcon
            exact hmin w hvltw (by omega) hpcw
          exact ⟨hge, hwend, by omega, hkw⟩
    · rw [if_neg hle]
      simp only [List.not_mem_nil, false_iff]
      intro hcon
      omega

lemma enumLoop_pairwise (keep : Nat → Bool) (endv : Nat) (hb : endv < 2 ^ 62) :
    ∀ nfuel v, 0 < v → (enumLoop keep nfuel endv v).Pairwise (· < ·) := by
  intro nfuel
  induction nfuel with
  | zero => intro v _; simp [enumLoop]
  | succ f ih =>
    intro v hv
    simp only [enumLoop]
    by_cases hle : v ≤ endv
    · rw [if_pos hle]
      obtain ⟨hlt, -, -⟩ := nextBitPermutation_spec v hv (by omega)
      have htail := ih (nextBitPermutation v) (by omega)
      have hge := enumLoop_ge keep endv hb f (nextBitPermutation v) (by omega)
      rw [List.pairwise_append]
      refine ⟨?_, htail, ?_⟩
      · cases hkv : keep v <;> simp
      · intro a ha b hbb
        cases hkv : keep v with
        | false => rw [hkv] at ha; simp at ha
        | true =>
          rw [hkv] at ha
          simp at ha
          subst ha
          have := hge b hbb
          omega
    · rw [if_neg hle]
      simp

lemma checkDegrees_iff (w : Nat) (df : List Nat) (n maxD minD : Nat) :
    checkDegrees w df n maxD minD = true ↔
      ∀ i < n, minD ≤ popcount (w &&& df.getD i 0) ∧
        popcount (w &&& df.getD i 0) ≤ maxD := by
  simp only [checkDegrees, List.all_eq_true, List.mem_range, List.getD_eq_getElem?_getD]
  constructor
  · intro h i hi
    have := h i hi
    simp at this
    omega
  · intro h i hi
    have := h i hi
    simp
    omega

lemma shell_top_eq (T i : Nat) (hi : i ≤ T) :
    ((1 <<< i) - 1) <<< (T - i) = 2 ^ T - 2 ^ (T - i) := by
  rw [Nat.shiftLeft_eq, Nat.shiftLeft_eq, one_mul, Nat.sub_mul, one_mul, ← pow_add]
  congr 2
  omega

/-- Exact characterization of the candidate bitsets: each list element is a
value in the triangular bit space whose popcount lies in the feasible
edge-count range and which passes the degree filter; and conversely. -/
lemma candidateTrius_mem (nodes : List Nat) (maxD minD : Nat)
    (h2 : 2 ≤ nodes.length) (h11 : nodes.length ≤ 11) (w : Nat) :
    w ∈ candidateTrius nodes maxD minD ↔
      (nodes.length - 1 ≤ popcount w ∧
       popcount w ≤ min (nodes.length * maxD % 2 ^ 32 / 2)
         (nodes.length * (nodes.length - 1) / 2) ∧
       w < 2 ^ (nodes.length * (nodes.length - 1) / 2) ∧
       checkDegrees w (calculateDegreeFilter nodes.length) nodes.length maxD minD = true) := by
  have hT : nodes.length * (nodes.length - 1) / 2 ≤ 55 := by
    interval_cases h : nodes.length <;> simp_all
  have hT62 : (2:Nat) ^ (nodes.length * (nodes.length - 1) / 2) ≤ 2 ^ 62 := by
    calc (2:Nat) ^ (nodes.length * (nodes.length - 1) / 2) ≤ 2 ^ 55 :=
      Nat.pow_le_pow_right (by omega) hT
    _ ≤ 2 ^ 62 := Nat.pow_le_pow_right (by omega) (by omega)
  simp only [candidateTrius, List.mem_flatMap, List.mem_range']
  constructor
  · rintro ⟨i, ⟨d, hd, rfl⟩, hw⟩
    set i := nodes.length - 1 + 1 * d with hi
    have hirange : nodes.length - 1 ≤ i ∧
        i ≤ min (nodes.length * maxD % 2 ^ 32 / 2)
          (nodes.length * (nodes.length - 1) / 2) := by
      omega
    have hiT : i ≤ nodes.length * (nodes.length - 1) / 2 := by omega
    have hi1 : 1 ≤ i := by omega
    have hv : (1:Nat) <<< i - 1 = 2 ^ i - 1 := by rw [Nat.shiftLeft_eq, one_mul]
    have h2i : 2 ≤ (2:Nat) ^ i := by
      calc (2:Nat) = 2 ^ 1 := rfl
      _ ≤ 2 ^ i := Nat.pow_le_pow_right (by omega) hi1
    have htop := shell_top_eq (nodes.length * (nodes.length - 1) / 2) i hiT
    have hsub := Nat.two_pow_pos (nodes.length * (nodes.length - 1) / 2 - i)
    have hend : ((1:Nat) <<< i - 1) <<< (nodes.length * (nodes.length - 1) / 2 - i)
        < 2 ^ 62 := by
      rw [hv] at htop ⊢
      omega
    rw [enumLoop_mem _ _ hend _ _ (by omega) (by omega)] at hw
    obtain ⟨hlo, hhi, hpcw, hkw⟩ := hw
    rw [hv, popcount_two_pow_sub_one] at hpcw
    rw [hv] at htop hhi
    refine ⟨by omega, by omega, by omega, hkw⟩
  · rintro ⟨hlo, hhi, hwT, hkw⟩
    have hpos : 0 < w := by
      rcases Nat.eq_zero_or_pos w with rfl | h
      · rw [popcount_zero] at hlo
        omega
      · exact h
    refine ⟨popcount w, ⟨popcount w - (nodes.length - 1), by omega, by omega⟩, ?_⟩
    have hiT : popcount w ≤ nodes.length * (nodes.length - 1) / 2 := by omega
    have hi1 : 1 ≤ popcount w := by omega
    have hv : (1:Nat) <<< popcount w - 1 = 2 ^ popcount w - 1 := by
      rw [Nat.shiftLeft_eq, one_mul]
    have h2i : 2 ≤ (2:Nat) ^ popcount w := by
      calc (2:Nat) = 2 ^ 1 := rfl
      _ ≤ 2 ^ popcount w := Nat.pow_le_pow_right (by omega) hi1
    have htop := shell_top_eq (nodes.length * (nodes.length - 1) / 2) (popcount w) hiT
    have hsub := Nat.two_pow_pos (nodes.length * (nodes.length - 1) / 2 - popcount w)
    have hend : ((1:Nat) <<< popcount w - 1) <<<
        (nodes.length * (nodes.length - 1) / 2 - popcount w) < 2 ^ 62 := by
      rw [hv] at htop ⊢
      omega
    rw [enumLoop_mem _ _ hend _ _ (by omega) (by omega)]
    have hle1 : 2 ^ popcount w - 1 ≤ w := two_pow_sub_one_le_of_popcount w
    have hle2 := le_top_of_popcount (nodes.length * (nodes.length - 1) / 2) w hwT
    rw [hv, Nat.shiftLeft_eq, popcount_two_pow_sub_one]
    refine ⟨by omega, ?_, rfl, hkw⟩
    calc w ≤ (2 ^ popcount w - 1) * 2 ^ (nodes.length * (nodes.length - 1) / 2 - popcount w) :=
      hle2
    _ = _ := rfl

lemma candidateTrius_nodup (nodes : List Nat) (maxD minD : Nat)
    (h2 : 2 ≤ nodes.length) (h11 : nodes.length ≤ 11) :
    (candidateTrius nodes maxD minD).Nodup := by
  have hT : nodes.length * (nodes.length - 1) / 2 ≤ 55 := by
    interval_cases h : nodes.length <;> simp_all
  have shellFacts : ∀ i, nodes.length - 1 ≤ i →
      i ≤ nodes.length * (nodes.length - 1) / 2 →
      (0 < (1:Nat) <<< i - 1 ∧
       ((1:Nat) <<< i - 1) <<< (nodes.length * (nodes.length - 1) / 2 - i) < 2 ^ 62) := by
    intro i hi1 hiT
    have hv : (1:Nat) <<< i - 1 = 2 ^ i - 1 := by rw [Nat.shiftLeft_eq, one_mul]
    have h2i : 2 ≤ (2:Nat) ^ i := by
      calc (2:Nat) = 2 ^ 1 := rfl
      _ ≤ 2 ^ i := Nat.pow_le_pow_right (by omega) (by omega)
    have htop := shell_top_eq (nodes.length * (nodes.length - 1) / 2) i hiT
    have hsub := Nat.two_pow_pos (nodes.length * (nodes.length - 1) / 2 - i)
    have hT62 : (2:Nat) ^ (nodes.length * (nodes.length - 1) / 2) ≤ 2 ^ 62 := by
      calc (2:Nat) ^ (nodes.length * (nodes.length - 1) / 2) ≤ 2 ^ 55 :=
        Nat.pow_le_pow_right (by omega) hT
      _ ≤ 2 ^ 62 := Nat.pow_le_pow_right (by omega) (by omega)
    constructor
    · rw [hv]; omega
    · rw [hv] at htop ⊢; omega
  simp only [candidateTrius]
  apply nodup_flatMap_of
  · exact List.nodup_range' _ _
  · intro i hi
    rw [List.mem_range'] at hi
    obtain ⟨d, hd, rfl⟩ := hi
    obtain ⟨hp, he⟩ := shellFacts (nodes.length - 1 + 1 * d) (by omega) (by omega)
    exact ((enumLoop_pairwise _ _ he _ _ hp).imp fun h => Nat.ne_of_lt h)
  · intro i hi j hj hij b hbi hbj
    rw [List.mem_range'] at hi hj
    obtain ⟨d, hd, rfl⟩ := hi
    obtain ⟨e, he', rfl⟩ := hj
    obtain ⟨hpi, hei⟩ := shellFacts (nodes.length - 1 + 1 * d) (by omega) (by omega)
    obtain ⟨hpj, hej⟩ := shellFacts (nodes.length - 1 + 1 * e) (by omega) (by omega)
    rw [enumLoop_mem _ _ hei _ _ hpi (by omega)] at hbi
    rw [enumLoop_mem _ _ hej _ _ hpj (by omega)] at hbj
    have h1 := hbi.2.2.1
    have h2' := hbj.2.2.1
    rw [Nat.shiftLeft_eq, one_mul, popcount_two_pow_sub_one] at h1 h2'
    omega

/-- A spec-valid input on which the edge-budget product overflows 32-bit
arithmetic: with four nodes and `maxDegree = 2^30` the program's
`nNodes * maxDegree` wraps to 0, the shell loop never runs, and the
enumeration omits every value the exact-arithmetic bound admits (37 is
the 4-node path, popcount 3 within `[3, min(2^31, 6)]`, degree-feasible). -/
theorem C3_counterexample :
    candidateTrius [0, 0, 0, 0] (2 ^ 30) 0 = [] ∧
    (4 - 1 ≤ popcount 37 ∧
     popcount 37 ≤ min (4 * 2 ^ 30 / 2) (4 * 3 / 2) ∧
     37 < 2 ^ (4 * 3 / 2) ∧
     ∀ i < 4,
       0 ≤ popcount (37 &&& (calculateDegreeFilter 4).getD i 0) ∧
       popcount (37 &&& (calculateDegreeFilter 4).getD i 0) ≤ 2 ^ 30) := by
  constructor
  · rfl
  · refine ⟨by decide, ?_, by decide, by decide⟩
    have h1 : popcount 37 = 3 := by decide
    have h2 : (4:Nat) * 2 ^ 30 / 2 = 2 ^ 31 := by norm_num
    have h3 : (4:Nat) * 3 / 2 = 6 := by norm_num
    rw [h1, h2, h3]
    decide

/-- C3 (amended): the enumeration phase produces, without duplicates or
omissions, exactly the triangular-bit values whose popcount lies in
`[n-1, min(n*maxDegree mod 2^32 / 2, n(n-1)/2)]` — the edge budget being
computed in the source's 32-bit unsigned arithmetic — and whose per-node
masked popcounts lie in `[minDegree, maxDegree]`; each edge-count shell
starts at `2^c - 1` (a value of popcount `c`), and the advance step
yields the numerically smallest strictly larger value of equal popcount. -/
theorem C3_candidate_enumeration (nodes : List Nat) (maxD minD : Nat)
    (h2 : 2 ≤ nodes.length) (h11 : nodes.length ≤ 11) :
    (∀ w, w ∈ candidateTrius nodes maxD minD ↔
      (nodes.length - 1 ≤ popcount w ∧
       popcount w ≤ min (nodes.length * maxD % 2 ^ 32 / 2)
         (nodes.length * (nodes.length - 1) / 2) ∧
       w < 2 ^ (nodes.length * (nodes.length - 1) / 2) ∧
       ∀ i < nodes.length,
         minD ≤ popcount (w &&& (calculateDegreeFilter nodes.length).getD i 0) ∧
         popcount (w &&& (calculateDegreeFilter nodes.length).getD i 0) ≤ maxD)) ∧
    (candidateTrius nodes maxD minD).Nodup ∧
    (∀ c, popcount ((1 <<< c) - 1) = c) ∧
    (∀ v, 0 < v → v < 2 ^ 62 →
      v < nextBitPermutation v ∧
      popcount (nextBitPermutation v) = popcount v ∧
      ∀ u, v < u → u < nextBitPermutation v → popcount u ≠ popcount v) := by
  refine ⟨?_, candidateTrius_nodup nodes maxD minD h2 h11, ?_, ?_⟩
  · intro w
    rw [candidateTrius_mem nodes maxD minD h2 h11 w,
      checkDegrees_iff w (calculateDegreeFilter nodes.length) nodes.length maxD minD]
  · intro c
    rw [Nat.shiftLeft_eq, one_mul, popcount_two_pow_sub_one]
  · intro v h0 hb
    exact nextBitPermutation_spec v h0 hb

theorem C3_candidate_enumeration_witness :
    (3 ∈ candidateTrius [0, 0, 0] 2 1) ∧ (candidateTrius [0, 0, 0] 2 1).Nodup :=
  ⟨((C3_candidate_enumeration [0, 0, 0] 2 1 (by decide) (by decide)).1 3).mpr (by decide),
   (C3_candidate_enumeration [0, 0, 0] 2 1 (by decide) (by decide)).2.1⟩

lemma mem_connectedGraphs {nodes : List Nat} {maxD minD : Nat} {g : Graph}
    (hg : g ∈ connectedGraphs nodes maxD minD) :
    ∃ t ∈ candidateTrius nodes maxD minD,
      g = Graph.make nodes t (calculateDegreeFilter nodes.length)
        (adjTriuMasks nodes.length) (generatePermutations nodes) ∧ g.connected = true := by
  simp only [connectedGraphs, List.mem_filter, List.mem_map] at hg
  obtain ⟨⟨t, ht, rfl⟩, hc⟩ := hg
  exact ⟨t, ht, rfl, hc⟩

lemma mem_dedupInsert {g g' : Graph} :
    ∀ buckets : List (List Nat × List Graph),
      g' ∈ (dedupInsert buckets g).flatMap (fun b => b.2) →
      g' ∈ buckets.flatMap (fun b => b.2) ∨ g' = g := by
  intro buckets
  induction buckets with
  | nil =>
    intro h
    simp [dedupInsert] at h
    right
    exact h
  | cons b rest ih =>
    intro h
    obtain ⟨k, gs⟩ := b
    rw [dedupInsert] at h
    by_cases hk : k = g.representation
    · rw [if_pos hk] at h
      by_cases hany : (gs.any fun u => graphEq u g) = true
      · rw [if_pos hany] at h
        left
        exact h
      · rw [if_neg hany] at h
        simp only [List.flatMap_cons, List.mem_append] at h ⊢
        rcases h with h | h
        · rcases h with h1 | h1
          · exact Or.inl (Or.inl h1)
          · simp at h1
            right
            exact h1
        · exact Or.inl (Or.inr h)
    · rw [if_neg hk] at h
      simp only [List.flatMap_cons, List.mem_append] at h ⊢
      rcases h with h | h
      · exact Or.inl (Or.inl h)
      · rcases ih h with h1 | h1
        · exact Or.inl (Or.inr h1)
        · right
          exact h1

lemma mem_foldl_dedup {g' : Graph} :
    ∀ (gs : List Graph) (buckets : List (List Nat × List Graph)),
      g' ∈ ((gs.foldl dedupInsert buckets).flatMap fun b => b.2) →
      g' ∈ buckets.flatMap (fun b => b.2) ∨ g' ∈ gs := by
  intro gs
  induction gs with
  | nil => intro buckets h; exact Or.inl h
  | cons x xs ih =>
    intro buckets h
    rw [List.foldl_cons] at h
    rcases ih (dedupInsert buckets x) h with h1 | h1
    · rcases mem_dedupInsert _ h1 with h2 | h2
      · exact Or.inl h2
      · right
        simp [h2]
    · right
      simp [h1]

/-- Every deduplicated graph was one of the connected candidates. -/
lemma mem_uniqueGraphsList {nodes : List Nat} {maxD minD : Nat} {g : Graph}
    (hg : g ∈ uniqueGraphsList nodes maxD minD) :
    g ∈ connectedGraphs nodes maxD minD := by
  unfold uniqueGraphsList at hg
  rcases mem_foldl_dedup _ _ hg with h | h
  · simp at h
  · exact h

/-- Counting the returned pairs containing `v` on a constructed candidate
recovers `degreeOf`. -/
lemma getEdges_incident_count {nodes : List Nat} {t v : Nat}
    (h2 : 2 ≤ nodes.length) (h11 : nodes.length ≤ 11) :
    (((Graph.make nodes t (calculateDegreeFilter nodes.length)
        (adjTriuMasks nodes.length) (generatePermutations nodes)).getEdges).filter
      fun e => e.1 == v || e.2 == v).length = degreeOf nodes.length t v := by
  simp only [Graph.getEdges, Graph.isEdge, Graph.make, degreeOf]
  rw [List.filter_filter]
  congr 1
  apply List.filter_congr
  intro e he
  obtain ⟨i, j⟩ := e
  rw [mem_pairList] at he
  rw [isEdgeF_eq_edgeIn h11 h2 t (by omega) (by omega) (by omega)]
  exact Bool.and_comm _ _

/-- C7: masking an adjacency with node `v`'s degree filter and taking the
popcount yields exactly the degree of `v`; and for every returned edge
list the number of returned pairs containing `v` equals that masked
popcount of the underlying candidate bitset. -/
theorem C7_degree_filter (nodes : List Nat) (maxD minD : Nat) (a v : Nat)
    (h2 : 2 ≤ nodes.length) (h11 : nodes.length ≤ 11) (hv : v < nodes.length) :
    popcount (a &&& (calculateDegreeFilter nodes.length).getD v 0)
      = degreeOf nodes.length a v ∧
    ∀ E ∈ generateEdges nodes maxD minD,
      ∃ t ∈ candidateTrius nodes maxD minD,
        (E.filter fun e => e.1 == v || e.2 == v).length
          = popcount (t &&& (calculateDegreeFilter nodes.length).getD v 0) := by
  refine ⟨popcount_and_degreeFilter h11 h2 hv, ?_⟩
  intro E hE
  unfold generateEdges at hE
  rw [List.mem_map] at hE
  obtain ⟨g, hg, rfl⟩ := hE
  obtain ⟨t, ht, rfl, -⟩ := mem_connectedGraphs (mem_uniqueGraphsList hg)
  refine ⟨t, ht, ?_⟩
  rw [getEdges_incident_count h2 h11, popcount_and_degreeFilter h11 h2 hv]

theorem C7_degree_filter_witness :
    popcount (1 &&& (calculateDegreeFilter 2).getD 0 0) = degreeOf 2 1 0 ∧
    ∀ E ∈ generateEdges [0, 0] 1 1,
      ∃ t ∈ candidateTrius [0, 0] 1 1,
        (E.filter fun e => e.1 == 0 || e.2 == 0).length
          = popcount (t &&& (calculateDegreeFilter 2).getD 0 0) :=
  C7_degree_filter [0, 0] 1 1 1 0 (by decide) (by decide) (by decide)

lemma lt_two_pow_of_bits {n x : Nat} (h : ∀ i, x.testBit i = true → i < n) : x < 2 ^ n := by
  by_contra hge
  obtain ⟨i, hi, hbit⟩ := Nat.ge_two_pow_implies_high_bit_true (x := x) (n := n) (by omega)
  have := h i hbit
  omega

/-- Pointwise characterization of one BFS scan (the inner `for` loop of
`Graph::checkConnected`): the visited bits gain exactly the scanned
neighbours of `current`, and the queue gains the previously unvisited
ones in scan order. -/
lemma bfsFold_spec (n : Nat) (masks : List Nat) (adj current : Nat) :
    ∀ (l : List Nat), l.Nodup → ∀ (v0 : Nat) (q0 : List Nat),
      (∀ k, (l.foldl
          (fun vq i =>
            if vq.1 &&& (1 <<< i) = 0 ∧ isEdgeF n masks adj current i = true then
              (vq.1 ||| (1 <<< i), vq.2 ++ [i])
            else vq) (v0, q0)).1.testBit k
        = (v0.testBit k || (decide (k ∈ l) && isEdgeF n masks adj current k))) ∧
      (l.foldl
          (fun vq i =>
            if vq.1 &&& (1 <<< i) = 0 ∧ isEdgeF n masks adj current i = true then
              (vq.1 ||| (1 <<< i), vq.2 ++ [i])
            else vq) (v0, q0)).2
        = q0 ++ l.filter fun i => !v0.testBit i && isEdgeF n masks adj current i := by
  intro l
  induction l with
  | nil =>
    intro _ v0 q0
    constructor
    · intro k
      simp
    · simp
  | cons a l' ih =>
    intro hnd v0 q0
    have hna : a ∉ l' := (List.nodup_cons.mp hnd).1
    have hnd' := (List.nodup_cons.mp hnd).2
    have h1a : (1:Nat) <<< a = 2 ^ a := Nat.one_shiftLeft a
    have hbit : (v0 &&& (1 <<< a) = 0) ↔ v0.testBit a = false := by
      rw [h1a, and_two_pow_eq]
      cases hb : v0.testBit a
      · simp
      · simp [(Nat.two_pow_pos a).ne']
    by_cases hc : v0.testBit a = false ∧ isEdgeF n masks adj current a = true
    · have hcond : v0 &&& (1 <<< a) = 0 ∧ isEdgeF n masks adj current a = true :=
        ⟨hbit.mpr hc.1, hc.2⟩
      simp only [List.foldl_cons]
      rw [if_pos hcond]
      obtain ⟨ihv, ihq⟩ := ih hnd' (v0 ||| (1 <<< a)) (q0 ++ [a])
      constructor
      · intro k
        rw [ihv k, Nat.testBit_or, h1a, Nat.testBit_two_pow]
        by_cases hka : k = a
        · subst hka
          simp [hna, hc.1, hc.2]
        · simp [hka, Ne.symm hka]
      · rw [ihq]
        have hfc : l'.filter (fun i => !(v0 ||| (1 <<< a)).testBit i &&
              isEdgeF n masks adj current i)
            = l'.filter fun i => !v0.testBit i && isEdgeF n masks adj current i := by
          apply List.filter_congr
          intro i hi
          have hia : i ≠ a := fun h => hna (h ▸ hi)
          rw [Nat.testBit_or, h1a, Nat.testBit_two_pow]
          simp [Ne.symm hia]
        rw [hfc, List.filter_cons_of_pos (by simp [hc.1, hc.2])]
        simp
    · have hcond : ¬(v0 &&& (1 <<< a) = 0 ∧ isEdgeF n masks adj current a = true) := by
        intro hcon
        exact hc ⟨hbit.mp hcon.1, hcon.2⟩
      simp only [List.foldl_cons]
      rw [if_neg hcond]
      obtain ⟨ihv, ihq⟩ := ih hnd' v0 q0
      constructor
      · intro k
        rw [ihv k]
        by_cases hka : k = a
        · subst hka
          have h1 : decide (k ∈ l') = false := decide_eq_false hna
          have h2 : decide (k ∈ k :: l') = true := decide_eq_true (List.mem_cons_self k l')
          rw [h1, h2, Bool.false_and, Bool.or_false, Bool.true_and]
          cases hb : v0.testBit k
          · have hE : isEdgeF n masks adj current k = false := by
              cases hE : isEdgeF n masks adj current k
              · rfl
              · exact absurd ⟨hb, hE⟩ hc
            rw [hE, Bool.or_false]
          · rw [Bool.true_or]
        · simp [hka]
      · rw [ihq, List.filter_cons_of_neg]
        simp only [Bool.and_eq_true, Bool.not_eq_true', not_and]
        intro hv0
        cases hE : isEdgeF n masks adj current a
        · simp
        · exact absurd ⟨hv0, hE⟩ hc

lemma popcount_or_newbits (n vis : Nat) (hb : ∀ i, vis.testBit i = true → i < n)
    (E : Nat → Bool) (v' : Nat)
    (hv' : ∀ k, v'.testBit k = (vis.testBit k || (decide (k ∈ List.range n) && E k))) :
    popcount v' = popcount vis +
      ((List.range n).filter fun i => !vis.testBit i && E i).length := by
  have hvlt : vis < 2 ^ n := lt_two_pow_of_bits hb
  have hv'lt : v' < 2 ^ n := by
    apply lt_two_pow_of_bits
    intro i hi
    rw [hv' i] at hi
    rcases Bool.or_eq_true_iff.mp hi with h | h
    · exact hb i h
    · have := (Bool.and_eq_true_iff.mp h).1
      simpa [List.mem_range] using this
  rw [popcount_eq_card n v' hv'lt, popcount_eq_card n vis hvlt,
    length_filter_eq_card_filter (List.nodup_range n)]
  have hsplit : (Finset.range n).filter (fun i => v'.testBit i = true)
      = ((Finset.range n).filter fun i => vis.testBit i = true) ∪
        ((Finset.range n).filter fun i => (!vis.testBit i && E i) = true) := by
    rw [← Finset.filter_or]
    apply Finset.filter_congr
    intro k hk
    rw [Finset.mem_range] at hk
    rw [hv' k]
    have h2 : decide (k ∈ List.range n) = true := decide_eq_true (by simp [hk])
    rw [h2, Bool.true_and]
    cases hbk : vis.testBit k <;> cases hek : E k <;> simp
  rw [hsplit, Finset.card_union_of_disjoint]
  · congr 1
    congr 1
    ext k
    simp [List.mem_range]
  · rw [Finset.disjoint_filter]
    intro k _ hk
    simp [hk]

lemma bfsScan_spec (n : Nat) (masks : List Nat) (adj current vis : Nat) (rest : List Nat) :
    (∀ k, (bfsScan n masks adj current (vis, rest)).1.testBit k
        = (vis.testBit k || (decide (k ∈ List.range n) && isEdgeF n masks adj current k))) ∧
    (bfsScan n masks adj current (vis, rest)).2
      = rest ++ (List.range n).filter fun i => !vis.testBit i && isEdgeF n masks adj current i :=
  bfsFold_spec n masks adj current (List.range n) (List.nodup_range n) vis rest

/-- Full run of the BFS while-loop from any state satisfying the loop
invariant: with sufficient fuel the loop drains the queue and returns the
popcount of a final visited set that extends the initial one, stays in
the node range, is closed under the edge relation, and is contained in
every edge-closed predicate holding on the initial visited set. -/
lemma bfsLoop_run (n : Nat) (masks : List Nat) (adj : Nat) :
    ∀ (fuel : Nat) (q : List Nat) (vis cnt : Nat),
      (∀ u ∈ q, u < n ∧ vis.testBit u = true) →
      q.Nodup →
      (∀ i, vis.testBit i = true → i < n) →
      cnt + q.length = popcount vis →
      (∀ i, vis.testBit i = true → i ∉ q →
        ∀ j, j < n → isEdgeF n masks adj i j = true → vis.testBit j = true) →
      n + 1 ≤ fuel + cnt →
      ∃ vis', bfsLoop n masks adj fuel q vis cnt = popcount vis' ∧
        (∀ i, vis.testBit i = true → vis'.testBit i = true) ∧
        (∀ i, vis'.testBit i = true → i < n) ∧
        (∀ i, vis'.testBit i = true →
          ∀ j, j < n → isEdgeF n masks adj i j = true → vis'.testBit j = true) ∧
        (∀ R : Nat → Prop,
          (∀ i, vis.testBit i = true → R i) →
          (∀ i j, R i → j < n → isEdgeF n masks adj i j = true → R j) →
          ∀ i, vis'.testBit i = true → R i) := by
  intro fuel
  induction fuel with
  | zero =>
    intro q vis cnt hq hqd hvn hcnt hclosed hfuel
    exfalso
    have hlt : vis < 2 ^ n := lt_two_pow_of_bits hvn
    have := popcount_le_of_lt_two_pow n vis hlt
    omega
  | succ f ih =>
    intro q vis cnt hq hqd hvn hcnt hclosed hfuel
    cases q with
    | nil =>
      refine ⟨vis, ?_, fun i h => h, hvn, ?_, ?_⟩
      · simp only [bfsLoop]
        rw [List.length_nil] at hcnt
        omega
      · intro i hi j hj hE
        exact hclosed i hi (List.not_mem_nil i) j hj hE
      · intro R hR _ i hi
        exact hR i hi
    | cons current rest =>
      obtain ⟨hsvis, hsq⟩ := bfsScan_spec n masks adj current vis rest
      have hcur := hq current (List.mem_cons_self current rest)
      have hrest : ∀ u ∈ rest, u < n ∧ vis.testBit u = true := fun u hu =>
        hq u (List.mem_cons_of_mem current hu)
      have hcurrest : current ∉ rest := (List.nodup_cons.mp hqd).1
      have hrestnd : rest.Nodup := (List.nodup_cons.mp hqd).2
      have hnewsub : ∀ u ∈ (List.range n).filter
          (fun i => !vis.testBit i && isEdgeF n masks adj current i),
          u < n ∧ vis.testBit u = false ∧ isEdgeF n masks adj current u = true := by
        intro u hu
        rw [List.mem_filter, List.mem_range] at hu
        obtain ⟨hun, hp⟩ := hu
        obtain ⟨hb, hE⟩ := Bool.and_eq_true_iff.mp hp
        exact ⟨hun, by simpa using hb, hE⟩
      have hpc := popcount_or_newbits n vis hvn (isEdgeF n masks adj current)
        (bfsScan n masks adj current (vis, rest)).1 hsvis
      have hq' : ∀ u ∈ (bfsScan n masks adj current (vis, rest)).2,
          u < n ∧ (bfsScan n masks adj current (vis, rest)).1.testBit u = true := by
        intro u hu
        rw [hsq, List.mem_append] at hu
        rcases hu with hu | hu
        · obtain ⟨h1, h2⟩ := hrest u hu
          refine ⟨h1, ?_⟩
          rw [hsvis u, h2, Bool.true_or]
        · obtain ⟨h1, _, h3⟩ := hnewsub u hu
          refine ⟨h1, ?_⟩
          rw [hsvis u, h3, decide_eq_true (by simp [h1]), Bool.true_and, Bool.or_true]
      have hqd' : (bfsScan n masks adj current (vis, rest)).2.Nodup := by
        rw [hsq, List.nodup_append]
        refine ⟨hrestnd, (List.nodup_range n).filter _, ?_⟩
        intro u hu hu2
        obtain ⟨-, h2⟩ := hrest u hu
        obtain ⟨-, h3, -⟩ := hnewsub u hu2
        rw [h2] at h3
        cases h3
      have hvn' : ∀ i, (bfsScan n masks adj current (vis, rest)).1.testBit i = true → i < n := by
        intro i hi
        rw [hsvis i] at hi
        rcases Bool.or_eq_true_iff.mp hi with h | h
        · exact hvn i h
        · have := (Bool.and_eq_true_iff.mp h).1
          simpa [List.mem_range] using this
      have hcnt' : cnt + 1 + (bfsScan n masks adj current (vis, rest)).2.length
          = popcount (bfsScan n masks adj current (vis, rest)).1 := by
        rw [hsq, List.length_append, hpc]
        rw [List.length_cons] at hcnt
        omega
      have hclosed' : ∀ i, (bfsScan n masks adj current (vis, rest)).1.testBit i = true →
          i ∉ (bfsScan n masks adj current (vis, rest)).2 →
          ∀ j, j < n → isEdgeF n masks adj i j = true →
            (bfsScan n masks adj current (vis, rest)).1.testBit j = true := by
        intro i hi hni j hj hE
        cases hvb : vis.testBit i with
        | false =>
          exfalso
          rw [hsvis i, hvb, Bool.false_or] at hi
          obtain ⟨h1, h2⟩ := Bool.and_eq_true_iff.mp hi
          apply hni
          rw [hsq, List.mem_append]
          right
          rw [List.mem_filter, List.mem_range]
          refine ⟨by simpa using h1, ?_⟩
          rw [hvb, h2]
          rfl
        | true =>
          by_cases hic : i = current
          · subst hic
            rw [hsvis j, decide_eq_true (by simp [hj]), hE, Bool.true_and, Bool.or_true]
          · have hirest : i ∉ rest := by
              intro hmem
              apply hni
              rw [hsq, List.mem_append]
              exact Or.inl hmem
            have : vis.testBit j = true := by
              apply hclosed i hvb ?_ j hj hE
              intro hmem
              rcases List.mem_cons.mp hmem with h | h
              · exact hic h
              · exact hirest h
            rw [hsvis j, this, Bool.true_or]
      obtain ⟨vis', hres, hmono, hvn'', hclosed'', hRinv⟩ :=
        ih (bfsScan n masks adj current (vis, rest)).2
          (bfsScan n masks adj current (vis, rest)).1 (cnt + 1)
          hq' hqd' hvn' hcnt' hclosed' (by omega)
      refine ⟨vis', ?_, ?_, hvn'', hclosed'', ?_⟩
      · simp only [bfsLoop]
        exact hres
      · intro i hi
        apply hmono
        rw [hsvis i, hi, Bool.true_or]
      · intro R hR0 hRc i hi
        refine hRinv R ?_ hRc i hi
        intro k hk
        rw [hsvis k] at hk
        rcases Bool.or_eq_true_iff.mp hk with h | h
        · exact hR0 k h
        · obtain ⟨h1, h2⟩ := Bool.and_eq_true_iff.mp h
          have hkn : k < n := by simpa [List.mem_range] using h1
          exact hRc current k (hR0 current hcur.2) hkn h2

lemma isEdgeF_ne {n : Nat} {masks : List Nat} {adj u v : Nat}
    (h : isEdgeF n masks adj u v = true) : u ≠ v := by
  intro he
  subst he
  unfold isEdgeF at h
  rw [if_pos rfl] at h
  cases h

/-- The cached connectivity flag is true exactly when every node is
reachable from node 0 through present edges. -/
lemma checkConnectedF_iff {n : Nat} (adj : Nat) (h2 : 2 ≤ n) (h11 : n ≤ 11) :
    checkConnectedF n (adjTriuMasks n) adj = true ↔ ConnectedAdj n adj := by
  obtain ⟨vis', hres, hmono, hvn, hclosed, hRinv⟩ :=
    bfsLoop_run n (adjTriuMasks n) adj (n + 1) [0] 1 0
      (by
        intro u hu
        have hu0 : u = 0 := List.mem_singleton.mp hu
        subst hu0
        exact ⟨by omega, by decide⟩)
      (List.nodup_singleton 0)
      (by
        intro i hi
        rw [show (1:Nat) = 2 ^ 0 from rfl, Nat.testBit_two_pow] at hi
        have : 0 = i := of_decide_eq_true hi
        omega)
      (by decide)
      (by
        intro i hi hni
        exfalso
        rw [show (1:Nat) = 2 ^ 0 from rfl, Nat.testBit_two_pow] at hi
        have : 0 = i := of_decide_eq_true hi
        subst this
        exact hni (List.mem_singleton.mpr rfl))
      (by omega)
  unfold checkConnectedF
  rw [hres, beq_iff_eq]
  constructor
  · intro hpc
    have hlt : vis' < 2 ^ n := lt_two_pow_of_bits hvn
    have hall := eq_two_pow_sub_one_of_popcount n vis' hlt hpc
    intro v hv
    have hbit : vis'.testBit v = true := by
      rw [hall, Nat.testBit_two_pow_sub_one]
      exact decide_eq_true hv
    have hR := hRinv (fun i => i < n ∧ Relation.ReflTransGen (AdjRel n adj) 0 i)
      (by
        intro i hi
        rw [show (1:Nat) = 2 ^ 0 from rfl, Nat.testBit_two_pow] at hi
        have : 0 = i := of_decide_eq_true hi
        subst this
        exact ⟨by omega, Relation.ReflTransGen.refl⟩)
      (by
        intro i j hRi hj hE
        refine ⟨hj, hRi.2.tail ?_⟩
        have hne := isEdgeF_ne hE
        refine ⟨hRi.1, hj, hne, ?_⟩
        rw [← isEdgeF_eq_edgeIn h11 h2 adj hne hRi.1 hj]
        exact hE)
      v hbit
    exact hR.2
  · intro hconn
    have hreachbit : ∀ v, Relation.ReflTransGen (AdjRel n adj) 0 v →
        vis'.testBit v = true := by
      intro v hpath
      induction hpath with
      | refl => exact hmono 0 (by decide)
      | tail h1 hstep ih =>
        obtain ⟨ha, hb, hne, hedge⟩ := hstep
        refine hclosed _ ih _ hb ?_
        rw [isEdgeF_eq_edgeIn h11 h2 adj hne ha hb]
        exact hedge
    have hall : vis' = 2 ^ n - 1 := by
      apply Nat.eq_of_testBit_eq
      intro i
      rw [Nat.testBit_two_pow_sub_one]
      by_cases hi : i < n
      · rw [hreachbit i (hconn i hi), decide_eq_true hi]
      · rw [decide_eq_false hi]
        cases hb : vis'.testBit i
        · rfl
        · exact absurd (hvn i hb) hi
    rw [hall, popcount_two_pow_sub_one]

lemma getEdges_make (nodes : List Nat) (t : Nat) :
    (Graph.make nodes t (calculateDegreeFilter nodes.length) (adjTriuMasks nodes.length)
      (generatePermutations nodes)).getEdges
    = (pairList nodes.length).filter fun e =>
        isEdgeF nodes.length (adjTriuMasks nodes.length) t e.1 e.2 := rfl

/-- C6: the connectivity flag of every candidate equals reachability of
all nodes from node 0; non-connected candidates are filtered out before
deduplication; and every returned edge list spans a connected graph. -/
theorem C6_connectivity (nodes : List Nat) (maxD minD : Nat)
    (h2 : 2 ≤ nodes.length) (h11 : nodes.length ≤ 11) :
    (∀ t : Nat,
      (Graph.make nodes t (calculateDegreeFilter nodes.length)
        (adjTriuMasks nodes.length) (generatePermutations nodes)).connected = true
        ↔ ConnectedAdj nodes.length t) ∧
    (∀ g ∈ connectedGraphs nodes maxD minD, g.connected = true) ∧
    (∀ E ∈ generateEdges nodes maxD minD, ∀ v < nodes.length,
      Relation.ReflTransGen (fun a b => (a, b) ∈ E ∨ (b, a) ∈ E) 0 v) := by
  have hflag : ∀ t : Nat,
      (Graph.make nodes t (calculateDegreeFilter nodes.length)
        (adjTriuMasks nodes.length) (generatePermutations nodes)).connected = true
        ↔ ConnectedAdj nodes.length t := by
    intro t
    show checkConnectedF nodes.length (adjTriuMasks nodes.length) t = true ↔ _
    exact checkConnectedF_iff t h2 h11
  refine ⟨hflag, ?_, ?_⟩
  · intro g hg
    exact (List.mem_filter.mp hg).2
  · intro E hE v hv
    unfold generateEdges at hE
    rw [List.mem_map] at hE
    obtain ⟨g, hg, rfl⟩ := hE
    obtain ⟨t, ht, rfl, hc⟩ := mem_connectedGraphs (mem_uniqueGraphsList hg)
    have hconn := (hflag t).mp hc
    refine Relation.ReflTransGen.mono ?_ (hconn v hv)
    intro a b hab
    obtain ⟨ha, hb, hne, hedge⟩ := hab
    rw [getEdges_make]
    rcases Nat.lt_or_ge a b with hlt | hge
    · left
      rw [List.mem_filter]
      refine ⟨mem_pairList.mpr ⟨hlt, hb⟩, ?_⟩
      rw [isEdgeF_eq_edgeIn h11 h2 t hne ha hb]
      exact hedge
    · right
      have hblt : b < a := by omega
      rw [List.mem_filter]
      refine ⟨mem_pairList.mpr ⟨hblt, ha⟩, ?_⟩
      rw [isEdgeF_eq_edgeIn h11 h2 t (Ne.symm hne) hb ha, edgeIn_comm]
      exact hedge

theorem C6_connectivity_witness :
    ((Graph.make [0, 0] 3 (calculateDegreeFilter 2) (adjTriuMasks 2)
        (generatePermutations [0, 0])).connected = true ↔ ConnectedAdj 2 3) ∧
    (∀ g ∈ connectedGraphs [0, 0] 1 1, g.connected = true) ∧
    (∀ E ∈ generateEdges [0, 0] 1 1, ∀ v < 2,
      Relation.ReflTransGen (fun a b => (a, b) ∈ E ∨ (b, a) ∈ E) 0 v) :=
  have h := C6_connectivity [0, 0] 1 1 (by decide) (by decide)
  ⟨h.1 3, h.2.1, h.2.2⟩

lemma flatMap_congr {α β : Type} {l : List α} {f g : α → List β}
    (h : ∀ a ∈ l, f a = g a) : l.flatMap f = l.flatMap g := by
  induction l with
  | nil => rfl
  | cons x xs ih =>
    simp only [List.flatMap_cons]
    rw [h x (List.mem_cons_self x xs), ih fun a ha => h a (List.mem_cons_of_mem x ha)]

lemma bitPos_surj {n : Nat} (h11 : n ≤ 11) (h2 : 2 ≤ n) {p : Nat}
    (hp : p < n * (n - 1) / 2) :
    ∃ i j, i < j ∧ j < n ∧ bitPos n i j = p := by
  have hts := triuSize_pos h2
  have hmem : n * (n - 1) / 2 - 1 - p ∈ List.range (n * (n - 1) / 2) := by
    rw [List.mem_range]
    omega
  rw [← pairIdx_map n h11 h2, List.mem_map] at hmem
  obtain ⟨⟨i, j⟩, he, hidx⟩ := hmem
  rw [mem_pairList] at he
  refine ⟨i, j, he.1, he.2, ?_⟩
  simp only at hidx
  unfold bitPos
  omega

/-- The total edge count of a triangular-space adjacency equals its
popcount. -/
lemma popcount_eq_edgeCount {n adj : Nat} (h11 : n ≤ 11) (h2 : 2 ≤ n)
    (hadj : adj < 2 ^ (n * (n - 1) / 2)) :
    popcount adj = edgeCount n adj := by
  rw [popcount_eq_card _ _ hadj]
  unfold edgeCount
  rw [length_filter_eq_card_filter (pairList_nodup h11 h2)]
  symm
  refine Finset.card_bij (fun e _ => bitPos n e.1 e.2) ?_ ?_ ?_
  · rintro ⟨i, j⟩ he
    rw [Finset.mem_filter, List.mem_toFinset, mem_pairList] at he
    obtain ⟨⟨hij, hj⟩, hq⟩ := he
    rw [Finset.mem_filter, Finset.mem_range]
    exact ⟨bitPos_lt h2, hq⟩
  · rintro ⟨i, j⟩ he ⟨i', j'⟩ he' hbit
    rw [Finset.mem_filter, List.mem_toFinset, mem_pairList] at he he'
    have := bitPos_injOn h11 h2 he.1.1 he.1.2 he'.1.1 he'.1.2 hbit
    exact Prod.ext this.1 this.2
  · intro p hp
    rw [Finset.mem_filter, Finset.mem_range] at hp
    obtain ⟨hplt, hbit⟩ := hp
    obtain ⟨i, j, hij, hj, rfl⟩ := bitPos_surj h11 h2 hplt
    refine ⟨(i, j), ?_, rfl⟩
    rw [Finset.mem_filter, List.mem_toFinset, mem_pairList]
    exact ⟨⟨hij, hj⟩, hbit⟩

lemma length_filter_enumFrom {α : Type} :
    ∀ (l : List α) (k : Nat) (P : Nat × α → Bool) (Q : α → Bool),
      (∀ p ∈ l.enumFrom k, P p = Q p.2) →
      ((l.enumFrom k).filter P).length = (l.filter Q).length := by
  intro l
  induction l with
  | nil => intro k P Q h; rfl
  | cons x xs ih =>
    intro k P Q h
    rw [List.enumFrom_cons, List.filter_cons, List.filter_cons]
    have hx : P (k, x) = Q x := by
      apply h (k, x)
      rw [List.enumFrom_cons]
      exact List.mem_cons_self _ _
    have ihh := ih (k + 1) P Q fun p hp => h p (by
      rw [List.enumFrom_cons]
      exact List.mem_cons_of_mem _ hp)
    rw [hx]
    cases hq : Q x
    · rw [if_neg (by simp [hq]), if_neg (by simp [hq])]
      exact ihh
    · rw [if_pos (by simp [hq]), if_pos (by simp [hq])]
      simp only [List.length_cons, ihh]

lemma enum_pair_idx {n : Nat} (h11 : n ≤ 11) (h2 : 2 ≤ n) {p : Nat × (Nat × Nat)}
    (hp : p ∈ (pairList n).enum) :
    p.1 = upperTriuIndex p.2.1 p.2.2 n ∧ p.2 ∈ pairList n := by
  obtain ⟨i, x⟩ := p
  rw [List.mk_mem_enum_iff_getElem?] at hp
  have hmem : x ∈ pairList n := List.getElem?_mem hp
  have hmap : ((pairList n).map fun e => upperTriuIndex e.1 e.2 n)[i]?
      = some (upperTriuIndex x.1 x.2 n) := by
    rw [List.getElem?_map, hp, Option.map_some']
  rw [pairIdx_map n h11 h2] at hmap
  have hlen : i < n * (n - 1) / 2 := by
    by_contra hge
    have hnone : (List.range (n * (n - 1) / 2))[i]? = none := by
      rw [List.getElem?_eq_none]
      simpa using hge
    rw [hnone] at hmap
    cases hmap
  rw [List.getElem?_range hlen] at hmap
  exact ⟨Option.some_inj.mp hmap, hmem⟩

lemma length_filter_enum {α : Type} (l : List α) (P : Nat × α → Bool) (Q : α → Bool)
    (h : ∀ p ∈ l.enum, P p = Q p.2) :
    (l.enum.filter P).length = (l.filter Q).length :=
  length_filter_enumFrom l 0 P Q h

lemma decide_and_two_pow (a q : Nat) : decide (a &&& 2 ^ q ≠ 0) = a.testBit q := by
  cases hb : a.testBit q
  · apply decide_eq_false
    intro hne
    rw [(and_two_pow_ne_zero a q).mp hne] at hb
    cases hb
  · exact decide_eq_true ((and_two_pow_ne_zero a q).mpr hb)

/-- The computed representation refines the specification's sequence:
edge count, per-color sorted degrees, per-color-pair edge counts. -/
lemma calcRepresentation_eq_reprSpec (nodes : List Nat) (adj : Nat)
    (h2 : 2 ≤ nodes.length) (h11 : nodes.length ≤ 11)
    (hadj : adj < 2 ^ (nodes.length * (nodes.length - 1) / 2)) :
    calcRepresentation nodes adj (calculateDegreeFilter nodes.length)
      (adjTriuMasks nodes.length) = reprSpec nodes adj := by
  simp only [calcRepresentation, reprSpec]
  congr 1
  · exact popcount_eq_edgeCount h11 h2 hadj
  congr 1
  · congr 1
    apply List.map_congr_left
    intro c hc
    congr 1
    apply List.map_congr_left
    intro i hi
    rw [List.mem_filter, List.mem_range] at hi
    exact popcount_and_degreeFilter h11 h2 hi.1
  · apply flatMap_congr
    intro c1 hc1
    apply List.map_congr_left
    intro c2 hc2
    apply length_filter_enum (pairList nodes.length)
    intro p hp
    obtain ⟨hidx, hmem⟩ := enum_pair_idx h11 h2 hp
    obtain ⟨k, i, j⟩ := p
    rw [mem_pairList] at hmem
    simp only at hidx
    have hklt : k < nodes.length * (nodes.length - 1) / 2 := by
      rw [hidx]
      exact upperTriuIndex_lt h11 h2 hmem.1 hmem.2
    have hmask : (adjTriuMasks nodes.length).getD k 0
        = 2 ^ (bitPos nodes.length i j) := by
      rw [adjTriuMasks_getD h2 hklt, hidx]
      rfl
    simp only
    rw [hmask, decide_and_two_pow]
    rfl

/-- Transfer of filtered pair counts along a node bijection carrying the
edges of `a` onto the edges of `b`. -/
lemma pairCount_bij {n a b : Nat} (h11 : n ≤ 11) (h2 : 2 ≤ n) (fp : Nat → Nat)
    (hfplt : ∀ u, u < n → fp u < n)
    (hfpinj : ∀ u, u < n → ∀ v, v < n → fp u = fp v → u = v)
    (hfpsurj : ∀ v, v < n → ∃ u, u < n ∧ fp u = v)
    (hedge : ∀ u v, u < n → v < n → u ≠ v → edgeIn n a u v = edgeIn n b (fp u) (fp v))
    (X Y : Nat × Nat → Bool)
    (hXY : ∀ u v, u < v → v < n →
      X (u, v) = Y (min (fp u) (fp v), max (fp u) (fp v))) :
    ((pairList n).filter fun e => edgeIn n a e.1 e.2 && X e).length
      = ((pairList n).filter fun e => edgeIn n b e.1 e.2 && Y e).length := by
  rw [length_filter_eq_card_filter (pairList_nodup h11 h2),
    length_filter_eq_card_filter (pairList_nodup h11 h2)]
  refine Finset.card_bij
    (fun e _ => (min (fp e.1) (fp e.2), max (fp e.1) (fp e.2))) ?_ ?_ ?_
  · rintro ⟨u, v⟩ he
    rw [Finset.mem_filter, List.mem_toFinset, mem_pairList] at he
    obtain ⟨⟨huv, hv⟩, hq⟩ := he
    rw [Bool.and_eq_true] at hq
    obtain ⟨hea, hXuv⟩ := hq
    have hu : u < n := by omega
    have hfu := hfplt u hu
    have hfv := hfplt v hv
    have hne : fp u ≠ fp v := fun h => by
      have := hfpinj u hu v hv h
      omega
    rw [Finset.mem_filter, List.mem_toFinset, mem_pairList]
    simp only
    refine ⟨⟨by omega, by omega⟩, ?_⟩
    rw [Bool.and_eq_true]
    constructor
    · rcases Nat.lt_or_ge (fp u) (fp v) with hlt | hge
      · rw [min_eq_left (by omega : fp u ≤ fp v), max_eq_right (by omega : fp u ≤ fp v)]
        rw [← hedge u v hu hv (by omega)]
        exact hea
      · have hlt : fp v < fp u := by omega
        rw [min_eq_right (by omega : fp v ≤ fp u), max_eq_left (by omega : fp v ≤ fp u)]
        rw [edgeIn_comm, ← hedge u v hu hv (by omega)]
        exact hea
    · rw [← hXY u v huv hv]
      exact hXuv
  · rintro ⟨u1, v1⟩ he1 ⟨u2, v2⟩ he2 heq
    rw [Finset.mem_filter, List.mem_toFinset, mem_pairList] at he1 he2
    obtain ⟨⟨h1, h1'⟩, -⟩ := he1
    obtain ⟨⟨h2', h2''⟩, -⟩ := he2
    simp only [Prod.mk.injEq] at heq
    obtain ⟨hmin, hmax⟩ := heq
    have hc : (fp u1 = fp u2 ∧ fp v1 = fp v2) ∨ (fp u1 = fp v2 ∧ fp v1 = fp u2) := by
      omega
    rcases hc with ⟨ha1, ha2⟩ | ⟨ha1, ha2⟩
    · have e1 := hfpinj u1 (by omega) u2 (by omega) ha1
      have e2 := hfpinj v1 (by omega) v2 (by omega) ha2
      simp only [Prod.mk.injEq]
      omega
    · have e1 := hfpinj u1 (by omega) v2 (by omega) ha1
      have e2 := hfpinj v1 (by omega) u2 (by omega) ha2
      simp only [Prod.mk.injEq]
      omega
  · rintro ⟨i', j'⟩ hp
    rw [Finset.mem_filter, List.mem_toFinset, mem_pairList] at hp
    obtain ⟨⟨hij', hj'⟩, hq⟩ := hp
    rw [Bool.and_eq_true] at hq
    obtain ⟨heb, hY⟩ := hq
    obtain ⟨u, hu, hfu⟩ := hfpsurj i' (by omega)
    obtain ⟨v, hv, hfv⟩ := hfpsurj j' hj'
    have hune : u ≠ v := fun h => by
      rw [h, hfv] at hfu
      omega
    rcases Nat.lt_or_ge u v with hlt | hge
    · refine ⟨(u, v), ?_, ?_⟩
      · rw [Finset.mem_filter, List.mem_toFinset, mem_pairList]
        simp only
        refine ⟨⟨hlt, hv⟩, ?_⟩
        rw [Bool.and_eq_true]
        constructor
        · rw [hedge u v hu hv hune, hfu, hfv]
          exact heb
        · rw [hXY u v hlt hv, hfu, hfv,
            min_eq_left (by omega : i' ≤ j'), max_eq_right (by omega : i' ≤ j')]
          exact hY
      · simp only [Prod.mk.injEq, hfu, hfv]
        omega
    · have hlt : v < u := by omega
      refine ⟨(v, u), ?_, ?_⟩
      · rw [Finset.mem_filter, List.mem_toFinset, mem_pairList]
        simp only
        refine ⟨⟨hlt, hu⟩, ?_⟩
        rw [Bool.and_eq_true]
        constructor
        · rw [hedge v u hv hu (Ne.symm hune), hfu, hfv, edgeIn_comm]
          exact heb
        · rw [hXY v u hlt hu, hfu, hfv,
            min_eq_right (by omega : i' ≤ j'), max_eq_left (by omega : i' ≤ j')]
          exact hY
      · simp only [Prod.mk.injEq, hfu, hfv]
        omega

lemma insertionSort_eq_of_perm {l1 l2 : List Nat} (h : l1.Perm l2) :
    List.insertionSort (· ≤ ·) l1 = List.insertionSort (· ≤ ·) l2 :=
  List.eq_of_perm_of_sorted
    ((List.perm_insertionSort _ l1).trans (h.trans (List.perm_insertionSort _ l2).symm))
    (List.sorted_insertionSort _ l1)
    (List.sorted_insertionSort _ l2)

lemma degreeOf_iso {n a b : Nat} (h11 : n ≤ 11) (h2 : 2 ≤ n) (fp : Nat → Nat)
    (hfplt : ∀ u, u < n → fp u < n)
    (hfpinj : ∀ u, u < n → ∀ v, v < n → fp u = fp v → u = v)
    (hfpsurj : ∀ v, v < n → ∃ u, u < n ∧ fp u = v)
    (hedge : ∀ u v, u < n → v < n → u ≠ v → edgeIn n a u v = edgeIn n b (fp u) (fp v))
    (i : Nat) (hi : i < n) :
    degreeOf n a i = degreeOf n b (fp i) := by
  unfold degreeOf
  apply pairCount_bij h11 h2 fp hfplt hfpinj hfpsurj hedge
  intro u v huv hv
  have hu : u < n := by omega
  have hfu := hfplt u hu
  have hfv := hfplt v hv
  rw [Bool.eq_iff_iff]
  simp only [Bool.or_eq_true, beq_iff_eq]
  constructor
  · rintro (h | h)
    · have hpe : fp u = fp i := by rw [h]
      rcases Nat.le_total (fp u) (fp v) with hle | hle
      · left
        rw [min_eq_left hle]
        exact hpe
      · right
        rw [max_eq_left hle]
        exact hpe
    · have hpe : fp v = fp i := by rw [h]
      rcases Nat.le_total (fp u) (fp v) with hle | hle
      · right
        rw [max_eq_right hle]
        exact hpe
      · left
        rw [min_eq_right hle]
        exact hpe
  · have hcase : min (fp u) (fp v) = fp u ∨ min (fp u) (fp v) = fp v := by omega
    have hcase2 : max (fp u) (fp v) = fp u ∨ max (fp u) (fp v) = fp v := by omega
    rintro (h | h)
    · rcases hcase with hc | hc
      · left
        exact hfpinj u hu i hi (by omega)
      · right
        exact hfpinj v hv i hi (by omega)
    · rcases hcase2 with hc | hc
      · left
        exact hfpinj u hu i hi (by omega)
      · right
        exact hfpinj v hv i hi (by omega)

lemma edgeCount_iso {n a b : Nat} (h11 : n ≤ 11) (h2 : 2 ≤ n) (fp : Nat → Nat)
    (hfplt : ∀ u, u < n → fp u < n)
    (hfpinj : ∀ u, u < n → ∀ v, v < n → fp u = fp v → u = v)
    (hfpsurj : ∀ v, v < n → ∃ u, u < n ∧ fp u = v)
    (hedge : ∀ u v, u < n → v < n → u ≠ v → edgeIn n a u v = edgeIn n b (fp u) (fp v)) :
    edgeCount n a = edgeCount n b := by
  unfold edgeCount
  have ha : (pairList n).filter (fun e => edgeIn n a e.1 e.2)
      = (pairList n).filter fun e => edgeIn n a e.1 e.2 && (fun _ => true) e := by
    apply List.filter_congr
    intro e _
    rw [Bool.and_true]
  have hb : (pairList n).filter (fun e => edgeIn n b e.1 e.2)
      = (pairList n).filter fun e => edgeIn n b e.1 e.2 && (fun _ => true) e := by
    apply List.filter_congr
    intro e _
    rw [Bool.and_true]
  rw [ha, hb]
  exact pairCount_bij h11 h2 fp hfplt hfpinj hfpsurj hedge _ _ fun u v _ _ => rfl

/-- The specification representation is invariant under color-preserving
relabelings that carry the edges of `a` onto the edges of `b`. -/
lemma reprSpec_iso (nodes : List Nat) (a b : Nat)
    (h2 : 2 ≤ nodes.length) (h11 : nodes.length ≤ 11)
    (hiso : IsoAdj nodes a b) : reprSpec nodes a = reprSpec nodes b := by
  obtain ⟨p, hpperm, hedge0⟩ := hiso
  have hpmem : p ∈ generatePermutations nodes := (mem_generatePermutations nodes p).mpr hpperm
  obtain ⟨q, hqmem, hinv⟩ := generatePermutations_inverse hpmem
  have hqperm : IsColorPerm nodes q := (mem_generatePermutations nodes q).mp hqmem
  obtain ⟨hplen, hpnod, hpcol⟩ := hpperm
  obtain ⟨hqlen, hqnod, hqcol⟩ := hqperm
  have hfplt : ∀ u, u < nodes.length → p.getD u 0 < nodes.length := fun u hu => (hpcol u hu).1
  have hfpinj : ∀ u, u < nodes.length → ∀ v, v < nodes.length →
      p.getD u 0 = p.getD v 0 → u = v := by
    intro u hu v hv h
    have h1 := (hinv u hu).1
    have h2' := (hinv v hv).1
    rw [h] at h1
    omega
  have hfpsurj : ∀ v, v < nodes.length → ∃ u, u < nodes.length ∧ p.getD u 0 = v := by
    intro v hv
    exact ⟨q.getD v 0, (hqcol v hv).1, (hinv v hv).2⟩
  have hedge : ∀ u v, u < nodes.length → v < nodes.length → u ≠ v →
      edgeIn nodes.length a u v = edgeIn nodes.length b (p.getD u 0) (p.getD v 0) := by
    intro u v hu hv hne
    rcases Nat.lt_or_ge u v with hlt | hge
    · exact hedge0 u v hlt hv
    · have hlt : v < u := by omega
      rw [edgeIn_comm, hedge0 v u hlt hu, edgeIn_comm]
  have hcolfp : ∀ u, u < nodes.length → nodes.getD (p.getD u 0) 0 = nodes.getD u 0 :=
    fun u hu => (hpcol u hu).2
  simp only [reprSpec]
  congr 1
  · exact edgeCount_iso h11 h2 _ hfplt hfpinj hfpsurj hedge
  congr 1
  · -- per-color sorted degree blocks
    congr 1
    apply List.map_congr_left
    intro c hc
    have hclassmap : (((List.range nodes.length).filter
          fun i => nodes.getD i 0 = c).map fun i => degreeOf nodes.length a i)
        = ((List.range nodes.length).filter
          fun i => nodes.getD i 0 = c).map
            fun i => degreeOf nodes.length b (p.getD i 0) := by
      apply List.map_congr_left
      intro i hi
      rw [List.mem_filter, List.mem_range] at hi
      exact degreeOf_iso h11 h2 _ hfplt hfpinj hfpsurj hedge i hi.1
    rw [hclassmap]
    apply insertionSort_eq_of_perm
    have hmm : (((List.range nodes.length).filter fun i => nodes.getD i 0 = c).map
          fun i => degreeOf nodes.length b (p.getD i 0))
        = (((List.range nodes.length).filter fun i => nodes.getD i 0 = c).map
            fun i => p.getD i 0).map fun i => degreeOf nodes.length b i := by
      rw [List.map_map]
      rfl
    rw [hmm]
    apply List.Perm.map
    apply List.perm_of_nodup_nodup_toFinset_eq
    · apply List.Nodup.map_on
      · intro x hx y hy hxy
        rw [List.mem_filter, List.mem_range] at hx hy
        exact hfpinj x hx.1 y hy.1 hxy
      · exact (List.nodup_range nodes.length).filter _
    · exact (List.nodup_range nodes.length).filter _
    · ext x
      simp only [List.mem_toFinset, List.mem_map, List.mem_filter, List.mem_range]
      constructor
      · rintro ⟨i, ⟨hin, hic⟩, rfl⟩
        have hic' : nodes.getD i 0 = c := of_decide_eq_true hic
        refine ⟨hfplt i hin, decide_eq_true ?_⟩
        rw [hcolfp i hin]
        exact hic'
      · rintro ⟨hxn, hxc⟩
        have hxc' : nodes.getD x 0 = c := of_decide_eq_true hxc
        refine ⟨q.getD x 0, ⟨(hqcol x hxn).1, decide_eq_true ?_⟩, (hinv x hxn).2⟩
        rw [(hqcol x hxn).2]
        exact hxc'
  · -- per-color-pair edge counts
    apply flatMap_congr
    intro c1 hc1
    apply List.map_congr_left
    intro c2 hc2
    have hact : ∀ t : Nat, ((pairList nodes.length).filter fun e =>
          edgeIn nodes.length t e.1 e.2 &&
            (min (nodes.getD e.1 0) (nodes.getD e.2 0) == c1) &&
            (max (nodes.getD e.1 0) (nodes.getD e.2 0) == c2))
        = (pairList nodes.length).filter fun e =>
            edgeIn nodes.length t e.1 e.2 &&
              ((min (nodes.getD e.1 0) (nodes.getD e.2 0) == c1) &&
               (max (nodes.getD e.1 0) (nodes.getD e.2 0) == c2)) := by
      intro t
      apply List.filter_congr
      intro e _
      rw [Bool.and_assoc]
    rw [hact a, hact b]
    apply pairCount_bij h11 h2 _ hfplt hfpinj hfpsurj hedge
    intro u v huv hv
    have hu : u < nodes.length := by omega
    have hfu := hfplt u hu
    have hfv := hfplt v hv
    rcases Nat.le_total (p.getD u 0) (p.getD v 0) with hle | hle
    · rw [min_eq_left hle, max_eq_right hle]
      simp only
      rw [hcolfp u hu, hcolfp v hv]
    · rw [min_eq_right hle, max_eq_left hle]
      simp only
      rw [hcolfp u hu, hcolfp v hv, Nat.min_comm, Nat.max_comm]

/-- C5: the computed representation of every candidate equals the
specification sequence (edge count, per-color sorted degrees, per-pair
edge-type counts), and the representation is invariant under
color-preserving relabelings of isomorphic candidates. -/
theorem C5_representation (nodes : List Nat)
    (h2 : 2 ≤ nodes.length) (h11 : nodes.length ≤ 11) :
    (∀ adj, adj < 2 ^ (nodes.length * (nodes.length - 1) / 2) →
      calcRepresentation nodes adj (calculateDegreeFilter nodes.length)
        (adjTriuMasks nodes.length) = reprSpec nodes adj) ∧
    (∀ a b, IsoAdj nodes a b → reprSpec nodes a = reprSpec nodes b) ∧
    (∀ a b, a < 2 ^ (nodes.length * (nodes.length - 1) / 2) →
      b < 2 ^ (nodes.length * (nodes.length - 1) / 2) → IsoAdj nodes a b →
      calcRepresentation nodes a (calculateDegreeFilter nodes.length)
        (adjTriuMasks nodes.length)
      = calcRepresentation nodes b (calculateDegreeFilter nodes.length)
        (adjTriuMasks nodes.length)) := by
  refine ⟨fun adj h => calcRepresentation_eq_reprSpec nodes adj h2 h11 h,
    fun a b h => reprSpec_iso nodes a b h2 h11 h, ?_⟩
  intro a b ha hb hiso
  rw [calcRepresentation_eq_reprSpec nodes a h2 h11 ha,
    calcRepresentation_eq_reprSpec nodes b h2 h11 hb]
  exact reprSpec_iso nodes a b h2 h11 hiso

theorem C5_representation_witness :
    calcRepresentation [0, 0] 1 (calculateDegreeFilter 2) (adjTriuMasks 2)
      = reprSpec [0, 0] 1 ∧
    reprSpec [0, 0] 1 = reprSpec [0, 0] 1 :=
  have h := C5_representation [0, 0] (by decide) (by decide)
  ⟨h.1 1 (by decide),
   h.2.1 1 1 ⟨[0, 1], ⟨by decide, by decide, by decide⟩, by
     intro i j hij hj
     have hlen : ([0, 0] : List Nat).length = 2 := rfl
     have hi : i = 0 := by omega
     have hj1 : j = 1 := by omega
     subst hi
     subst hj1
     decide⟩⟩

/-! ### Connected graphs have at least n - 1 edges -/

/-- Executable adjacency test mirroring `AdjRel`. -/
def adjb (n a u v : Nat) : Bool :=
  decide (u < n) && decide (v < n) && (u != v) && edgeIn n a u v

lemma adjb_iff {n a u v : Nat} : adjb n a u v = true ↔ AdjRel n a u v := by
  unfold adjb AdjRel
  simp only [Bool.and_eq_true, decide_eq_true_eq, bne_iff_ne]
  tauto

/-- Reachability from node 0 within `k` steps. -/
def reachNb (n a : Nat) : Nat → Nat → Bool
  | 0, v => v == 0
  | k + 1, v =>
    reachNb n a k v || (List.range n).any fun u => reachNb n a k u && adjb n a u v

lemma rtg_iff_reachNb {n a v : Nat} :
    Relation.ReflTransGen (AdjRel n a) 0 v ↔ ∃ k, reachNb n a k v = true := by
  constructor
  · intro h
    induction h with
    | refl => exact ⟨0, rfl⟩
    | tail h1 hstep ih =>
      obtain ⟨k, hk⟩ := ih
      obtain ⟨hu, hv, hne, hedge⟩ := hstep
      refine ⟨k + 1, ?_⟩
      rw [reachNb, Bool.or_eq_true]
      right
      rw [List.any_eq_true]
      refine ⟨_, List.mem_range.mpr hu, ?_⟩
      rw [Bool.and_eq_true, adjb_iff]
      exact ⟨hk, hu, hv, hne, hedge⟩
  · rintro ⟨k, hk⟩
    induction k generalizing v with
    | zero =>
      rw [reachNb] at hk
      have : v = 0 := by simpa using hk
      subst this
      exact Relation.ReflTransGen.refl
    | succ k ih =>
      rw [reachNb, Bool.or_eq_true] at hk
      rcases hk with hk | hk
      · exact ih hk
      · rw [List.any_eq_true] at hk
        obtain ⟨u, hu, hq⟩ := hk
        rw [Bool.and_eq_true, adjb_iff] at hq
        exact (ih hq.1).tail hq.2

/-- A connected adjacency on `n` nodes has at least `n - 1` edges. -/
lemma connected_popcount_ge {n a : Nat} (h11 : n ≤ 11) (h2 : 2 ≤ n)
    (hadj : a < 2 ^ (n * (n - 1) / 2)) (hconn : ConnectedAdj n a) :
    n - 1 ≤ popcount a := by
  have hreach : ∀ v, v < n → ∃ k, reachNb n a k v = true :=
    fun v hv => rtg_iff_reachNb.mp (hconn v hv)
  have hd : ∀ v, v < n → ∃ dv, reachNb n a dv v = true ∧
      ∀ m, m < dv → reachNb n a m v = false := by
    intro v hv
    refine ⟨Nat.find (hreach v hv), Nat.find_spec (hreach v hv), ?_⟩
    intro m hm
    have := Nat.find_min (hreach v hv) hm
    cases hr : reachNb n a m v
    · rfl
    · exact absurd hr this
  choose! d hdspec hdmin using hd
  have hd1 : ∀ v, 1 ≤ v → v < n → 1 ≤ d v := by
    intro v h1 hv
    by_contra hz
    have hz0 : d v = 0 := by omega
    have := hdspec v hv
    rw [hz0, reachNb] at this
    have : v = 0 := by simpa using this
    omega
  have hpar : ∀ v, 1 ≤ v → v < n →
      ∃ u, u < n ∧ AdjRel n a u v ∧ d u ≤ d v - 1 := by
    intro v h1 hv
    have hs := hdspec v hv
    have hd1v := hd1 v h1 hv
    have hdv : d v = (d v - 1) + 1 := by omega
    rw [hdv, reachNb, Bool.or_eq_true] at hs
    rcases hs with hs | hs
    · have := hdmin v hv (d v - 1) (by omega)
      rw [this] at hs
      cases hs
    · rw [List.any_eq_true] at hs
      obtain ⟨u, hu, hq⟩ := hs
      rw [Bool.and_eq_true, adjb_iff] at hq
      rw [List.mem_range] at hu
      refine ⟨u, hu, hq.2, ?_⟩
      have hdu : d u ≤ d v - 1 := by
        by_contra hgt
        have := hdmin u hu (d v - 1) (by omega)
        rw [this] at hq
        exact absurd hq.1 (by simp)
      exact hdu
  choose! par hparlt hparadj hpard using hpar
  have hmaps : ∀ v ∈ Finset.Ico 1 n,
      bitPos n (min (par v) v) (max (par v) v) ∈
        (Finset.range (n * (n - 1) / 2)).filter fun i => a.testBit i := by
    intro v hv
    rw [Finset.mem_Ico] at hv
    obtain ⟨hadjuv⟩ := hparadj v hv.1 hv.2
    obtain ⟨hun, hvn, hne, hedge⟩ := hparadj v hv.1 hv.2
    rw [Finset.mem_filter, Finset.mem_range]
    refine ⟨bitPos_lt h2, ?_⟩
    rcases Nat.le_total (par v) v with hle | hle
    · rw [min_eq_left hle, max_eq_right hle]
      exact hedge
    · rw [min_eq_right hle, max_eq_left hle]
      show edgeIn n a v (par v) = true
      rw [edgeIn_comm]
      exact hedge
  have hinj : Set.InjOn (fun v => bitPos n (min (par v) v) (max (par v) v))
      (Finset.Ico 1 n) := by
    intro v hv w hw heq
    rw [Finset.coe_Ico, Set.mem_Ico] at hv hw
    obtain ⟨hun, hvn, hne, -⟩ := hparadj v hv.1 hv.2
    obtain ⟨hun', hvn', hne', -⟩ := hparadj w hw.1 hw.2
    simp only at heq
    have hminv : min (par v) v < max (par v) v := by omega
    have hminw : min (par w) w < max (par w) w := by omega
    have hmaxvn : max (par v) v < n := by omega
    have hmaxwn : max (par w) w < n := by omega
    have := bitPos_injOn h11 h2 hminv hmaxvn hminw hmaxwn heq
    have hsets : (v = w) ∨ (v = par w ∧ par v = w) := by omega
    rcases hsets with h | ⟨h1, h2'⟩
    · exact h
    · exfalso
      have hdv := hpard v hv.1 hv.2
      have hdw := hpard w hw.1 hw.2
      have hd1v := hd1 v hv.1 hv.2
      have hd1w := hd1 w hw.1 hw.2
      rw [h2'] at hdv
      rw [← h1] at hdw
      omega
  have hcard := Finset.card_le_card_of_injOn _ hmaps hinj
  rw [Nat.card_Ico] at hcard
  rw [popcount_eq_card _ _ hadj]
  exact hcard

/-- Handshake: the degrees over all nodes sum to twice the edge count. -/
lemma sum_degreeOf {n a : Nat} (h11 : n ≤ 11) (h2 : 2 ≤ n) :
    ∑ v ∈ Finset.range n, degreeOf n a v = 2 * edgeCount n a := by
  have hconv : ∀ v : Nat, degreeOf n a v
      = ∑ e ∈ (pairList n).toFinset.filter fun e => edgeIn n a e.1 e.2 = true,
          if e.1 = v ∨ e.2 = v then 1 else 0 := by
    intro v
    unfold degreeOf
    rw [length_filter_eq_card_filter (pairList_nodup h11 h2)]
    have h1 : ((pairList n).toFinset.filter fun e =>
          (edgeIn n a e.1 e.2 && (e.1 == v || e.2 == v)) = true)
        = ((pairList n).toFinset.filter fun e => edgeIn n a e.1 e.2 = true).filter
            fun e => e.1 = v ∨ e.2 = v := by
      rw [Finset.filter_filter]
      apply Finset.filter_congr
      intro e _
      rw [Bool.and_eq_true, Bool.or_eq_true, beq_iff_eq, beq_iff_eq]
    rw [h1, Finset.card_filter]
  simp only [hconv]
  rw [Finset.sum_comm]
  have hinner : ∀ e ∈ (pairList n).toFinset.filter fun e => edgeIn n a e.1 e.2 = true,
      (∑ v ∈ Finset.range n, if e.1 = v ∨ e.2 = v then 1 else 0) = 2 := by
    intro e he
    rw [Finset.mem_filter, List.mem_toFinset] at he
    obtain ⟨hmem, hedge⟩ := he
    obtain ⟨i, j⟩ := e
    rw [mem_pairList] at hmem
    rw [← Finset.card_filter]
    have hset : (Finset.range n).filter (fun v => (i, j).1 = v ∨ (i, j).2 = v)
        = ({i, j} : Finset Nat) := by
      ext v
      simp only [Finset.mem_filter, Finset.mem_range, Finset.mem_insert,
        Finset.mem_singleton]
      constructor
      · rintro ⟨hvn, h | h⟩
        · exact Or.inl (by omega)
        · exact Or.inr (by omega)
      · rintro (h | h)
        · exact ⟨by omega, Or.inl (by omega)⟩
        · exact ⟨by omega, Or.inr (by omega)⟩
    rw [hset, Finset.card_pair (by omega)]
  rw [Finset.sum_congr rfl hinner, Finset.sum_const, smul_eq_mul]
  unfold edgeCount
  rw [length_filter_eq_card_filter (pairList_nodup h11 h2)]
  ring

lemma adjOfEdges_testBit (n : Nat) (L : List (Nat × Nat)) (p : Nat) :
    (adjOfEdges n L).testBit p
      = L.any fun e => decide (bitPos n e.1 e.2 = p) := by
  unfold adjOfEdges
  rw [foldl_or_testBit, Nat.zero_testBit, Bool.false_or]
  have hpt : ∀ e : Nat × Nat, ((1 <<< bitPos n e.1 e.2 : Nat).testBit p)
      = decide (bitPos n e.1 e.2 = p) := by
    intro e
    rw [Nat.one_shiftLeft, Nat.testBit_two_pow]
  simp only [hpt]

/-- Rebuilding an adjacency from its extracted edge list is the identity
on the triangular bit space. -/
lemma adjOfEdges_of_filter {n t : Nat} (h11 : n ≤ 11) (h2 : 2 ≤ n)
    (ht : t < 2 ^ (n * (n - 1) / 2)) :
    adjOfEdges n ((pairList n).filter fun e => edgeIn n t e.1 e.2) = t := by
  apply Nat.eq_of_testBit_eq
  intro p
  rw [adjOfEdges_testBit]
  cases hb : t.testBit p with
  | true =>
    have hpT : p < n * (n - 1) / 2 := by
      by_contra hge
      have hlt : t < 2 ^ p := lt_of_lt_of_le ht (Nat.pow_le_pow_right (by omega) (by omega))
      rw [Nat.testBit_lt_two_pow hlt] at hb
      cases hb
    obtain ⟨i, j, hij, hj, hbp⟩ := bitPos_surj h11 h2 hpT
    rw [List.any_eq_true]
    refine ⟨(i, j), ?_, ?_⟩
    · rw [List.mem_filter, mem_pairList]
      refine ⟨⟨hij, hj⟩, ?_⟩
      show edgeIn n t i j = true
      unfold edgeIn
      rw [hbp]
      exact hb
    · simp [hbp]
  | false =>
    rw [List.any_eq_false]
    intro e he
    rw [List.mem_filter] at he
    cases hd : decide (bitPos n e.1 e.2 = p)
    · simp
    · have hdp := of_decide_eq_true hd
      have het : edgeIn n t e.1 e.2 = true := he.2
      unfold edgeIn at het
      rw [hdp] at het
      rw [het] at hb
      cases hb

lemma adjOfEdges_getEdges_make {nodes : List Nat} {t : Nat}
    (h2 : 2 ≤ nodes.length) (h11 : nodes.length ≤ 11)
    (ht : t < 2 ^ (nodes.length * (nodes.length - 1) / 2)) :
    adjOfEdges nodes.length
      ((Graph.make nodes t (calculateDegreeFilter nodes.length)
        (adjTriuMasks nodes.length) (generatePermutations nodes)).getEdges) = t := by
  rw [getEdges_make]
  have hcong : (pairList nodes.length).filter
      (fun e => isEdgeF nodes.length (adjTriuMasks nodes.length) t e.1 e.2)
      = (pairList nodes.length).filter fun e => edgeIn nodes.length t e.1 e.2 := by
    apply List.filter_congr
    intro e he
    obtain ⟨i, j⟩ := e
    rw [mem_pairList] at he
    exact isEdgeF_eq_edgeIn h11 h2 t (by omega) (by omega) (by omega)
  rw [hcong]
  exact adjOfEdges_of_filter h11 h2 ht

lemma id_mem_generatePermutations (nodes : List Nat) :
    List.range nodes.length ∈ generatePermutations nodes := by
  rw [mem_generatePermutations]
  refine ⟨List.length_range _, List.nodup_range _, ?_⟩
  intro k hk
  rw [getD_range hk]
  exact ⟨hk, rfl⟩

lemma isEdge_make (nodes : List Nat) (t : Nat) (df masks : List Nat)
    (perms : List (List Nat)) (u v : Nat) :
    (Graph.make nodes t df masks perms).isEdge u v = isEdgeF nodes.length masks t u v := rfl

lemma graphEq_make_refl (nodes : List Nat) (adj : Nat) (df : List Nat) :
    graphEq
      (Graph.make nodes adj df (adjTriuMasks nodes.length) (generatePermutations nodes))
      (Graph.make nodes adj df (adjTriuMasks nodes.length) (generatePermutations nodes))
      = true := by
  rw [graphEq_iff]
  refine ⟨rfl, List.range nodes.length, id_mem_generatePermutations nodes, ?_⟩
  intro i j hij hj
  have hj' : j < nodes.length := hj
  rw [isEdge_make, isEdge_make, getD_range (by omega : i < nodes.length), getD_range hj']

lemma isoAdj_symm {nodes : List Nat} {a b : Nat} (h : IsoAdj nodes a b) :
    IsoAdj nodes b a := by
  obtain ⟨p, hp, hedge⟩ := h
  have hpmem := (mem_generatePermutations nodes p).mpr hp
  obtain ⟨q, hqmem, hinv⟩ := generatePermutations_inverse hpmem
  have hq := (mem_generatePermutations nodes q).mp hqmem
  refine ⟨q, hq, ?_⟩
  intro i j hij hj
  have hi : i < nodes.length := by omega
  have hx : q.getD i 0 < nodes.length := (hq.2.2 i hi).1
  have hy : q.getD j 0 < nodes.length := (hq.2.2 j hj).1
  have hpi : p.getD (q.getD i 0) 0 = i := (hinv i hi).2
  have hpj : p.getD (q.getD j 0) 0 = j := (hinv j hj).2
  rcases Nat.lt_or_ge (q.getD i 0) (q.getD j 0) with hlt | hge
  · have := hedge (q.getD i 0) (q.getD j 0) hlt hy
    rw [hpi, hpj] at this
    exact this.symm
  · have hne : q.getD i 0 ≠ q.getD j 0 := by
      intro he
      rw [← hpi, he, hpj] at hij
      omega
    have hlt' : q.getD j 0 < q.getD i 0 := by omega
    have := hedge (q.getD j 0) (q.getD i 0) hlt' hx
    rw [hpi, hpj] at this
    rw [edgeIn_comm nodes.length b i j,
      edgeIn_comm nodes.length a (q.getD i 0) (q.getD j 0)]
    exact this.symm

/-- On candidates in the triangular bit space sharing the standard tables,
`Graph::operator==` decides exactly color-preserving isomorphism. -/
lemma graphEq_iff_isoAdj {nodes : List Nat} {t1 t2 : Nat}
    (h2 : 2 ≤ nodes.length) (h11 : nodes.length ≤ 11)
    (ht1 : t1 < 2 ^ (nodes.length * (nodes.length - 1) / 2))
    (ht2 : t2 < 2 ^ (nodes.length * (nodes.length - 1) / 2)) :
    graphEq
      (Graph.make nodes t1 (calculateDegreeFilter nodes.length)
        (adjTriuMasks nodes.length) (generatePermutations nodes))
      (Graph.make nodes t2 (calculateDegreeFilter nodes.length)
        (adjTriuMasks nodes.length) (generatePermutations nodes)) = true
    ↔ IsoAdj nodes t1 t2 := by
  rw [graphEq_iff]
  constructor
  · rintro ⟨hrep, p, hp, hiff⟩
    have hpcp := (mem_generatePermutations nodes p).mp hp
    obtain ⟨q, hqmem, hinv⟩ := generatePermutations_inverse hp
    refine ⟨p, hpcp, ?_⟩
    intro i j hij hj
    have hj' : j < nodes.length := hj
    have hi : i < nodes.length := by omega
    have hx : p.getD i 0 < nodes.length := (hpcp.2.2 i hi).1
    have hy : p.getD j 0 < nodes.length := (hpcp.2.2 j hj').1
    have hne : p.getD i 0 ≠ p.getD j 0 := by
      intro he
      have e1 := (hinv i hi).1
      have e2 := (hinv j hj').1
      rw [he] at e1
      omega
    have hstep := hiff i j hij hj
    rw [isEdge_make, isEdge_make,
      isEdgeF_eq_edgeIn h11 h2 t1 (by omega) hi hj',
      isEdgeF_eq_edgeIn h11 h2 t2 hne hx hy] at hstep
    exact hstep
  · rintro ⟨p, hpcp, hedge⟩
    have hpmem := (mem_generatePermutations nodes p).mpr hpcp
    obtain ⟨q, hqmem, hinv⟩ := generatePermutations_inverse hpmem
    have hrep : calcRepresentation nodes t1 (calculateDegreeFilter nodes.length)
          (adjTriuMasks nodes.length)
        = calcRepresentation nodes t2 (calculateDegreeFilter nodes.length)
          (adjTriuMasks nodes.length) := by
      rw [calcRepresentation_eq_reprSpec nodes t1 h2 h11 ht1,
        calcRepresentation_eq_reprSpec nodes t2 h2 h11 ht2]
      exact reprSpec_iso nodes t1 t2 h2 h11 ⟨p, hpcp, hedge⟩
    refine ⟨hrep, p, hpmem, ?_⟩
    intro i j hij hj
    have hj' : j < nodes.length := hj
    have hi : i < nodes.length := by omega
    have hx : p.getD i 0 < nodes.length := (hpcp.2.2 i hi).1
    have hy : p.getD j 0 < nodes.length := (hpcp.2.2 j hj').1
    have hne : p.getD i 0 ≠ p.getD j 0 := by
      intro he
      have e1 := (hinv i hi).1
      have e2 := (hinv j hj').1
      rw [he] at e1
      omega
    rw [isEdge_make, isEdge_make,
      isEdgeF_eq_edgeIn h11 h2 t1 (by omega) hi hj',
      isEdgeF_eq_edgeIn h11 h2 t2 hne hx hy]
    exact hedge i j hij hj'

/-- Invariant of the representation-keyed dedup buckets: distinct keys,
every graph stored under its own representation, and no two stored graphs
in a bucket testing equal. -/
def BucketsOk (buckets : List (List Nat × List Graph)) : Prop :=
  (buckets.map Prod.fst).Nodup ∧
  (∀ b ∈ buckets, ∀ g ∈ b.2, g.representation = b.1) ∧
  (∀ b ∈ buckets, b.2.Pairwise fun u v => graphEq u v = false)

lemma bucketsOk_nil : BucketsOk [] := by
  refine ⟨List.nodup_nil, ?_, ?_⟩ <;> intro b hb <;> cases hb

lemma keys_dedupInsert {g : Graph} {k' : List Nat} :
    ∀ buckets : List (List Nat × List Graph),
      k' ∈ (dedupInsert buckets g).map Prod.fst →
      k' ∈ buckets.map Prod.fst ∨ k' = g.representation := by
  intro buckets
  induction buckets with
  | nil =>
    intro h
    simp [dedupInsert] at h
    right
    exact h
  | cons b rest ih =>
    intro h
    obtain ⟨k, gs⟩ := b
    rw [dedupInsert] at h
    by_cases hk : k = g.representation
    · rw [if_pos hk] at h
      by_cases hany : (gs.any fun u => graphEq u g) = true
      · rw [if_pos hany] at h
        left
        exact h
      · rw [if_neg hany] at h
        left
        simpa using h
    · rw [if_neg hk] at h
      simp only [List.map_cons, List.mem_cons] at h ⊢
      rcases h with h | h
      · exact Or.inl (Or.inl h)
      · rcases ih h with h1 | h1
        · exact Or.inl (Or.inr h1)
        · exact Or.inr h1

lemma dedupInsert_ok {g : Graph} :
    ∀ buckets : List (List Nat × List Graph),
      BucketsOk buckets → BucketsOk (dedupInsert buckets g) := by
  intro buckets
  induction buckets with
  | nil =>
    intro _
    refine ⟨by simp [dedupInsert], ?_, ?_⟩
    · intro b hb g' hg'
      rw [dedupInsert] at hb
      rw [List.mem_singleton] at hb
      subst hb
      rw [List.mem_singleton] at hg'
      subst hg'
      rfl
    · intro b hb
      rw [dedupInsert, List.mem_singleton] at hb
      subst hb
      exact List.pairwise_singleton _ _
  | cons b rest ih =>
    intro hok
    obtain ⟨k, gs⟩ := b
    obtain ⟨hkeys, hrep, hpw⟩ := hok
    rw [List.map_cons, List.nodup_cons] at hkeys
    rw [dedupInsert]
    by_cases hk : k = g.representation
    · rw [if_pos hk]
      by_cases hany : (gs.any fun u => graphEq u g) = true
      · rw [if_pos hany]
        exact ⟨by rw [List.map_cons, List.nodup_cons]; exact hkeys, hrep, hpw⟩
      · rw [if_neg hany]
        refine ⟨by rw [List.map_cons, List.nodup_cons]; exact hkeys, ?_, ?_⟩
        · intro b' hb' g' hg'
          rcases List.mem_cons.mp hb' with h | h
          · subst h
            rcases List.mem_append.mp hg' with h1 | h1
            · exact hrep (k, gs) (List.mem_cons_self _ _) g' h1
            · rw [List.mem_singleton] at h1
              subst h1
              exact hk.symm
          · exact hrep b' (List.mem_cons_of_mem _ h) g' hg'
        · intro b' hb'
          rcases List.mem_cons.mp hb' with h | h
          · subst h
            rw [List.pairwise_append]
            refine ⟨hpw (k, gs) (List.mem_cons_self _ _), List.pairwise_singleton _ _, ?_⟩
            intro u hu v hv
            rw [List.mem_singleton] at hv
            subst hv
            have hany' : (gs.any fun u => graphEq u v) = false := Bool.eq_false_iff.mpr hany
            rw [List.any_eq_false] at hany'
            have := hany' u hu
            simpa using this
          · exact hpw b' (List.mem_cons_of_mem _ h)
    · rw [if_neg hk]
      have hrest : BucketsOk rest :=
        ⟨hkeys.2, fun b' hb' => hrep b' (List.mem_cons_of_mem _ hb'),
         fun b' hb' => hpw b' (List.mem_cons_of_mem _ hb')⟩
      obtain ⟨hkeys', hrep', hpw'⟩ := ih hrest
      refine ⟨?_, ?_, ?_⟩
      · rw [List.map_cons, List.nodup_cons]
        refine ⟨?_, hkeys'⟩
        intro hmem
        rcases keys_dedupInsert rest hmem with h | h
        · exact hkeys.1 h
        · exact hk h
      · intro b' hb' g' hg'
        rcases List.mem_cons.mp hb' with h | h
        · subst h
          exact hrep (k, gs) (List.mem_cons_self _ _) g' hg'
        · exact hrep' b' h g' hg'
      · intro b' hb'
        rcases List.mem_cons.mp hb' with h | h
        · subst h
          exact hpw (k, gs) (List.mem_cons_self _ _)
        · exact hpw' b' h

lemma foldl_dedup_ok :
    ∀ (gs : List Graph) (buckets : List (List Nat × List Graph)),
      BucketsOk buckets → BucketsOk (gs.foldl dedupInsert buckets) := by
  intro gs
  induction gs with
  | nil => intro buckets h; exact h
  | cons x xs ih =>
    intro buckets h
    rw [List.foldl_cons]
    exact ih _ (dedupInsert_ok buckets h)

lemma dedupInsert_mono {g g' : Graph} :
    ∀ buckets : List (List Nat × List Graph),
      g' ∈ buckets.flatMap (fun b => b.2) →
      g' ∈ (dedupInsert buckets g).flatMap (fun b => b.2) := by
  intro buckets
  induction buckets with
  | nil => intro h; cases (by simpa using h : False)
  | cons b rest ih =>
    intro h
    obtain ⟨k, gs⟩ := b
    rw [List.flatMap_cons, List.mem_append] at h
    rw [dedupInsert]
    by_cases hk : k = g.representation
    · rw [if_pos hk]
      by_cases hany : (gs.any fun u => graphEq u g) = true
      · rw [if_pos hany, List.flatMap_cons, List.mem_append]
        exact h
      · rw [if_neg hany, List.flatMap_cons, List.mem_append]
        rcases h with h | h
        · exact Or.inl (List.mem_append.mpr (Or.inl h))
        · exact Or.inr h
    · rw [if_neg hk, List.flatMap_cons, List.mem_append]
      rcases h with h | h
      · exact Or.inl h
      · exact Or.inr (ih h)

lemma foldl_dedup_mono {g' : Graph} :
    ∀ (gs : List Graph) (buckets : List (List Nat × List Graph)),
      g' ∈ buckets.flatMap (fun b => b.2) →
      g' ∈ ((gs.foldl dedupInsert buckets).flatMap fun b => b.2) := by
  intro gs
  induction gs with
  | nil => intro buckets h; exact h
  | cons x xs ih =>
    intro buckets h
    rw [List.foldl_cons]
    exact ih _ (dedupInsert_mono buckets h)

lemma dedupInsert_hits {g : Graph} (hrefl : graphEq g g = true) :
    ∀ buckets : List (List Nat × List Graph),
      ∃ u ∈ (dedupInsert buckets g).flatMap (fun b => b.2), graphEq u g = true := by
  intro buckets
  induction buckets with
  | nil =>
    refine ⟨g, ?_, hrefl⟩
    simp [dedupInsert]
  | cons b rest ih =>
    obtain ⟨k, gs⟩ := b
    rw [dedupInsert]
    by_cases hk : k = g.representation
    · rw [if_pos hk]
      by_cases hany : (gs.any fun u => graphEq u g) = true
      · rw [if_pos hany]
        rw [List.any_eq_true] at hany
        obtain ⟨u, hu, hEq⟩ := hany
        exact ⟨u, by
          rw [List.flatMap_cons, List.mem_append]
          exact Or.inl hu, hEq⟩
      · rw [if_neg hany]
        refine ⟨g, ?_, hrefl⟩
        rw [List.flatMap_cons, List.mem_append]
        exact Or.inl (List.mem_append.mpr (Or.inr (List.mem_singleton.mpr rfl)))
    · rw [if_neg hk]
      obtain ⟨u, hu, hEq⟩ := ih
      refine ⟨u, ?_, hEq⟩
      rw [List.flatMap_cons, List.mem_append]
      exact Or.inr hu

lemma foldl_dedup_complete :
    ∀ (gs : List Graph) (buckets : List (List Nat × List Graph)),
      (∀ g ∈ gs, graphEq g g = true) →
      ∀ g ∈ gs, ∃ u ∈ ((gs.foldl dedupInsert buckets).flatMap fun b => b.2),
        graphEq u g = true := by
  intro gs
  induction gs with
  | nil => intro buckets _ g hg; cases hg
  | cons x xs ih =>
    intro buckets hrefl g hg
    rw [List.foldl_cons]
    rcases List.mem_cons.mp hg with h | h
    · subst h
      obtain ⟨u, hu, hEq⟩ := dedupInsert_hits (hrefl g hg) buckets
      exact ⟨u, foldl_dedup_mono xs _ hu, hEq⟩
    · exact ih _ (fun g' hg' => hrefl g' (List.mem_cons_of_mem _ hg')) g h

lemma bucketsOk_flatMap_pairwise :
    ∀ buckets : List (List Nat × List Graph), BucketsOk buckets →
      (buckets.flatMap fun b => b.2).Pairwise
        fun u v => graphEq u v = false ∨ u.representation ≠ v.representation := by
  intro buckets
  induction buckets with
  | nil => intro _; simp
  | cons b rest ih =>
    intro hok
    obtain ⟨hkeys, hrep, hpw⟩ := hok
    rw [List.map_cons, List.nodup_cons] at hkeys
    rw [List.flatMap_cons, List.pairwise_append]
    refine ⟨(hpw b (List.mem_cons_self _ _)).imp Or.inl, ?_, ?_⟩
    · exact ih ⟨hkeys.2, fun b' hb' => hrep b' (List.mem_cons_of_mem _ hb'),
        fun b' hb' => hpw b' (List.mem_cons_of_mem _ hb')⟩
    · intro u hu v hv
      right
      rw [List.mem_flatMap] at hv
      obtain ⟨b', hb', hvb⟩ := hv
      have hur : u.representation = b.1 := hrep b (List.mem_cons_self _ _) u hu
      have hvr : v.representation = b'.1 := hrep b' (List.mem_cons_of_mem _ hb') v hvb
      have hkne : b.1 ≠ b'.1 := by
        intro he
        apply hkeys.1
        rw [he]
        exact List.mem_map.mpr ⟨b', hb', rfl⟩
      rw [hur, hvr]
      exact hkne

/-- A feasible adjacency per the specification: inside the triangular bit
space, connected, and with every node degree within bounds. -/
def ValidAdj (nodes : List Nat) (maxD minD a : Nat) : Prop :=
  a < 2 ^ (nodes.length * (nodes.length - 1) / 2) ∧
  ConnectedAdj nodes.length a ∧
  ∀ v < nodes.length, minD ≤ degreeOf nodes.length a v ∧ degreeOf nodes.length a v ≤ maxD

lemma validAdj_mem_candidateTrius {nodes : List Nat} {maxD minD a : Nat}
    (h2 : 2 ≤ nodes.length) (h11 : nodes.length ≤ 11)
    (hnw : nodes.length * maxD < 2 ^ 32)
    (hval : ValidAdj nodes maxD minD a) :
    a ∈ candidateTrius nodes maxD minD := by
  have hmod : nodes.length * maxD % 2 ^ 32 = nodes.length * maxD :=
    Nat.mod_eq_of_lt hnw
  obtain ⟨hlt, hconn, hdeg⟩ := hval
  rw [candidateTrius_mem nodes maxD minD h2 h11 a]
  refine ⟨connected_popcount_ge h11 h2 hlt hconn, ?_, hlt, ?_⟩
  · have hhs := @sum_degreeOf nodes.length a h11 h2
    have hsumle : ∑ v ∈ Finset.range nodes.length, degreeOf nodes.length a v
        ≤ nodes.length * maxD := by
      calc ∑ v ∈ Finset.range nodes.length, degreeOf nodes.length a v
          ≤ ∑ _v ∈ Finset.range nodes.length, maxD :=
            Finset.sum_le_sum fun i hi => (hdeg i (Finset.mem_range.mp hi)).2
      _ = nodes.length * maxD := by
          rw [Finset.sum_const, Finset.card_range, smul_eq_mul]
    have hec := popcount_eq_edgeCount h11 h2 hlt
    have hpcT : popcount a ≤ nodes.length * (nodes.length - 1) / 2 :=
      popcount_le_of_lt_two_pow _ _ hlt
    omega
  · rw [checkDegrees_iff]
    intro i hi
    rw [popcount_and_degreeFilter h11 h2 hi]
    exact hdeg i hi

lemma candidate_validAdj {nodes : List Nat} {maxD minD t : Nat}
    (h2 : 2 ≤ nodes.length) (h11 : nodes.length ≤ 11)
    (ht : t ∈ candidateTrius nodes maxD minD)
    (hc : ConnectedAdj nodes.length t) :
    ValidAdj nodes maxD minD t := by
  rw [candidateTrius_mem nodes maxD minD h2 h11 t] at ht
  obtain ⟨-, -, hlt, hcd⟩ := ht
  refine ⟨hlt, hc, ?_⟩
  rw [checkDegrees_iff] at hcd
  intro v hv
  have := hcd v hv
  rw [popcount_and_degreeFilter h11 h2 hv] at this
  exact this

lemma mem_connectedGraphs_intro {nodes : List Nat} {maxD minD t : Nat}
    (ht : t ∈ candidateTrius nodes maxD minD)
    (hc : (Graph.make nodes t (calculateDegreeFilter nodes.length)
      (adjTriuMasks nodes.length) (generatePermutations nodes)).connected = true) :
    Graph.make nodes t (calculateDegreeFilter nodes.length)
      (adjTriuMasks nodes.length) (generatePermutations nodes)
      ∈ connectedGraphs nodes maxD minD := by
  simp only [connectedGraphs, List.mem_filter, List.mem_map]
  exact ⟨⟨t, ht, rfl⟩, hc⟩

/-- A spec-valid input where `generateEdges` misses an entire isomorphism
class: the 4-node path adjacency 37 is connected and degree-feasible for
`maxDegree = 2^30`, but the 32-bit product `nNodes * maxDegree` wraps to
0, so the program returns no edge list at all. -/
theorem C1_counterexample :
    ValidAdj [0, 0, 0, 0] (2 ^ 30) 0 37 ∧
    generateEdges [0, 0, 0, 0] (2 ^ 30) 0 = [] := by
  constructor
  · refine ⟨by decide, ?_, by decide⟩
    have e01 : AdjRel ([0, 0, 0, 0] : List Nat).length 37 0 1 :=
      ⟨by decide, by decide, by decide, by decide⟩
    have e12 : AdjRel ([0, 0, 0, 0] : List Nat).length 37 1 2 :=
      ⟨by decide, by decide, by decide, by decide⟩
    have e23 : AdjRel ([0, 0, 0, 0] : List Nat).length 37 2 3 :=
      ⟨by decide, by decide, by decide, by decide⟩
    intro v hv
    have hv2 : v < 4 := hv
    interval_cases v
    · exact Relation.ReflTransGen.refl
    · exact Relation.ReflTransGen.refl.tail e01
    · exact (Relation.ReflTransGen.refl.tail e01).tail e12
    · exact ((Relation.ReflTransGen.refl.tail e01).tail e12).tail e23
  · rfl

/-- C1 (amended): every returned list is the edge list of a connected,
degree-feasible adjacency and no two returned lists have isomorphic
adjacencies — unconditionally; and provided the edge-budget product
`n * maxDegree` does not overflow the source's 32-bit arithmetic, every
connected, degree-feasible adjacency is isomorphic to some returned
list's adjacency (one representative per class). -/
theorem C1_unique_class_representatives (nodes : List Nat) (maxD minD : Nat)
    (h2 : 2 ≤ nodes.length) (h11 : nodes.length ≤ 11) :
    (∀ E ∈ generateEdges nodes maxD minD,
      ValidAdj nodes maxD minD (adjOfEdges nodes.length E) ∧
      E = (pairList nodes.length).filter
        (fun e => edgeIn nodes.length (adjOfEdges nodes.length E) e.1 e.2)) ∧
    (nodes.length * maxD < 2 ^ 32 → ∀ a, ValidAdj nodes maxD minD a →
      ∃ E ∈ generateEdges nodes maxD minD, IsoAdj nodes a (adjOfEdges nodes.length E)) ∧
    (generateEdges nodes maxD minD).Pairwise
      (fun E1 E2 => ¬ IsoAdj nodes (adjOfEdges nodes.length E1)
        (adjOfEdges nodes.length E2)) := by
  have hTbound : ∀ t, t ∈ candidateTrius nodes maxD minD →
      t < 2 ^ (nodes.length * (nodes.length - 1) / 2) := by
    intro t ht
    exact ((candidateTrius_mem nodes maxD minD h2 h11 t).mp ht).2.2.1
  have hconnflag : ∀ t : Nat,
      (Graph.make nodes t (calculateDegreeFilter nodes.length)
        (adjTriuMasks nodes.length) (generatePermutations nodes)).connected = true
      ↔ ConnectedAdj nodes.length t := by
    intro t
    show checkConnectedF nodes.length (adjTriuMasks nodes.length) t = true ↔ _
    exact checkConnectedF_iff t h2 h11
  refine ⟨?_, ?_, ?_⟩
  · -- soundness of each returned list
    intro E hE
    unfold generateEdges at hE
    rw [List.mem_map] at hE
    obtain ⟨g, hg, rfl⟩ := hE
    obtain ⟨t, ht, rfl, hc⟩ := mem_connectedGraphs (mem_uniqueGraphsList hg)
    have htb := hTbound t ht
    have hround := adjOfEdges_getEdges_make h2 h11 htb
    rw [hround]
    constructor
    · exact candidate_validAdj h2 h11 ht ((hconnflag t).mp hc)
    · rw [getEdges_make]
      apply List.filter_congr
      intro e he
      obtain ⟨i, j⟩ := e
      rw [mem_pairList] at he
      exact isEdgeF_eq_edgeIn h11 h2 t (by omega) (by omega) (by omega)
  · -- completeness: every valid adjacency is represented
    intro hnw a hval
    have hmem := validAdj_mem_candidateTrius h2 h11 hnw hval
    have hflag := (hconnflag a).mpr hval.2.1
    have hga := mem_connectedGraphs_intro hmem hflag
    have hrefl : ∀ g ∈ connectedGraphs nodes maxD minD, graphEq g g = true := by
      intro g hg
      obtain ⟨t, ht, rfl, -⟩ := mem_connectedGraphs hg
      exact graphEq_make_refl nodes t (calculateDegreeFilter nodes.length)
    obtain ⟨u, hu, hEq⟩ :=
      foldl_dedup_complete (connectedGraphs nodes maxD minD) [] hrefl _ hga
    have huu : u ∈ uniqueGraphsList nodes maxD minD := hu
    obtain ⟨tu, htu, hueq, -⟩ := mem_connectedGraphs (mem_uniqueGraphsList huu)
    have htub := hTbound tu htu
    have hab := hval.1
    rw [hueq] at hEq
    have hiso : IsoAdj nodes tu a := (graphEq_iff_isoAdj h2 h11 htub hab).mp hEq
    refine ⟨u.getEdges, ?_, ?_⟩
    · unfold generateEdges
      rw [List.mem_map]
      exact ⟨u, huu, rfl⟩
    · rw [hueq, adjOfEdges_getEdges_make h2 h11 htub]
      exact isoAdj_symm hiso
  · -- no two returned lists are isomorphic
    unfold generateEdges
    rw [List.pairwise_map]
    have hok := foldl_dedup_ok (connectedGraphs nodes maxD minD) [] bucketsOk_nil
    have hpw := bucketsOk_flatMap_pairwise _ hok
    have hpw' : (uniqueGraphsList nodes maxD minD).Pairwise
        fun u v => graphEq u v = false ∨ u.representation ≠ v.representation := hpw
    apply hpw'.imp_of_mem
    intro g1 g2 hg1 hg2 hR hiso
    obtain ⟨t1, ht1, he1, -⟩ := mem_connectedGraphs (mem_uniqueGraphsList hg1)
    obtain ⟨t2, ht2, he2, -⟩ := mem_connectedGraphs (mem_uniqueGraphsList hg2)
    have hb1 := hTbound t1 ht1
    have hb2 := hTbound t2 ht2
    rw [he1, adjOfEdges_getEdges_make h2 h11 hb1] at hiso
    rw [he2, adjOfEdges_getEdges_make h2 h11 hb2] at hiso
    rcases hR with hR | hR
    · rw [he1, he2] at hR
      have := (graphEq_iff_isoAdj h2 h11 hb1 hb2).mpr hiso
      rw [this] at hR
      cases hR
    · apply hR
      rw [he1, he2]
      show calcRepresentation nodes t1 (calculateDegreeFilter nodes.length)
          (adjTriuMasks nodes.length)
        = calcRepresentation nodes t2 (calculateDegreeFilter nodes.length)
          (adjTriuMasks nodes.length)
      rw [calcRepresentation_eq_reprSpec nodes t1 h2 h11 hb1,
        calcRepresentation_eq_reprSpec nodes t2 h2 h11 hb2]
      exact reprSpec_iso nodes t1 t2 h2 h11 hiso

theorem C1_unique_class_representatives_witness :
    ValidAdj [0, 0] 1 1 (adjOfEdges 2 [(0, 1)]) ∧
    (∃ E ∈ generateEdges [0, 0] 1 1, IsoAdj [0, 0] 1 (adjOfEdges 2 E)) ∧
    (generateEdges [0, 0] 1 1).Pairwise
      (fun E1 E2 => ¬ IsoAdj [0, 0] (adjOfEdges 2 E1) (adjOfEdges 2 E2)) :=
  have h := C1_unique_class_representatives [0, 0] 1 1 (by decide) (by decide)
  ⟨(h.1 [(0, 1)] (by decide)).1,
   h.2.1 (by decide) 1 ⟨by decide, by
     intro v hv
     have hv2 : v < 2 := hv
     interval_cases v
     · exact Relation.ReflTransGen.refl
     · exact Relation.ReflTransGen.refl.tail
         ⟨by decide, by decide, by decide, by decide⟩, by decide⟩,
   h.2.2⟩

end GraphEnum
